import Mathlib

/-!
Verification development for the blackwidow sorted-set storage engine
(`src/redis_zsets.cc`).

The engine stores each sorted set across three RocksDB column families:

* meta CF  : user key -> (version, count, timestamp)
* data CF  : (user key, version, member) -> score (raw double bits)
* score CF : (user key, version, score, member) -> "" (score-ordered)

The shallow embedding below represents the database state as three finite
row lists and each engine command as a Lean function mirroring the control
flow of the corresponding C++ function.  Scores (C++ `double`) are modelled
as an exact rational value together with a sign bit, which is what the
engine observes of a double: IEEE comparisons (`==`, `<`, `std::min`,
`std::max`) read only the numeric value, while the stored bit pattern keeps
`-0.0` distinct from `+0.0`.  The sentinels `std::numeric_limits<double>::lowest()`
and `::max()` used only as iterator seek targets are modelled as lying
strictly below / above every stored score.  Write batches are modelled as
explicit operation lists applied atomically at the end of a command, exactly
as `rocksdb::WriteBatch` behaves; in-command reads therefore see the
pre-batch state, as in the source.

Helper classes of the repository that are not under `src/`
(`ParsedZSetsMetaValue`, the key codecs, the score-key comparator) are
modelled from the spec where noted.
-/

namespace Blackwidow

/-- User keys and members are byte strings. -/
abbrev Key := List Nat

abbrev Member := List Nat

/-- Byte-wise lexicographic comparison (memcmp order, shorter strict prefix
first): the order of RocksDB's default comparator and of `Slice::compare`. -/
def keyLt : List Nat → List Nat → Bool
  | [], [] => false
  | [], _ :: _ => true
  | _ :: _, [] => false
  | a :: as, b :: bs =>
    if a < b then true else if b < a then false else keyLt as bs

theorem keyLt_irrefl : ∀ (a : List Nat), keyLt a a = false
  | [] => rfl
  | x :: xs => by simp [keyLt, keyLt_irrefl xs]

theorem keyLt_trich : ∀ (a b : List Nat),
    keyLt a b = true ∨ a = b ∨ keyLt b a = true
  | [], [] => Or.inr (Or.inl rfl)
  | [], _ :: _ => Or.inl rfl
  | _ :: _, [] => Or.inr (Or.inr rfl)
  | a :: as, b :: bs => by
    rcases Nat.lt_trichotomy a b with h | h | h
    · exact Or.inl (by simp [keyLt, h])
    · subst h
      rcases keyLt_trich as bs with h2 | h2 | h2
      · exact Or.inl (by simp [keyLt, h2])
      · exact Or.inr (Or.inl (by rw [h2]))
      · exact Or.inr (Or.inr (by simp [keyLt, h2]))
    · exact Or.inr (Or.inr (by simp [keyLt, h, Nat.lt_asymm h]))

theorem keyLt_trans : ∀ {a b c : List Nat},
    keyLt a b = true → keyLt b c = true → keyLt a c = true
  | [], _ :: _, _ :: _, _, _ => rfl
  | [], [], _, h, _ => by simp [keyLt] at h
  | [], _ :: _, [], _, h2 => by simp [keyLt] at h2
  | _ :: _, [], _, h, _ => by simp [keyLt] at h
  | _ :: _, _ :: _, [], _, h2 => by simp [keyLt] at h2
  | a :: as, b :: bs, c :: cs, h1, h2 => by
    simp only [keyLt] at h1 h2 ⊢
    by_cases hab : a < b
    · by_cases hbc : b < c
      · rw [if_pos (Nat.lt_trans hab hbc)]
      · by_cases hcb : c < b
        · rw [if_neg hbc, if_pos hcb] at h2
          exact Bool.noConfusion h2
        · have hbc2 : b = c := Nat.le_antisymm (Nat.le_of_not_lt hcb) (Nat.le_of_not_lt hbc)
          subst hbc2
          rw [if_pos hab]
    · by_cases hba : b < a
      · rw [if_neg hab, if_pos hba] at h1
        exact Bool.noConfusion h1
      · have hab2 : a = b := Nat.le_antisymm (Nat.le_of_not_lt hba) (Nat.le_of_not_lt hab)
        subst hab2
        rw [if_neg (Nat.lt_irrefl a), if_neg (Nat.lt_irrefl a)] at h1
        by_cases hac : a < c
        · rw [if_pos hac]
        · by_cases hca : c < a
          · rw [if_neg hac, if_pos hca] at h2
            exact Bool.noConfusion h2
          · rw [if_neg hac, if_neg hca] at h2 ⊢
            exact keyLt_trans h1 h2

theorem keyLt_asymm {a b : List Nat} (h : keyLt a b = true) : keyLt b a = false := by
  by_contra hc
  have h2 : keyLt b a = true := by revert hc; cases keyLt b a <;> simp
  have := keyLt_trans h h2
  rw [keyLt_irrefl] at this
  exact Bool.noConfusion this

/-- A C++ `double` as the engine observes it: exact numeric value `q` plus
the sign bit `neg` (only meaningful for distinguishing `-0.0` from `+0.0`;
for nonzero values the operations below keep `neg` equal to `q < 0`). -/
structure D where
  q : ℚ
  neg : Bool
deriving DecidableEq, Repr

/-- The sign of a double: for zero values this is the stored sign bit. -/
def D.sign (a : D) : Bool :=
  if a.q < 0 then true else if 0 < a.q then false else a.neg

/-- IEEE multiplication on exactly-representable values: exact product,
sign by the IEEE sign rule (so `0 * -1 = -0.0`). -/
def D.mul (a b : D) : D :=
  ⟨a.q * b.q, xor a.sign b.sign⟩

/-- IEEE addition on exactly-representable values: a zero sum is `-0.0`
exactly when both addends are negative (round-to-nearest rules). -/
def D.add (a b : D) : D :=
  ⟨a.q + b.q, if a.q + b.q = 0 then a.sign && b.sign else decide (a.q + b.q < 0)⟩

/-- `std::min` on doubles: `(b < a) ? b : a`, where `<` is numeric. -/
def stdMin (a b : D) : D := if b.q < a.q then b else a

/-- `std::max` on doubles: `(a < b) ? b : a`, where `<` is numeric. -/
def stdMax (a b : D) : D := if a.q < b.q then b else a

/-- The aggregation step `score = (score == -0.0) ? 0 : score` of
`ZUnionstore`: IEEE `==` ignores the sign of zero, and the literal `0`
converts to `+0.0`. -/
def normZero (s : D) : D := if s.q = 0 then ⟨0, false⟩ else s

/-- `ScoreMember` of the source: a (score, member) pair. -/
structure SM where
  score : D
  member : Member
deriving DecidableEq, Repr

/-- Modelled from the spec: the meta-CF row value
`version (u32) | count (u32) | timestamp (i32)`; `ParsedZSetsMetaValue` is a
view of these three fields. -/
structure MetaValue where
  version : Nat
  count : Int
  timestamp : Int
deriving DecidableEq, Repr

/-- Modelled from the spec: `IsStale()` holds when `timestamp` is nonzero
and has passed (`timestamp ≠ 0 and timestamp ≤ now`). -/
def MetaValue.isStale (mv : MetaValue) (now : Int) : Bool :=
  decide (mv.timestamp ≠ 0) && decide (mv.timestamp ≤ now)

/-- Modelled from the spec: `InitialMetaValue()` bumps the version
monotonically (`max(clock, prev+1)`) and zeroes count and timestamp; the
sub-second clock is the explicit `tick` argument. -/
def initialMetaValue (mv : MetaValue) (tick : Nat) : MetaValue :=
  ⟨max tick (mv.version + 1), 0, 0⟩

/-- A data-CF row: key `(user key, version, member)`, value the score. -/
structure DRow where
  key : Key
  ver : Nat
  member : Member
  score : D
deriving DecidableEq, Repr

/-- A score-CF row: key `(user key, version, score, member)`, empty value. -/
structure SRow where
  key : Key
  ver : Nat
  score : D
  member : Member
deriving DecidableEq, Repr

/-- `rocksdb::Status` as the engine produces it. -/
inductive Status where
  | ok : Status
  | notFound (tag : String) : Status
  | corruption (msg : String) : Status
deriving DecidableEq, Repr

/-- The `AGGREGATE` enum of ZUNIONSTORE / ZINTERSTORE. -/
inductive Agg where
  | sum : Agg
  | min : Agg
  | max : Agg
deriving DecidableEq, Repr

/-- The database: one row list per column family.  Uniqueness of row keys is
an invariant (`Uniq` below), not baked into the type. -/
structure DB where
  meta : List (Key × MetaValue)
  data : List DRow
  score : List SRow
deriving DecidableEq, Repr

/-- Meta-CF point lookup. -/
def getMeta (db : DB) (k : Key) : Option MetaValue :=
  (db.meta.find? (fun p => decide (p.1 = k))).map (·.2)

/-- Data-CF point lookup of a member score. -/
def getData (db : DB) (k : Key) (v : Nat) (m : Member) : Option D :=
  (db.data.find? (fun r => decide (r.key = k ∧ r.ver = v ∧ r.member = m))).map (·.score)

/-- Modelled from the spec: the score-CF comparator
(`ZSetsScoreKeyComparatorImpl`): user key lexicographic, then version
numeric, then score numeric (IEEE), then member lexicographic. -/
def srLe (a b : SRow) : Prop :=
  keyLt a.key b.key = true ∨ (a.key = b.key ∧ (a.ver < b.ver ∨ (a.ver = b.ver ∧
    (a.score.q < b.score.q ∨ (a.score.q = b.score.q ∧
      (keyLt a.member b.member = true ∨ a.member = b.member))))))

instance : DecidableRel srLe := fun a b => by
  unfold srLe; infer_instance

/-- Modelled from the spec: the data-CF key order restricted to one
`(key, version)` prefix is lexicographic on member; the order across
prefixes is some fixed total order (the engine never iterates across a
prefix boundary when meta.count is accurate). -/
def drLe (a b : DRow) : Prop :=
  keyLt a.key b.key = true ∨ (a.key = b.key ∧ (a.ver < b.ver ∨ (a.ver = b.ver ∧
    (keyLt a.member b.member = true ∨ a.member = b.member))))

instance : DecidableRel drLe := fun a b => by
  unfold drLe; infer_instance

instance : IsTotal SRow srLe where
  total a b := by
    unfold srLe
    rcases keyLt_trich a.key b.key with h | h | h
    · exact Or.inl (Or.inl h)
    · rcases lt_trichotomy a.ver b.ver with h2 | h2 | h2
      · exact Or.inl (Or.inr ⟨h, Or.inl h2⟩)
      · rcases lt_trichotomy a.score.q b.score.q with h3 | h3 | h3
        · exact Or.inl (Or.inr ⟨h, Or.inr ⟨h2, Or.inl h3⟩⟩)
        · rcases keyLt_trich a.member b.member with h4 | h4 | h4
          · exact Or.inl (Or.inr ⟨h, Or.inr ⟨h2, Or.inr ⟨h3, Or.inl h4⟩⟩⟩)
          · exact Or.inl (Or.inr ⟨h, Or.inr ⟨h2, Or.inr ⟨h3, Or.inr h4⟩⟩⟩)
          · exact Or.inr (Or.inr ⟨h.symm, Or.inr ⟨h2.symm, Or.inr ⟨h3.symm, Or.inl h4⟩⟩⟩)
        · exact Or.inr (Or.inr ⟨h.symm, Or.inr ⟨h2.symm, Or.inl h3⟩⟩)
      · exact Or.inr (Or.inr ⟨h.symm, Or.inl h2⟩)
    · exact Or.inr (Or.inl h)

instance : IsTrans SRow srLe where
  trans a b c hab hbc := by
    unfold srLe at *
    rcases hab with h1 | ⟨e1, h1⟩
    · rcases hbc with h2 | ⟨e2, _⟩
      · exact Or.inl (keyLt_trans h1 h2)
      · exact Or.inl (e2 ▸ h1)
    · rcases hbc with h2 | ⟨e2, h2⟩
      · exact Or.inl (e1 ▸ h2)
      · refine Or.inr ⟨e1.trans e2, ?_⟩
        rcases h1 with h1 | ⟨f1, h1⟩
        · rcases h2 with h2 | ⟨f2, _⟩
          · exact Or.inl (h1.trans h2)
          · exact Or.inl (f2 ▸ h1)
        · rcases h2 with h2 | ⟨f2, h2⟩
          · exact Or.inl (f1 ▸ h2)
          · refine Or.inr ⟨f1.trans f2, ?_⟩
            rcases h1 with h1 | ⟨g1, h1⟩
            · rcases h2 with h2 | ⟨g2, _⟩
              · exact Or.inl (h1.trans h2)
              · exact Or.inl (g2 ▸ h1)
            · rcases h2 with h2 | ⟨g2, h2⟩
              · exact Or.inl (g1 ▸ h2)
              · refine Or.inr ⟨g1.trans g2, ?_⟩
                rcases h1 with h1 | h1
                · rcases h2 with h2 | h2
                  · exact Or.inl (keyLt_trans h1 h2)
                  · exact Or.inl (h2 ▸ h1)
                · rcases h2 with h2 | h2
                  · exact Or.inl (h1 ▸ h2)
                  · exact Or.inr (h1.trans h2)

instance : IsTotal DRow drLe where
  total a b := by
    unfold drLe
    rcases keyLt_trich a.key b.key with h | h | h
    · exact Or.inl (Or.inl h)
    · rcases lt_trichotomy a.ver b.ver with h2 | h2 | h2
      · exact Or.inl (Or.inr ⟨h, Or.inl h2⟩)
      · rcases keyLt_trich a.member b.member with h3 | h3 | h3
        · exact Or.inl (Or.inr ⟨h, Or.inr ⟨h2, Or.inl h3⟩⟩)
        · exact Or.inl (Or.inr ⟨h, Or.inr ⟨h2, Or.inr h3⟩⟩)
        · exact Or.inr (Or.inr ⟨h.symm, Or.inr ⟨h2.symm, Or.inl h3⟩⟩)
      · exact Or.inr (Or.inr ⟨h.symm, Or.inl h2⟩)
    · exact Or.inr (Or.inl h)

instance : IsTrans DRow drLe where
  trans a b c hab hbc := by
    unfold drLe at *
    rcases hab with h1 | ⟨e1, h1⟩
    · rcases hbc with h2 | ⟨e2, _⟩
      · exact Or.inl (keyLt_trans h1 h2)
      · exact Or.inl (e2 ▸ h1)
    · rcases hbc with h2 | ⟨e2, h2⟩
      · exact Or.inl (e1 ▸ h2)
      · refine Or.inr ⟨e1.trans e2, ?_⟩
        rcases h1 with h1 | ⟨f1, h1⟩
        · rcases h2 with h2 | ⟨f2, _⟩
          · exact Or.inl (h1.trans h2)
          · exact Or.inl (f2 ▸ h1)
        · rcases h2 with h2 | ⟨f2, h2⟩
          · exact Or.inl (f1 ▸ h2)
          · refine Or.inr ⟨f1.trans f2, ?_⟩
            rcases h1 with h1 | h1
            · rcases h2 with h2 | h2
              · exact Or.inl (keyLt_trans h1 h2)
              · exact Or.inl (h2 ▸ h1)
            · rcases h2 with h2 | h2
              · exact Or.inl (h1 ▸ h2)
              · exact Or.inr (h1.trans h2)

/-- The row sequence a score-CF iterator visits after
`Seek(ZSetsScoreKey(k, v, numeric_limits<double>::lowest(), ""))`: every row
at or after the seek target, in comparator order.  The `lowest()` sentinel
lies strictly below every stored score, so the rows at or after the target
are exactly those whose `(key, version)` is at or after `(k, v)`. -/
def fwdRows (db : DB) (k : Key) (v : Nat) : List SRow :=
  List.insertionSort srLe
    (db.score.filter (fun r => keyLt k r.key || (decide (k = r.key) && decide (v ≤ r.ver))))

/-- The row sequence a score-CF iterator visits after
`SeekForPrev(ZSetsScoreKey(k, v, numeric_limits<double>::max(), ""))`
followed by repeated `Prev()`: every row at or before the target, in
reverse comparator order. -/
def revRows (db : DB) (k : Key) (v : Nat) : List SRow :=
  (List.insertionSort srLe
    (db.score.filter (fun r => keyLt r.key k || (decide (r.key = k) && decide (r.ver ≤ v))))).reverse

/-- The row sequence a data-CF iterator visits after
`Seek(ZSetsMemberKey(k, v, ""))`. -/
def dataFwdRows (db : DB) (k : Key) (v : Nat) : List DRow :=
  List.insertionSort drLe
    (db.data.filter (fun r => keyLt k r.key || (decide (k = r.key) && decide (v ≤ r.ver))))

/-- One operation of a `rocksdb::WriteBatch` as the engine issues them. -/
inductive BatchOp where
  | putMeta (k : Key) (mv : MetaValue) : BatchOp
  | putData (k : Key) (v : Nat) (m : Member) (s : D) : BatchOp
  | delData (k : Key) (v : Nat) (m : Member) : BatchOp
  | putScore (k : Key) (v : Nat) (s : D) (m : Member) : BatchOp
  | delScore (k : Key) (v : Nat) (s : D) (m : Member) : BatchOp
deriving DecidableEq, Repr

/-- Apply one batch operation (RocksDB point-write semantics: a put
overwrites any row with the same key, a delete removes it). -/
def applyOp (db : DB) : BatchOp → DB
  | .putMeta k mv =>
      { db with meta := (k, mv) :: db.meta.filter (fun p => !decide (p.1 = k)) }
  | .putData k v m s =>
      { db with data := ⟨k, v, m, s⟩ ::
          db.data.filter (fun r => !decide (r.key = k ∧ r.ver = v ∧ r.member = m)) }
  | .delData k v m =>
      { db with data :=
          db.data.filter (fun r => !decide (r.key = k ∧ r.ver = v ∧ r.member = m)) }
  | .putScore k v s m =>
      { db with score := ⟨k, v, s, m⟩ ::
          db.score.filter (fun r => !decide (r = ⟨k, v, s, m⟩)) }
  | .delScore k v s m =>
      { db with score := db.score.filter (fun r => !decide (r = SRow.mk k v s m)) }

/-- Commit a whole batch atomically (`db_->Write`). -/
def applyBatch (db : DB) (ops : List BatchOp) : DB :=
  ops.foldl applyOp db

/-! ### ZAdd (`RedisZSets::ZAdd`, lines 153-239)

A mutation function takes the clock `now : Int` (used by `IsStale`) and the
version clock `tick : Nat` (used by `InitialMetaValue` / `UpdateVersion`).
-/

/-- The input dedup of `ZAdd` (lines 157-164): an `unordered_set` of seen
members; an element is kept iff its member was not seen before. -/
def dedupFirstGo : List SM → List Member → List SM
  | [], _ => []
  | sm :: rest, seen =>
    if sm.member ∈ seen then dedupFirstGo rest seen
    else sm :: dedupFirstGo rest (sm.member :: seen)

def dedupFirst (sms : List SM) : List SM := dedupFirstGo sms []

/-- The batch contribution and inserted-count of one filtered `(score,
member)` pair in `ZAdd`'s existing-meta branch (lines 185-215).  When the
meta was stale (`is_stale`) the data lookup is skipped and the pair is
always counted as new. -/
def zaddOne (db : DB) (k : Key) (v : Nat) (isSt : Bool) (sm : SM) : List BatchOp × Int :=
  if isSt then
    ([.putData k v sm.member sm.score, .putScore k v sm.score sm.member], 1)
  else
    match getData db k v sm.member with
    | some old =>
      if old.q = sm.score.q then ([], 0)
      else
        ([.delScore k v old sm.member,
          .putData k v sm.member sm.score,
          .putScore k v sm.score sm.member], 0)
    | none => ([.putData k v sm.member sm.score, .putScore k v sm.score sm.member], 1)

/-- The loop of `ZAdd`'s existing-meta branch: reads go to the pre-batch
state `db`, batch contributions are concatenated in input order. -/
def zaddLoop (db : DB) (k : Key) (v : Nat) (isSt : Bool) : List SM → List BatchOp × Int
  | [] => ([], 0)
  | sm :: rest =>
    let p := zaddOne db k v isSt sm
    let tail := zaddLoop db k v isSt rest
    (p.1 ++ tail.1, p.2 + tail.2)

/-- The write batch and return value of `ZAdd`. -/
def zaddBatch (db : DB) (k : Key) (sms : List SM) (now : Int) (tick : Nat) :
    List BatchOp × Int :=
  let filtered := dedupFirst sms
  match getMeta db k with
  | some mv =>
    let stale := mv.isStale now
    let mv1 := if stale then initialMetaValue mv tick else mv
    let lc := zaddLoop db k mv1.version stale filtered
    let mv2 := { mv1 with count := mv1.count + lc.2 }
    (lc.1 ++ [BatchOp.putMeta k mv2], lc.2)
  | none =>
    let mv := MetaValue.mk tick (Int.ofNat filtered.length) 0
    let rowOps := (filtered.map (fun sm =>
      [BatchOp.putData k tick sm.member sm.score,
       BatchOp.putScore k tick sm.score sm.member])).flatten
    (BatchOp.putMeta k mv :: rowOps, Int.ofNat filtered.length)

/-- `RedisZSets::ZAdd`: returns `(status, *ret, new state)`. -/
def zadd (db : DB) (k : Key) (sms : List SM) (now : Int) (tick : Nat) :
    Status × Int × DB :=
  let b := zaddBatch db k sms now tick
  (Status.ok, b.2, applyBatch db b.1)

/-! ### ZIncrby (`RedisZSets::ZIncrby`, lines 318-373) -/

/-- `RedisZSets::ZIncrby`: returns `(status, *ret (the new score), new state)`. -/
def zincrby (db : DB) (k : Key) (member : Member) (increment : D) (now : Int)
    (tick : Nat) : Status × D × DB :=
  match getMeta db k with
  | some mv =>
    let stale := mv.isStale now
    let mv1 := if stale then initialMetaValue mv tick else mv
    let v := mv1.version
    match getData db k v member with
    | some old =>
      let sc := D.add old increment
      (Status.ok, sc, applyBatch db
        [.delScore k v old member, .putData k v member sc, .putScore k v sc member])
    | none =>
      let mv2 := { mv1 with count := mv1.count + 1 }
      (Status.ok, increment, applyBatch db
        [.putMeta k mv2, .putData k v member increment, .putScore k v increment member])
  | none =>
    let mv := MetaValue.mk tick 1 0
    (Status.ok, increment, applyBatch db
      [.putMeta k mv, .putData k tick member increment,
       .putScore k tick increment member])

/-! ### ZRem (`RedisZSets::ZRem`, lines 528-579) -/

/-- The input dedup of `ZRem` (lines 532-539). -/
def dedupFirstMemGo : List Member → List Member → List Member
  | [], _ => []
  | m :: rest, seen =>
    if m ∈ seen then dedupFirstMemGo rest seen
    else m :: dedupFirstMemGo rest (m :: seen)

def dedupFirstMem (ms : List Member) : List Member := dedupFirstMemGo ms []

/-- The member loop of `ZRem` (lines 555-570): a present member contributes
deletes of its data row and its score row. -/
def zremLoop (db : DB) (k : Key) (v : Nat) : List Member → List BatchOp × Int
  | [] => ([], 0)
  | m :: rest =>
    let tail := zremLoop db k v rest
    match getData db k v m with
    | some sc => (BatchOp.delData k v m :: BatchOp.delScore k v sc m :: tail.1, tail.2 + 1)
    | none => tail

/-- `RedisZSets::ZRem`: returns `(status, *ret, new state)`. -/
def zrem (db : DB) (k : Key) (ms : List Member) (now : Int) : Status × Int × DB :=
  let filtered := dedupFirstMem ms
  match getMeta db k with
  | some mv =>
    if mv.isStale now then (Status.notFound "Stale", 0, db)
    else if mv.count = 0 then (Status.notFound "", 0, db)
    else
      let lc := zremLoop db k mv.version filtered
      let mv2 := { mv with count := mv.count - lc.2 }
      (Status.ok, lc.2, applyBatch db (lc.1 ++ [BatchOp.putMeta k mv2]))
  | none => (Status.notFound "", 0, db)

/-! ### ZRemrangebyrank (`RedisZSets::ZRemrangebyrank`, lines 581-628) -/

/-- The deletion loop of `ZRemrangebyrank` (lines 608-618): visit rows while
`cur_index <= stop_index`, deleting those with `cur_index >= start_index`. -/
def zrrbrLoop (k : Key) (v : Nat) (startIdx stopIdx : Int) :
    List SRow → Int → List BatchOp × Int
  | [], _ => ([], 0)
  | r :: rest, cur =>
    if cur ≤ stopIdx then
      let tail := zrrbrLoop k v startIdx stopIdx rest (cur + 1)
      if startIdx ≤ cur then
        (BatchOp.delData k v r.member ::
         BatchOp.delScore r.key r.ver r.score r.member :: tail.1, tail.2 + 1)
      else tail
    else ([], 0)

/-- `RedisZSets::ZRemrangebyrank`: returns `(status, *ret, new state)`. -/
def zremrangebyrank (db : DB) (k : Key) (start stop : Int) (now : Int) :
    Status × Int × DB :=
  match getMeta db k with
  | some mv =>
    if mv.isStale now then (Status.notFound "Stale", 0, db)
    else if mv.count = 0 then (Status.notFound "", 0, db)
    else
      let count := mv.count
      let si0 := if 0 ≤ start then start else count + start
      let ti0 := if 0 ≤ stop then stop else count + stop
      let si := if si0 ≤ 0 then 0 else si0
      let ti := if count ≤ ti0 then count - 1 else ti0
      let lc := zrrbrLoop k mv.version si ti (fwdRows db k mv.version) 0
      let mv2 := { mv with count := mv.count - lc.2 }
      (Status.ok, lc.2, applyBatch db (lc.1 ++ [BatchOp.putMeta k mv2]))
  | none => (Status.notFound "", 0, db)

/-! ### ZRemrangebyscore (`RedisZSets::ZRemrangebyscore`, lines 630-688) -/

/-- One bound test of the score-range commands: `left_pass` of a score. -/
def leftPassScore (mn : D) (lc : Bool) (s : D) : Bool :=
  (lc && decide (mn.q ≤ s.q)) || (!lc && decide (mn.q < s.q))

/-- One bound test of the score-range commands: `right_pass` of a score. -/
def rightPassScore (mx : D) (rc : Bool) (s : D) : Bool :=
  (rc && decide (s.q ≤ mx.q)) || (!rc && decide (s.q < mx.q))

/-- The deletion loop of `ZRemrangebyscore` (lines 655-678): delete rows
passing both bounds, break as soon as the right bound fails. -/
def zrrbsLoop (k : Key) (v : Nat) (mn mx : D) (lc rc : Bool) (stopIdx : Int) :
    List SRow → Int → List BatchOp × Int
  | [], _ => ([], 0)
  | r :: rest, cur =>
    if cur ≤ stopIdx then
      let lp := leftPassScore mn lc r.score
      let rp := rightPassScore mx rc r.score
      let tail := if !rp then (([] : List BatchOp), (0 : Int))
                  else zrrbsLoop k v mn mx lc rc stopIdx rest (cur + 1)
      if lp && rp then
        (BatchOp.delData k v r.member ::
         BatchOp.delScore r.key r.ver r.score r.member :: tail.1, tail.2 + 1)
      else tail
    else ([], 0)

/-- `RedisZSets::ZRemrangebyscore`: returns `(status, *ret, new state)`. -/
def zremrangebyscore (db : DB) (k : Key) (mn mx : D) (lc rc : Bool) (now : Int) :
    Status × Int × DB :=
  match getMeta db k with
  | some mv =>
    if mv.isStale now then (Status.notFound "Stale", 0, db)
    else if mv.count = 0 then (Status.notFound "", 0, db)
    else
      let lcnt := zrrbsLoop k mv.version mn mx lc rc (mv.count - 1)
        (fwdRows db k mv.version) 0
      let mv2 := { mv with count := mv.count - lcnt.2 }
      (Status.ok, lcnt.2, applyBatch db (lcnt.1 ++ [BatchOp.putMeta k mv2]))
  | none => (Status.notFound "", 0, db)

/-! ### ZRemrangebylex (`RedisZSets::ZRemrangebylex`, lines 1159-1233) -/

/-- `left_pass` of a member in the lex commands; `noLimit` is the special
token `-`; `min.compare(member) <= 0` is byte order. -/
def leftPassLex (mn : Member) (lc noLimit : Bool) (m : Member) : Bool :=
  noLimit || (lc && (keyLt mn m || decide (mn = m))) || (!lc && keyLt mn m)

/-- `right_pass` of a member in the lex commands; `noLimit` is the special
token `+`. -/
def rightPassLex (mx : Member) (rc noLimit : Bool) (m : Member) : Bool :=
  noLimit || (rc && (keyLt m mx || decide (m = mx))) || (!rc && keyLt m mx)

/-- The deletion loop of `ZRemrangebylex` (lines 1191-1221): iterate the
data CF; a passing row contributes a delete of itself and of its score row
(the score is read from the data row's value). -/
def zrrblLoop (k : Key) (v : Nat) (mn mx : Member) (lc rc lnl rnl : Bool)
    (stopIdx : Int) : List DRow → Int → List BatchOp × Int
  | [], _ => ([], 0)
  | r :: rest, cur =>
    if cur ≤ stopIdx then
      let lp := leftPassLex mn lc lnl r.member
      let rp := rightPassLex mx rc rnl r.member
      let tail := if !rp then (([] : List BatchOp), (0 : Int))
                  else zrrblLoop k v mn mx lc rc lnl rnl stopIdx rest (cur + 1)
      if lp && rp then
        (BatchOp.delData r.key r.ver r.member ::
         BatchOp.delScore k v r.score r.member :: tail.1, tail.2 + 1)
      else tail
    else ([], 0)

/-- `RedisZSets::ZRemrangebylex`: returns `(status, *ret, new state)`.  The
meta row is rewritten only when `del_cnt > 0` (lines 1224-1228). -/
def zremrangebylex (db : DB) (k : Key) (mn mx : Member) (lc rc : Bool)
    (now : Int) : Status × Int × DB :=
  let lnl := decide (mn = [45])
  let rnl := decide (mx = [43])
  match getMeta db k with
  | some mv =>
    if mv.isStale now || decide (mv.count = 0) then (Status.notFound "", 0, db)
    else
      let lcnt := zrrblLoop k mv.version mn mx lc rc lnl rnl (mv.count - 1)
        (dataFwdRows db k mv.version) 0
      if 0 < lcnt.2 then
        let mv2 := { mv with count := mv.count - lcnt.2 }
        (Status.ok, lcnt.2, applyBatch db (lcnt.1 ++ [BatchOp.putMeta k mv2]))
      else (Status.ok, 0, applyBatch db lcnt.1)
  | none => (Status.notFound "", 0, db)

/-! ### ZUnionstore (`RedisZSets::ZUnionstore`, lines 879-964) -/

/-- Assignment into the `std::map<std::string, double>` of the union loop:
an ordered map, modelled as an association list kept sorted by member. -/
def zuUpsert : List (Member × D) → Member → D → List (Member × D)
  | [], m, s => [(m, s)]
  | (m1, s1) :: rest, m, s =>
    if m = m1 then (m, s) :: rest
    else if keyLt m m1 then (m, s) :: (m1, s1) :: rest
    else (m1, s1) :: zuUpsert rest m s

/-- One `std::map<std::string, double>` update of the union loop (lines
917-928): first sight stores `weight * score`, later sights combine with
the aggregate; both normalize a zero result to `+0.0`. -/
def zuAccumRow (agg : Agg) (w : D) (map : List (Member × D)) (r : SRow) :
    List (Member × D) :=
  match (map.find? (fun p => decide (p.1 = r.member))).map (·.2) with
  | none => zuUpsert map r.member (normZero (D.mul w r.score))
  | some cur =>
    let sc := match agg with
      | .sum => D.add cur (D.mul w r.score)
      | .min => stdMin cur (D.mul w r.score)
      | .max => stdMax cur (D.mul w r.score)
    zuUpsert map r.member (normZero sc)

/-- The source-set loop of `ZUnionstore` (lines 898-935): each live source
contributes its first `count` score rows with its weight (default 1). -/
def zuFold (db : DB) (now : Int) (weights : List D) (agg : Agg) :
    List Key → Nat → List (Member × D) → List (Member × D)
  | [], _, map => map
  | k :: rest, idx, map =>
    let mapNext := match getMeta db k with
      | some mv =>
        if !(mv.isStale now) && !decide (mv.count = 0) then
          ((fwdRows db k mv.version).take mv.count.toNat).foldl
            (zuAccumRow agg (weights.getD idx ⟨1, false⟩)) map
        else map
      | none => map
    zuFold db now weights agg rest (idx + 1) mapNext

/-- Overwrite of the destination meta row shared by `ZUnionstore` (lines
937-949) and `ZInterstore` (lines 1058-1071): bump the version of an
existing row, otherwise create one at the current tick; the count is the
size of the computed member set.  Returns the version and the meta op. -/
def overwriteDest (db : DB) (dest : Key) (n : Int) (tick : Nat) :
    Nat × BatchOp :=
  match getMeta db dest with
  | some mv =>
    let mv1 := initialMetaValue mv tick
    (mv1.version, BatchOp.putMeta dest { mv1 with count := n })
  | none => (tick, BatchOp.putMeta dest (MetaValue.mk tick n 0))

/-- The write batch and return value of `ZUnionstore`. -/
def zunionstoreBatch (db : DB) (dest : Key) (keys : List Key) (weights : List D)
    (agg : Agg) (now : Int) (tick : Nat) : List BatchOp × Int :=
  let map := zuFold db now weights agg keys 0 []
  let vm := overwriteDest db dest (Int.ofNat map.length) tick
  let rowOps := (map.map (fun p =>
    [BatchOp.putData dest vm.1 p.1 p.2, BatchOp.putScore dest vm.1 p.2 p.1])).flatten
  (vm.2 :: rowOps, Int.ofNat map.length)

/-- `RedisZSets::ZUnionstore`: returns `(status, *ret, new state)`. -/
def zunionstore (db : DB) (dest : Key) (keys : List Key) (weights : List D)
    (agg : Agg) (now : Int) (tick : Nat) : Status × Int × DB :=
  let b := zunionstoreBatch db dest keys weights agg now tick
  (Status.ok, b.2, applyBatch db b.1)

/-! ### ZInterstore (`RedisZSets::ZInterstore`, lines 966-1085) -/

/-- The probe loop of `ZInterstore` (lines 1032-1051): combine the weighted
scores of `member` across the remaining valid sets, or report the member
missing from one of them. -/
def ziProbeGo (db : DB) (agg : Agg) (weights : List D) (member : Member) :
    List (Key × Nat) → Nat → D → Option D
  | [], _, acc => some acc
  | (k, v) :: rest, idx, acc =>
    match getData db k v member with
    | some sc =>
      let w := weights.getD idx ⟨1, false⟩
      let accNext := match agg with
        | .sum => D.add acc (D.mul w sc)
        | .min => stdMin acc (D.mul w sc)
        | .max => stdMax acc (D.mul w sc)
      ziProbeGo db agg weights member rest (idx + 1) accNext
    | none => none

/-- The candidate list of `ZInterstore`: the first set's rows, scaled by
`weights[0]`, filtered and aggregated through the probe loop.  No
normalization of `-0.0` happens here (unlike `ZUnionstore`). -/
def ziFinal (db : DB) (weights : List D) (agg : Agg) (k0 : Key) (mv0 : MetaValue)
    (others : List (Key × Nat)) : List SM :=
  let rows := (fwdRows db k0 mv0.version).take mv0.count.toNat
  let w0 := if 0 < weights.length then weights.getD 0 ⟨1, false⟩ else ⟨1, false⟩
  rows.filterMap (fun r =>
    (ziProbeGo db agg weights r.member others 1 (D.mul r.score w0)).map
      (fun sc => SM.mk sc r.member))

/-- `RedisZSets::ZInterstore`: returns `(status, *ret, new state)`.
`ret0` is the prior content of the out-parameter `*ret`, which the empty-key
branch (lines 971-973) leaves untouched. -/
def zinterstore (db : DB) (dest : Key) (keys : List Key) (weights : List D)
    (agg : Agg) (now : Int) (tick : Nat) (ret0 : Int) : Status × Int × DB :=
  if keys.length = 0 then
    (Status.corruption "ZInterstore invalid parameter, no keys", ret0, db)
  else
    let infos := keys.map (fun k => (k, getMeta db k))
    let haveInvalid := infos.any (fun p => match p.2 with
      | some mv => mv.isStale now || decide (mv.count = 0)
      | none => true)
    let valids := infos.filterMap (fun p => match p.2 with
      | some mv =>
        if !(mv.isStale now) && !decide (mv.count = 0) then some (p.1, mv) else none
      | none => none)
    let final : List SM :=
      if haveInvalid then []
      else match valids with
        | [] => []
        | (k0, mv0) :: restv =>
          ziFinal db weights agg k0 mv0 (restv.map (fun p => (p.1, p.2.version)))
    let vm := overwriteDest db dest (Int.ofNat final.length) tick
    let rowOps := (final.map (fun sm =>
      [BatchOp.putData dest vm.1 sm.member sm.score,
       BatchOp.putScore dest vm.1 sm.score sm.member])).flatten
    (Status.ok, Int.ofNat final.length, applyBatch db (vm.2 :: rowOps))

/-! ### ZRange / ZRevrange (`RedisZSets::ZRange` lines 375-424,
`RedisZSets::ZRevrange` lines 690-741) -/

/-- The collection loop of `ZRange` (lines 410-419): visit rows while
`cur_index <= stop_index`, emitting those with `cur_index >= start_index`. -/
def zrangeCollect (startIdx stopIdx : Int) : List SRow → Int → List SM
  | [], _ => []
  | r :: rest, cur =>
    if cur ≤ stopIdx then
      (if startIdx ≤ cur then [SM.mk r.score r.member] else []) ++
        zrangeCollect startIdx stopIdx rest (cur + 1)
    else []

/-- `RedisZSets::ZRange`: returns `(status, *score_members)`. -/
def zrange (db : DB) (k : Key) (start stop : Int) (now : Int) :
    Status × List SM :=
  match getMeta db k with
  | some mv =>
    if mv.isStale now then (Status.notFound "Stale", [])
    else if mv.count = 0 then (Status.notFound "", [])
    else
      let count := mv.count
      let si0 := if 0 ≤ start then start else count + start
      let ti0 := if 0 ≤ stop then stop else count + stop
      let si := if si0 ≤ 0 then 0 else si0
      let ti := if count ≤ ti0 then count - 1 else ti0
      if si > ti ∨ si ≥ count ∨ ti < 0 then (Status.ok, [])
      else (Status.ok, zrangeCollect si ti (fwdRows db k mv.version) 0)
  | none => (Status.notFound "", [])

/-- The collection loop of `ZRevrange` (lines 726-735), identical in
structure to `ZRange`'s; the collected window is reversed on return. -/
def zrevrangeCollect (startIdx stopIdx : Int) : List SRow → Int → List SM
  | [], _ => []
  | r :: rest, cur =>
    if cur ≤ stopIdx then
      (if startIdx ≤ cur then [SM.mk r.score r.member] else []) ++
        zrevrangeCollect startIdx stopIdx rest (cur + 1)
    else []

/-- `RedisZSets::ZRevrange`: returns `(status, *score_members)`. -/
def zrevrange (db : DB) (k : Key) (start stop : Int) (now : Int) :
    Status × List SM :=
  match getMeta db k with
  | some mv =>
    if mv.isStale now then (Status.notFound "Stale", [])
    else if mv.count = 0 then (Status.notFound "", [])
    else
      let count := mv.count
      let si0 := if 0 ≤ start then start else count + start
      let ti0 := if 0 ≤ stop then stop else count + stop
      let si := if si0 ≤ 0 then 0 else si0
      let ti := if count ≤ ti0 then count - 1 else ti0
      if si > ti ∨ si ≥ count ∨ ti < 0 then (Status.ok, [])
      else (Status.ok, (zrevrangeCollect si ti (fwdRows db k mv.version) 0).reverse)
  | none => (Status.notFound "", [])

/-! ### ZRank / ZRevrank (`RedisZSets::ZRank` lines 482-526,
`RedisZSets::ZRevrank` lines 798-841) -/

/-- The search loop of `ZRank` (lines 507-515): scan forward while
`index <= stop_index`, stopping at the first row whose member matches. -/
def zrankLoop (member : Member) (stopIdx : Int) : List SRow → Int → Option Int
  | [], _ => none
  | r :: rest, idx =>
    if idx ≤ stopIdx then
      if r.member = member then some idx
      else zrankLoop member stopIdx rest (idx + 1)
    else none

/-- `RedisZSets::ZRank`: returns `(status, *rank)`; `*rank` is `-1` unless
the member is found. -/
def zrank (db : DB) (k : Key) (member : Member) (now : Int) : Status × Int :=
  match getMeta db k with
  | some mv =>
    if mv.isStale now then (Status.notFound "Stale", -1)
    else if mv.count = 0 then (Status.notFound "", -1)
    else
      match zrankLoop member (mv.count - 1) (fwdRows db k mv.version) 0 with
      | some idx => (Status.ok, idx)
      | none => (Status.notFound "", -1)
  | none => (Status.notFound "", -1)

/-- The search loop of `ZRevrank` (lines 823-831): scan backward while
`left >= 0` (note: one more iteration than the set has rows), incrementing
`rev_index` between iterations. -/
def zrevrankLoop (member : Member) : List SRow → Int → Int → Option Int
  | [], _, _ => none
  | r :: rest, left, revIdx =>
    if 0 ≤ left then
      if r.member = member then some revIdx
      else zrevrankLoop member rest (left - 1) (revIdx + 1)
    else none

/-- `RedisZSets::ZRevrank`: returns `(status, *rank)`. -/
def zrevrank (db : DB) (k : Key) (member : Member) (now : Int) : Status × Int :=
  match getMeta db k with
  | some mv =>
    if mv.isStale now then (Status.notFound "Stale", -1)
    else if mv.count = 0 then (Status.notFound "", -1)
    else
      match zrevrankLoop member (revRows db k mv.version) mv.count 0 with
      | some idx => (Status.ok, idx)
      | none => (Status.notFound "", -1)
  | none => (Status.notFound "", -1)

/-! ### TTL (`RedisZSets::TTL`, lines 1445-1467) -/

/-- `RedisZSets::TTL`: returns `(status, *timestamp)`.  The model uses one
clock `now` for both `IsStale` and `GetCurrentTime`. -/
def ttl (db : DB) (k : Key) (now : Int) : Status × Int :=
  match getMeta db k with
  | some mv =>
    if mv.isStale now then (Status.notFound "Stale", -2)
    else if mv.timestamp = 0 then (Status.ok, -1)
    else (Status.ok, if 0 < mv.timestamp - now then mv.timestamp - now else -1)
  | none => (Status.notFound "", -2)

/-! ### Scan (`RedisZSets::Scan`, lines 1272-1313) -/

/-- Order of the meta CF: user keys, lexicographic. -/
def kmLe (a b : Key × MetaValue) : Prop := keyLt a.1 b.1 = true ∨ a.1 = b.1

instance : DecidableRel kmLe := fun a b => by
  unfold kmLe; infer_instance

instance : IsTotal (Key × MetaValue) kmLe where
  total a b := by
    unfold kmLe
    rcases keyLt_trich a.1 b.1 with h | h | h
    · exact Or.inl (Or.inl h)
    · exact Or.inl (Or.inr h)
    · exact Or.inr (Or.inl h)

instance : IsTrans (Key × MetaValue) kmLe where
  trans a b c hab hbc := by
    unfold kmLe at *
    rcases hab with h1 | h1
    · rcases hbc with h2 | h2
      · exact Or.inl (keyLt_trans h1 h2)
      · exact Or.inl (h2 ▸ h1)
    · rcases hbc with h2 | h2
      · exact Or.inl (h1 ▸ h2)
      · exact Or.inr (h1.trans h2)

/-- The entries a meta-CF iterator visits after `Seek(start_key)`. -/
def metaFromKey (db : DB) (startKey : Key) : List (Key × MetaValue) :=
  (List.insertionSort kmLe db.meta).filter (fun p => !keyLt p.1 startKey)

/-- The loop of `Scan` (lines 1288-1303): while the budget is positive,
skip stale entries for free; a live entry is emitted when it matches and
always costs one unit of budget.  Returns the emitted keys, the final
budget, and the entry the iterator stopped at (if any). -/
def scanLoop (pmatch : Key → Bool) (now : Int) :
    List (Key × MetaValue) → Int → List Key × Int × Option Key
  | [], cnt => ([], cnt, none)
  | (k, mv) :: rest, cnt =>
    if cnt ≤ 0 then ([], cnt, some k)
    else if mv.isStale now then scanLoop pmatch now rest cnt
    else
      let tail := scanLoop pmatch now rest (cnt - 1)
      (if pmatch k then k :: tail.1 else tail.1, tail.2)

/-- `RedisZSets::Scan`: returns `(is_finish, emitted keys, *count,
*next_key)`.  The pattern matcher `StringMatch` is an external collaborator
and is passed as the function `pmatch` (`pmatch k` is
`StringMatch(pattern, key)`). -/
def scan (db : DB) (startKey : Key) (pmatch : Key → Bool) (count : Int)
    (now : Int) : Bool × List Key × Int × Key :=
  let r := scanLoop pmatch now (metaFromKey db startKey) count
  match r.2.2 with
  | some k => (false, r.1, r.2.1, k)
  | none => (true, r.1, r.2.1, [])

/-! ### Well-formedness of a database state

The engine maintains (spec §8, P1/P2): row keys are unique per column
family, and for every live meta row the data and score families hold the
same member↔score association, whose size is `meta.count`. -/

/-- The key of a data-CF row. -/
def dKey (r : DRow) : Key × Nat × Member := (r.key, r.ver, r.member)

/-- Number of data-CF rows under the prefix `(k, v)`. -/
def ndata (db : DB) (k : Key) (v : Nat) : Nat :=
  (db.data.filter (fun r => decide (r.key = k ∧ r.ver = v))).length

/-- Number of score-CF rows under the prefix `(k, v)`. -/
def nscore (db : DB) (k : Key) (v : Nat) : Nat :=
  (db.score.filter (fun r => decide (r.key = k ∧ r.ver = v))).length

/-- Row keys are unique in each column family. -/
def Uniq (db : DB) : Prop :=
  (db.meta.map Prod.fst).Nodup ∧ (db.data.map dKey).Nodup ∧ db.score.Nodup

/-- Data and Score agree under prefix `(k, v)`: a score row is present
exactly when the data CF maps its member to its score (spec §8, P2). -/
def Bij (db : DB) (k : Key) (v : Nat) : Prop :=
  ∀ s m, SRow.mk k v s m ∈ db.score ↔ getData db k v m = some s

/-- The (k, v) prefix is coherent and has exactly `c` members. -/
def Coh (db : DB) (k : Key) (v : Nat) (c : Int) : Prop :=
  Bij db k v ∧ ndata db k v = c.toNat ∧ 0 ≤ c

/-- The reachable-state invariant: unique row keys, and every live meta row
is coherent (spec §8, P1/P2). -/
def INV (db : DB) (now : Int) : Prop :=
  Uniq db ∧ ∀ k mv, getMeta db k = some mv → mv.isStale now = false →
    Coh db k mv.version mv.count

/-- No rows exist yet under version `v` of key `k` (freshness of a newly
generated version). -/
def FreshV (db : DB) (k : Key) (v : Nat) : Prop :=
  ndata db k v = 0 ∧ nscore db k v = 0

/-! ### Generic list lemmas -/

/-- A pairwise-ordered list splits into the block satisfying `p` followed
by the block refuting `p`, provided the order never re-enters `p`. -/
theorem pairwise_filter_append {α : Type} {r : α → α → Prop} {p : α → Bool} :
    ∀ {l : List α}, l.Pairwise r →
      (∀ a ∈ l, ∀ b ∈ l, p a = false → r a b → p b = false) →
      l = l.filter p ++ l.filter (fun x => !p x)
  | [], _, _ => rfl
  | a :: t, hp, hcond => by
    rcases List.pairwise_cons.mp hp with ⟨ha, ht⟩
    by_cases hpa : p a = true
    · have ih := pairwise_filter_append ht
        (fun x hx y hy => hcond x (List.mem_cons_of_mem _ hx) y (List.mem_cons_of_mem _ hy))
      simp only [List.filter_cons, hpa]
      simpa using congrArg (a :: ·) ih
    · have hpa' : p a = false := by simpa using hpa
      have hall : ∀ b ∈ t, p b = false := fun b hb =>
        hcond a (List.mem_cons_self _ _) b (List.mem_cons_of_mem _ hb) hpa' (ha b hb)
      have h1 : List.filter p (a :: t) = [] := by
        simp only [List.filter_cons, hpa']
        exact List.filter_eq_nil_iff.mpr (fun b hb => by simp [hall b hb])
      have h2 : List.filter (fun x => !p x) (a :: t) = a :: t := by
        simp only [List.filter_cons, hpa']
        simp only [Bool.not_false, if_true]
        exact congrArg (a :: ·) (List.filter_eq_self.mpr (fun b hb => by simp [hall b hb]))
      rw [h1, h2]
      rfl

/-- Two sorted permutations are equal when the order is antisymmetric on
their elements. -/
theorem eq_of_perm_of_sorted_anti {α : Type} {r : α → α → Prop} :
    ∀ {l1 l2 : List α}, List.Perm l1 l2 → l1.Pairwise r → l2.Pairwise r →
      (∀ a ∈ l1, ∀ b ∈ l1, r a b → r b a → a = b) → l1 = l2
  | [], l2, hp, _, _, _ => (hp.nil_eq).symm ▸ rfl
  | a :: t1, l2, hp, hs1, hs2, hanti => by
    have hal2 : a ∈ l2 := hp.mem_iff.mp (List.mem_cons_self _ _)
    cases l2 with
    | nil => exact absurd hal2 (List.not_mem_nil a)
    | cons b t2 =>
      rcases List.pairwise_cons.mp hs1 with ⟨ha1, ht1⟩
      rcases List.pairwise_cons.mp hs2 with ⟨hb2, ht2⟩
      have hbl1 : b ∈ a :: t1 := hp.mem_iff.mpr (List.mem_cons_self _ _)
      have hab : a = b := by
        rcases List.mem_cons.mp hal2 with h | h
        · exact h
        · rcases List.mem_cons.mp hbl1 with h2 | h2
          · exact h2.symm
          · exact hanti a (List.mem_cons_self _ _) b hbl1 (ha1 b h2) (hb2 a h)
      subst hab
      have hpt : List.Perm t1 t2 := (List.perm_cons a).mp hp
      have heq := eq_of_perm_of_sorted_anti hpt ht1 ht2
        (fun x hx y hy => hanti x (List.mem_cons_of_mem _ hx) y (List.mem_cons_of_mem _ hy))
      rw [heq]

/-! ### Facts about the row orders -/

/-- Strictly-after-the-prefix is upward closed along `drLe`. -/
theorem drLe_strict {k : Key} {v : Nat} {a b : DRow}
    (ha : keyLt k a.key = true ∨ (k = a.key ∧ v < a.ver)) (hab : drLe a b) :
    keyLt k b.key = true ∨ (k = b.key ∧ v < b.ver) := by
  rcases hab with h | ⟨e, h⟩
  · rcases ha with ha | ⟨e2, _⟩
    · exact Or.inl (keyLt_trans ha h)
    · exact Or.inl (e2 ▸ h)
  · rcases ha with ha | ⟨e2, hv⟩
    · exact Or.inl (e ▸ ha)
    · rcases h with h | ⟨f, _⟩
      · exact Or.inr ⟨e ▸ e2, hv.trans h⟩
      · exact Or.inr ⟨e ▸ e2, f ▸ hv⟩

/-- Strictly-after-the-prefix is upward closed along `srLe`. -/
theorem srLe_strict {k : Key} {v : Nat} {a b : SRow}
    (ha : keyLt k a.key = true ∨ (k = a.key ∧ v < a.ver)) (hab : srLe a b) :
    keyLt k b.key = true ∨ (k = b.key ∧ v < b.ver) := by
  rcases hab with h | ⟨e, h⟩
  · rcases ha with ha | ⟨e2, _⟩
    · exact Or.inl (keyLt_trans ha h)
    · exact Or.inl (e2 ▸ h)
  · rcases ha with ha | ⟨e2, hv⟩
    · exact Or.inl (e ▸ ha)
    · rcases h with h | ⟨f, _⟩
      · exact Or.inr ⟨e ▸ e2, hv.trans h⟩
      · exact Or.inr ⟨e ▸ e2, f ▸ hv⟩

/-- Strictly-before-the-prefix is downward closed along `srLe` (used for
reverse iteration). -/
theorem srLe_strict_below {k : Key} {v : Nat} {a b : SRow}
    (hb : keyLt b.key k = true ∨ (k = b.key ∧ b.ver < v)) (hab : srLe a b) :
    keyLt a.key k = true ∨ (k = a.key ∧ a.ver < v) := by
  rcases hab with h | ⟨e, h⟩
  · rcases hb with hb | ⟨e2, _⟩
    · exact Or.inl (keyLt_trans h hb)
    · exact Or.inl (e2 ▸ h)
  · rcases hb with hb | ⟨e2, hv⟩
    · exact Or.inl (e ▸ hb)
    · rcases h with h | ⟨f, _⟩
      · exact Or.inr ⟨e2.trans e.symm, h.trans hv⟩
      · exact Or.inr ⟨e2.trans e.symm, f ▸ hv⟩

/-! ### Claim C6: ZRevrange is the reverse of ZRange -/

theorem zrevrangeCollect_eq_zrangeCollect (si ti : Int) :
    ∀ (l : List SRow) (cur : Int),
      zrevrangeCollect si ti l cur = zrangeCollect si ti l cur := by
  intro l
  induction l with
  | nil => intro cur; rfl
  | cons r rest ih =>
    intro cur
    rw [zrevrangeCollect, zrangeCollect, ih]

/-- Claim C6: for every key and pair of indices, `ZRevrange(key, start,
stop)` returns exactly the reverse of the list `ZRange(key, start, stop)`
returns on the same state, and the two calls return the same status. -/
theorem zrevrange_reverses_zrange (db : DB) (k : Key) (start stop now : Int) :
    (zrevrange db k start stop now).1 = (zrange db k start stop now).1 ∧
    (zrevrange db k start stop now).2 = ((zrange db k start stop now).2).reverse := by
  unfold zrevrange zrange
  cases h : getMeta db k with
  | none => simp
  | some mv =>
    by_cases hs : mv.isStale now
    · simp [hs]
    · by_cases hc : mv.count = 0
      · simp [hs, hc]
      · simp only [hs, hc, Bool.false_eq_true, if_false, if_true]
        split_ifs <;> simp [zrevrangeCollect_eq_zrangeCollect]

/-! ### Claim C8: TTL -/

/-- Claim C8: `TTL(key)` sets its out-parameter to -2 and returns NotFound
when the key is absent or stale, to -1 when the key is live with no expiry,
and otherwise to the remaining seconds until expiry, which is at least 1. -/
theorem ttl_spec (db : DB) (k : Key) (now : Int) :
    (getMeta db k = none → ttl db k now = (Status.notFound "", -2)) ∧
    (∀ mv, getMeta db k = some mv → mv.isStale now = true →
      ttl db k now = (Status.notFound "Stale", -2)) ∧
    (∀ mv, getMeta db k = some mv → mv.isStale now = false → mv.timestamp = 0 →
      ttl db k now = (Status.ok, -1)) ∧
    (∀ mv, getMeta db k = some mv → mv.isStale now = false → mv.timestamp ≠ 0 →
      ttl db k now = (Status.ok, mv.timestamp - now) ∧ 1 ≤ mv.timestamp - now) := by
  refine ⟨?_, ?_, ?_, ?_⟩
  · intro h; simp [ttl, h]
  · intro mv h hs; simp [ttl, h, hs]
  · intro mv h hs ht; simp [ttl, h, hs, ht]
  · intro mv h hs ht
    have hgt : now < mv.timestamp := by
      simp only [MetaValue.isStale, Bool.and_eq_false_iff, decide_eq_false_iff_not,
        not_not, not_le] at hs
      rcases hs with h1 | h1
      · exact absurd h1 ht
      · exact h1
    have h1 : 0 < mv.timestamp - now := by omega
    refine ⟨by simp [ttl, h, hs, ht, h1], by omega⟩

/-- Witness for `ttl_spec` at a live key with expiry 5 read at time 3. -/
theorem ttl_spec_witness :
    ttl (DB.mk [([1], MetaValue.mk 1 1 5)] [] []) [1] 3 = (Status.ok, 2) ∧
    (1 : Int) ≤ 2 := by
  have h := (ttl_spec (DB.mk [([1], MetaValue.mk 1 1 5)] [] []) [1] 3).2.2.2
    (MetaValue.mk 1 1 5) (by decide) (by decide) (by decide)
  exact ⟨h.1.trans (by decide), by decide⟩

/-! ### Claim C9: ZAdd keeps the first occurrence of a duplicated member -/

/-- The spec-side description of the ZAdd input dedup: keep each pair whose
member did not occur earlier in the input, drop every later occurrence. -/
def keepFirst : List SM → List SM
  | [] => []
  | sm :: rest =>
    sm :: keepFirst (rest.filter (fun x => !decide (x.member = sm.member)))
termination_by l => l.length
decreasing_by
  simp only [List.length_cons]
  exact Nat.lt_succ_of_le (List.length_filter_le _ _)

theorem keepFirst_subset : ∀ (l : List SM), ∀ x ∈ keepFirst l, x ∈ l := by
  intro l
  induction l using keepFirst.induct with
  | case1 => intro x hx; simp [keepFirst] at hx
  | case2 sm rest ih =>
    intro x hx
    rw [keepFirst] at hx
    rcases List.mem_cons.mp hx with h | h
    · exact h ▸ List.mem_cons_self _ _
    · exact List.mem_cons_of_mem _ (List.mem_of_mem_filter (ih x h))

theorem keepFirst_idem : ∀ (l : List SM), keepFirst (keepFirst l) = keepFirst l := by
  intro l
  induction l using keepFirst.induct with
  | case1 => simp [keepFirst]
  | case2 sm rest ih =>
    rw [keepFirst, keepFirst]
    have hf : (keepFirst (rest.filter (fun x => !decide (x.member = sm.member)))).filter
        (fun x => !decide (x.member = sm.member)) =
        keepFirst (rest.filter (fun x => !decide (x.member = sm.member))) := by
      apply List.filter_eq_self.mpr
      intro x hx
      have hx2 := keepFirst_subset _ x hx
      exact (List.mem_filter.mp hx2).2
    rw [hf, ih]

theorem dedupFirstGo_eq_keepFirst : ∀ (l : List SM) (seen : List Member),
    dedupFirstGo l seen = keepFirst (l.filter (fun x => !decide (x.member ∈ seen))) := by
  intro l
  induction l with
  | nil => intro seen; simp [dedupFirstGo, keepFirst]
  | cons sm rest ih =>
    intro seen
    by_cases h : sm.member ∈ seen
    · rw [dedupFirstGo]
      simp only [if_pos h]
      rw [ih seen]
      have hf : (sm :: rest).filter (fun x => !decide (x.member ∈ seen)) =
          rest.filter (fun x => !decide (x.member ∈ seen)) := by
        simp [List.filter_cons, h]
      rw [hf]
    · rw [dedupFirstGo]
      simp only [if_neg h]
      have hf : (sm :: rest).filter (fun x => !decide (x.member ∈ seen)) =
          sm :: rest.filter (fun x => !decide (x.member ∈ seen)) := by
        simp [List.filter_cons, h]
      rw [hf, keepFirst]
      congr 1
      rw [ih (sm.member :: seen), List.filter_filter]
      congr 1
      apply List.filter_congr
      intro x _
      by_cases h1 : x.member = sm.member <;> by_cases h2 : x.member ∈ seen <;>
        simp [h1, h2]

theorem dedupFirst_eq_keepFirst (l : List SM) : dedupFirst l = keepFirst l := by
  rw [dedupFirst, dedupFirstGo_eq_keepFirst]
  congr 1
  apply List.filter_eq_self.mpr
  intro x _
  simp

/-- Claim C9: when a ZAdd input lists the same member more than once, only
the first occurrence is applied: the call behaves exactly as if every later
occurrence of that member had been dropped from the input. -/
theorem zadd_dup_members_first_wins (db : DB) (k : Key) (sms : List SM)
    (now : Int) (tick : Nat) :
    dedupFirst sms = keepFirst sms ∧
    zadd db k sms now tick = zadd db k (keepFirst sms) now tick := by
  refine ⟨dedupFirst_eq_keepFirst sms, ?_⟩
  unfold zadd zaddBatch
  rw [dedupFirst_eq_keepFirst sms, dedupFirst_eq_keepFirst (keepFirst sms),
    keepFirst_idem]

/-! ### Small facts about batch operations -/

@[simp] theorem applyOp_putMeta_data (db : DB) (k : Key) (mv : MetaValue) :
    (applyOp db (BatchOp.putMeta k mv)).data = db.data := rfl

@[simp] theorem applyOp_putMeta_score (db : DB) (k : Key) (mv : MetaValue) :
    (applyOp db (BatchOp.putMeta k mv)).score = db.score := rfl

@[simp] theorem applyOp_putData_meta (db : DB) (k : Key) (v : Nat) (m : Member) (s : D) :
    (applyOp db (BatchOp.putData k v m s)).meta = db.meta := rfl

@[simp] theorem applyOp_putData_score (db : DB) (k : Key) (v : Nat) (m : Member) (s : D) :
    (applyOp db (BatchOp.putData k v m s)).score = db.score := rfl

@[simp] theorem applyOp_delData_meta (db : DB) (k : Key) (v : Nat) (m : Member) :
    (applyOp db (BatchOp.delData k v m)).meta = db.meta := rfl

@[simp] theorem applyOp_delData_score (db : DB) (k : Key) (v : Nat) (m : Member) :
    (applyOp db (BatchOp.delData k v m)).score = db.score := rfl

@[simp] theorem applyOp_putScore_meta (db : DB) (k : Key) (v : Nat) (s : D) (m : Member) :
    (applyOp db (BatchOp.putScore k v s m)).meta = db.meta := rfl

@[simp] theorem applyOp_putScore_data (db : DB) (k : Key) (v : Nat) (s : D) (m : Member) :
    (applyOp db (BatchOp.putScore k v s m)).data = db.data := rfl

@[simp] theorem applyOp_delScore_meta (db : DB) (k : Key) (v : Nat) (s : D) (m : Member) :
    (applyOp db (BatchOp.delScore k v s m)).meta = db.meta := rfl

@[simp] theorem applyOp_delScore_data (db : DB) (k : Key) (v : Nat) (s : D) (m : Member) :
    (applyOp db (BatchOp.delScore k v s m)).data = db.data := rfl

theorem getMeta_putMeta_self (db : DB) (k : Key) (mv : MetaValue) :
    getMeta (applyOp db (BatchOp.putMeta k mv)) k = some mv := by
  simp [getMeta, applyOp, List.find?_cons_of_pos]

theorem getMeta_putMeta_other (db : DB) (k k2 : Key) (mv : MetaValue)
    (h : k2 ≠ k) : getMeta (applyOp db (BatchOp.putMeta k mv)) k2 = getMeta db k2 := by
  simp only [getMeta, applyOp]
  rw [List.find?_cons_of_neg _ (by simp; exact fun e => h e.symm)]
  have hfind : ∀ (l : List (Key × MetaValue)),
      (l.filter (fun p => !decide (p.1 = k))).find? (fun p => decide (p.1 = k2)) =
      l.find? (fun p => decide (p.1 = k2)) := by
    intro l
    induction l with
    | nil => rfl
    | cons p rest ih =>
      rw [List.filter_cons]
      by_cases hk : p.1 = k
      · have hp : ¬ (p.1 = k2) := fun e => h (e ▸ hk)
        rw [if_neg (by simp [hk])]
        rw [ih, List.find?_cons_of_neg _ (by simp [hp])]
      · rw [if_pos (by simp [hk])]
        by_cases hp : p.1 = k2
        · rw [List.find?_cons_of_pos _ (by simp [hp]),
            List.find?_cons_of_pos _ (by simp [hp])]
        · rw [List.find?_cons_of_neg _ (by simp [hp]),
            List.find?_cons_of_neg _ (by simp [hp]), ih]
  rw [hfind]

/-! ### Claim C4: ZInterstore with empty or invalid sources -/

/-- A source key that contributes `have_invalid_zsets` in `ZInterstore`:
absent, stale, or empty. -/
def metaInvalid (db : DB) (k : Key) (now : Int) : Bool :=
  match getMeta db k with
  | some mv => mv.isStale now || decide (mv.count = 0)
  | none => true

/-- Some source key is absent, stale, or empty. -/
def sourceInvalid (db : DB) (keys : List Key) (now : Int) : Prop :=
  ∃ k ∈ keys, metaInvalid db k now = true

theorem zinterstore_haveInvalid (db : DB) (keys : List Key) (now : Int) :
    ((keys.map (fun k => (k, getMeta db k))).any (fun p => match p.2 with
      | some mv => mv.isStale now || decide (mv.count = 0)
      | none => true) = true) ↔ sourceInvalid db keys now := by
  rw [List.any_eq_true]
  constructor
  · rintro ⟨p, hp, hcond⟩
    rcases List.mem_map.mp hp with ⟨k, hk, rfl⟩
    exact ⟨k, hk, by simpa [metaInvalid] using hcond⟩
  · rintro ⟨k, hk, hcond⟩
    exact ⟨(k, getMeta db k), List.mem_map.mpr ⟨k, hk, rfl⟩,
      by simpa [metaInvalid] using hcond⟩

/-- Claim C4: ZInterstore returns Corruption iff the source key list is
empty (leaving the store unchanged in that case); with at least one source
key and some source absent, stale, or empty, it still overwrites the
destination to an empty set with a fresh version and count 0, sets ret to
0, and adds no data or score rows. -/
theorem zinterstore_empty_keys_spec (db : DB) (dest : Key) (keys : List Key)
    (weights : List D) (agg : Agg) (now : Int) (tick : Nat) (ret0 : Int) :
    ((∃ msg, (zinterstore db dest keys weights agg now tick ret0).1 =
        Status.corruption msg) ↔ keys = []) ∧
    (keys = [] → zinterstore db dest keys weights agg now tick ret0 =
      (Status.corruption "ZInterstore invalid parameter, no keys", ret0, db)) ∧
    (keys ≠ [] → sourceInvalid db keys now →
      (zinterstore db dest keys weights agg now tick ret0).1 = Status.ok ∧
      (zinterstore db dest keys weights agg now tick ret0).2.1 = 0 ∧
      (∃ v2, getMeta (zinterstore db dest keys weights agg now tick ret0).2.2 dest =
          some (MetaValue.mk v2 0 0) ∧
        ∀ mv, getMeta db dest = some mv → mv.version < v2) ∧
      (zinterstore db dest keys weights agg now tick ret0).2.2.data = db.data ∧
      (zinterstore db dest keys weights agg now tick ret0).2.2.score = db.score) := by
  have hlen : keys.length = 0 ↔ keys = [] := List.length_eq_zero
  refine ⟨?_, ?_, ?_⟩
  · constructor
    · rintro ⟨msg, hmsg⟩
      by_contra hne
      have h0 : ¬ keys.length = 0 := fun h => hne (hlen.mp h)
      simp only [zinterstore, if_neg h0] at hmsg
      exact Status.noConfusion hmsg
    · rintro rfl
      refine ⟨"ZInterstore invalid parameter, no keys", ?_⟩
      simp [zinterstore]
  · rintro rfl
    simp [zinterstore]
  · intro hne hinv
    have h0 : ¬ keys.length = 0 := fun h => hne (hlen.mp h)
    have hhi : ((keys.map (fun k => (k, getMeta db k))).any (fun p => match p.2 with
      | some mv => mv.isStale now || decide (mv.count = 0)
      | none => true)) = true := (zinterstore_haveInvalid db keys now).mpr hinv
    simp only [zinterstore, if_neg h0, hhi, if_true, List.length_nil, Int.ofNat_zero,
      List.map_nil, List.flatten_nil]
    refine ⟨by trivial, by trivial, ?_, ?_, ?_⟩
    · unfold overwriteDest
      cases hdm : getMeta db dest with
      | some mv =>
        refine ⟨max tick (mv.version + 1), ?_, ?_⟩
        · simpa [applyBatch, initialMetaValue] using
            getMeta_putMeta_self db dest (MetaValue.mk (max tick (mv.version + 1)) 0 0)
        · intro mv2 hmv2
          cases hmv2
          exact lt_of_lt_of_le (Nat.lt_succ_self _) (le_max_right _ _)
      | none =>
        refine ⟨tick, ?_, ?_⟩
        · simpa [applyBatch] using
            getMeta_putMeta_self db dest (MetaValue.mk tick 0 0)
        · intro mv2 hmv2
          exact Option.noConfusion hmv2
    · unfold overwriteDest
      cases getMeta db dest <;> simp [applyBatch]
    · unfold overwriteDest
      cases getMeta db dest <;> simp [applyBatch]

/-- Witness for `zinterstore_empty_keys_spec`: one absent source key. -/
theorem zinterstore_empty_keys_spec_witness :
    (zinterstore (DB.mk [] [] []) [4] [[3]] [] Agg.sum 0 7 0).1 = Status.ok ∧
    (zinterstore (DB.mk [] [] []) [4] [[3]] [] Agg.sum 0 7 0).2.1 = 0 ∧
    (∃ v2, getMeta (zinterstore (DB.mk [] [] []) [4] [[3]] [] Agg.sum 0 7 0).2.2 [4] =
        some (MetaValue.mk v2 0 0) ∧
      ∀ mv, getMeta (DB.mk [] [] []) [4] = some mv → mv.version < v2) ∧
    (zinterstore (DB.mk [] [] []) [4] [[3]] [] Agg.sum 0 7 0).2.2.data =
      (DB.mk [] [] []).data ∧
    (zinterstore (DB.mk [] [] []) [4] [[3]] [] Agg.sum 0 7 0).2.2.score =
      (DB.mk [] [] []).score :=
  (zinterstore_empty_keys_spec (DB.mk [] [] []) [4] [[3]] [] Agg.sum 0 7 0).2.2
    (by decide) ⟨[3], by decide, by decide⟩

/-! ### Claim C5: normalization of -0.0 in ZUnionstore / ZInterstore -/

theorem zuUpsert_values (P : D → Prop) : ∀ (map : List (Member × D)) (m : Member)
    (s : D), (∀ p ∈ map, P p.2) → P s → ∀ p ∈ zuUpsert map m s, P p.2 := by
  intro map
  induction map with
  | nil =>
    intro m s _ hs p hp
    simp only [zuUpsert, List.mem_singleton] at hp
    rw [hp]
    exact hs
  | cons q rest ih =>
    intro m s hmap hs p hp
    obtain ⟨m1, s1⟩ := q
    rw [zuUpsert] at hp
    by_cases h1 : m = m1
    · rw [if_pos h1] at hp
      rcases List.mem_cons.mp hp with h | h
      · rw [h]; exact hs
      · exact hmap p (List.mem_cons_of_mem _ h)
    · rw [if_neg h1] at hp
      by_cases h2 : keyLt m m1 = true
      · rw [if_pos h2] at hp
        rcases List.mem_cons.mp hp with h | h
        · rw [h]; exact hs
        · exact hmap p h
      · rw [if_neg h2] at hp
        rcases List.mem_cons.mp hp with h | h
        · rw [h]; exact hmap (m1, s1) (List.mem_cons_self _ _)
        · exact ih m s (fun q hq => hmap q (List.mem_cons_of_mem _ hq)) hs p h

theorem normZero_norm (s : D) : (normZero s).q = 0 → (normZero s).neg = false := by
  unfold normZero
  by_cases h : s.q = 0 <;> simp [h]

theorem zuAccumRow_values (agg : Agg) (w : D) (map : List (Member × D)) (r : SRow)
    (hmap : ∀ p ∈ map, p.2.q = 0 → p.2.neg = false) :
    ∀ p ∈ zuAccumRow agg w map r, p.2.q = 0 → p.2.neg = false := by
  intro p hp
  unfold zuAccumRow at hp
  rcases hfind : (map.find? (fun p => decide (p.1 = r.member))).map (·.2) with _ | cur
  · rw [hfind] at hp
    exact zuUpsert_values (fun d => d.q = 0 → d.neg = false) map r.member _ hmap
      (normZero_norm _) p hp
  · rw [hfind] at hp
    exact zuUpsert_values (fun d => d.q = 0 → d.neg = false) map r.member _ hmap
      (normZero_norm _) p hp

theorem zuFoldRows_values (agg : Agg) (w : D) :
    ∀ (rows : List SRow) (map : List (Member × D)),
      (∀ p ∈ map, p.2.q = 0 → p.2.neg = false) →
      ∀ p ∈ rows.foldl (zuAccumRow agg w) map, p.2.q = 0 → p.2.neg = false := by
  intro rows
  induction rows with
  | nil => intro map hmap p hp; exact hmap p hp
  | cons r rest ih =>
    intro map hmap p hp
    exact ih (zuAccumRow agg w map r) (zuAccumRow_values agg w map r hmap) p hp

theorem zuFold_values (db : DB) (now : Int) (weights : List D) (agg : Agg) :
    ∀ (keys : List Key) (idx : Nat) (map : List (Member × D)),
      (∀ p ∈ map, p.2.q = 0 → p.2.neg = false) →
      ∀ p ∈ zuFold db now weights agg keys idx map, p.2.q = 0 → p.2.neg = false := by
  intro keys
  induction keys with
  | nil => intro idx map hmap p hp; exact hmap p hp
  | cons k rest ih =>
    intro idx map hmap p hp
    rw [zuFold] at hp
    rcases hm : getMeta db k with _ | mv
    · simp only [hm] at hp
      exact ih (idx + 1) map hmap p hp
    · simp only [hm] at hp
      by_cases hl : (!(mv.isStale now) && !decide (mv.count = 0)) = true
      · rw [if_pos hl] at hp
        exact ih (idx + 1) _ (zuFoldRows_values agg _ _ map hmap) p hp
      · rw [if_neg hl] at hp
        exact ih (idx + 1) map hmap p hp

/-- The state used by the C5 record: one live set holding member "a" with
score `-0.0` (stored bit pattern preserves the sign). -/
def negzDB : DB :=
  DB.mk [([3], MetaValue.mk 1 1 0)] [DRow.mk [3] 1 [1] (D.mk 0 true)]
    [SRow.mk [3] 1 (D.mk 0 true) [1]]

unseal Rat.mul Rat.add in
/-- Counterexample to claim C5 as stated: ZInterstore performs no `-0.0`
normalization; aggregating the stored score `-0.0` (weight 1, SUM) writes
the destination score row with the negative-zero bit pattern intact. -/
theorem zinterstore_negzero_cex :
    SRow.mk [4] 2 (D.mk 0 true) [1] ∈
      (zinterstore negzDB [4] [[3]] [] Agg.sum 0 2 0).2.2.score ∧
    (D.mk 0 true).q = 0 ∧ (D.mk 0 true).neg = true := by
  decide

/-- Claim C5 (amended): ZUnionstore normalizes an aggregated score of -0.0
to +0.0 before writing the destination rows, for every choice of weights
and aggregate; ZInterstore performs no such normalization (see the
counterexample). -/
theorem zunionstore_normalizes_negzero (db : DB) (dest : Key) (keys : List Key)
    (weights : List D) (agg : Agg) (now : Int) (tick : Nat)
    (k : Key) (v : Nat) (s : D) (m : Member) :
    BatchOp.putScore k v s m ∈ (zunionstoreBatch db dest keys weights agg now tick).1 →
    s.q = 0 → s.neg = false := by
  intro hmem hq
  unfold zunionstoreBatch at hmem
  rcases List.mem_cons.mp hmem with h | h
  · exfalso
    unfold overwriteDest at h
    rcases hgm : getMeta db dest with _ | mv <;> rw [hgm] at h <;> simp at h
  · rw [List.mem_flatten] at h
    rcases h with ⟨ops, hops, hmem2⟩
    rcases List.mem_map.mp hops with ⟨p, hpmap, rfl⟩
    rcases List.mem_cons.mp hmem2 with h2 | h2
    · exact absurd h2 (by simp)
    · rcases List.mem_cons.mp h2 with h3 | h3
      · rw [BatchOp.putScore.injEq] at h3
        have hs : s = p.2 := h3.2.2.1
        rw [hs] at hq ⊢
        exact zuFold_values db now weights agg keys 0 [] (by simp) p hpmap hq
      · exact absurd h3 (by simp)

unseal Rat.mul Rat.add in
/-- Witness for `zunionstore_normalizes_negzero`: on `negzDB`,
ZUnionstore writes the destination score row for member "a" with `+0.0`. -/
theorem zunionstore_normalizes_negzero_witness : (D.mk 0 false).neg = false :=
  zunionstore_normalizes_negzero negzDB [4] [[3]] [] Agg.sum 0 2 [4] 2
    (D.mk 0 false) [1] (by decide) (by decide)

/-! ### Claim C3: key-space Scan budget accounting -/

/-- Number of meta entries the `Scan` loop examines before it exits:
all entries up to the point where the budget, decremented once per live
entry, runs out. -/
def scanConsumed (now : Int) : List (Key × MetaValue) → Int → Nat
  | [], _ => 0
  | (_, mv) :: rest, cnt =>
    if cnt ≤ 0 then 0
    else if mv.isStale now then 1 + scanConsumed now rest cnt
    else 1 + scanConsumed now rest (cnt - 1)

theorem scanLoop_spec (pmatch : Key → Bool) (now : Int) :
    ∀ (entries : List (Key × MetaValue)) (cnt : Int),
      scanLoop pmatch now entries cnt =
        (((entries.take (scanConsumed now entries cnt)).filter
            (fun p => !p.2.isStale now && pmatch p.1)).map Prod.fst,
         cnt - (((entries.take (scanConsumed now entries cnt)).filter
            (fun p => !p.2.isStale now)).length : Int),
         ((entries.drop (scanConsumed now entries cnt)).head?).map Prod.fst) := by
  intro entries
  induction entries with
  | nil => intro cnt; simp [scanLoop, scanConsumed]
  | cons e rest ih =>
    intro cnt
    obtain ⟨k, mv⟩ := e
    by_cases h0 : cnt ≤ 0
    · simp [scanLoop, scanConsumed, h0]
    · by_cases hst : mv.isStale now = true
      · have hL : scanLoop pmatch now ((k, mv) :: rest) cnt =
            scanLoop pmatch now rest cnt := by
          rw [scanLoop, if_neg h0, if_pos hst]
        have hC : scanConsumed now ((k, mv) :: rest) cnt =
            scanConsumed now rest cnt + 1 := by
          rw [scanConsumed, if_neg h0, if_pos hst, Nat.add_comm]
        rw [hL, hC, ih cnt, List.take_succ_cons, List.drop_succ_cons]
        simp [List.filter_cons, hst]
      · have hst2 : mv.isStale now = false := by
          revert hst; cases mv.isStale now <;> simp
        have hL : scanLoop pmatch now ((k, mv) :: rest) cnt =
            (if pmatch k then k :: (scanLoop pmatch now rest (cnt - 1)).1
             else (scanLoop pmatch now rest (cnt - 1)).1,
             (scanLoop pmatch now rest (cnt - 1)).2) := by
          rw [scanLoop, if_neg h0, if_neg (by simp [hst2])]
        have hC : scanConsumed now ((k, mv) :: rest) cnt =
            scanConsumed now rest (cnt - 1) + 1 := by
          rw [scanConsumed, if_neg h0, if_neg (by simp [hst2]), Nat.add_comm]
        rw [hL, hC, ih (cnt - 1), List.take_succ_cons, List.drop_succ_cons]
        by_cases hpm : pmatch k = true <;>
          simp [List.filter_cons, hst2, hpm, Prod.mk.injEq] <;> omega

/-- The state used by the C3 record: a single live key "a". -/
def oneKeyDB : DB := DB.mk [([1], MetaValue.mk 1 1 0)] [] []

/-- Counterexample to claim C3 as stated: with one live key and a pattern
matching nothing, a budget of 1 is still fully consumed (final count 0,
not 1), although no visited live key matches the pattern. -/
theorem scan_budget_cex :
    (scan oneKeyDB [] (fun _ => false) 1 0).2.2.1 = 0 ∧
    (scan oneKeyDB [] (fun _ => false) 1 0).2.2.1 ≠ 1 := by
  decide

/-- Claim C3 (amended): `Scan` decrements the budget once for every visited
live meta key, matching or not; stale keys are skipped without consuming
budget; `is_finish` is true exactly when the iterator was exhausted at loop
exit (even if the budget ran out simultaneously), and otherwise `next_key`
is the first unexamined key. -/
theorem scan_spec (db : DB) (startKey : Key) (pmatch : Key → Bool)
    (count now : Int) :
    scan db startKey pmatch count now =
      (((metaFromKey db startKey).drop
          (scanConsumed now (metaFromKey db startKey) count)).isEmpty,
       (((metaFromKey db startKey).take
          (scanConsumed now (metaFromKey db startKey) count)).filter
            (fun p => !p.2.isStale now && pmatch p.1)).map Prod.fst,
       count - ((((metaFromKey db startKey).take
          (scanConsumed now (metaFromKey db startKey) count)).filter
            (fun p => !p.2.isStale now)).length : Int),
       ((((metaFromKey db startKey).drop
          (scanConsumed now (metaFromKey db startKey) count)).head?).map
            Prod.fst).getD []) := by
  unfold scan
  rw [scanLoop_spec]
  rcases hdrop : (metaFromKey db startKey).drop
      (scanConsumed now (metaFromKey db startKey) count) with _ | ⟨p, t⟩
  · simp [hdrop]
  · simp [hdrop]

/-! ### Decomposing iterator row sequences at the `(k, v)` prefix -/

theorem mem_dataFwdRows {db : DB} {k : Key} {v : Nat} {r : DRow}
    (h : r ∈ dataFwdRows db k v) :
    r ∈ db.data ∧ (keyLt k r.key = true ∨ (k = r.key ∧ v ≤ r.ver)) := by
  unfold dataFwdRows at h
  have h2 := (List.perm_insertionSort drLe _).mem_iff.mp h
  rcases List.mem_filter.mp h2 with ⟨hmem, hcond⟩
  refine ⟨hmem, ?_⟩
  simp only [Bool.or_eq_true, Bool.and_eq_true, decide_eq_true_eq] at hcond
  exact hcond

theorem mem_fwdRows {db : DB} {k : Key} {v : Nat} {r : SRow}
    (h : r ∈ fwdRows db k v) :
    r ∈ db.score ∧ (keyLt k r.key = true ∨ (k = r.key ∧ v ≤ r.ver)) := by
  unfold fwdRows at h
  have h2 := (List.perm_insertionSort srLe _).mem_iff.mp h
  rcases List.mem_filter.mp h2 with ⟨hmem, hcond⟩
  refine ⟨hmem, ?_⟩
  simp only [Bool.or_eq_true, Bool.and_eq_true, decide_eq_true_eq] at hcond
  exact hcond

theorem dataFwdRows_split (db : DB) (k : Key) (v : Nat) :
    dataFwdRows db k v =
      (dataFwdRows db k v).filter (fun r => decide (r.key = k ∧ r.ver = v)) ++
      (dataFwdRows db k v).filter (fun r => !decide (r.key = k ∧ r.ver = v)) := by
  have hs : (dataFwdRows db k v).Pairwise drLe := by
    unfold dataFwdRows
    exact List.sorted_insertionSort drLe _
  apply pairwise_filter_append hs
  intro a ha b _ hpa hab
  have ha2 := (mem_dataFwdRows ha).2
  have hstrict : keyLt k a.key = true ∨ (k = a.key ∧ v < a.ver) := by
    rcases ha2 with h | ⟨he, hle⟩
    · exact Or.inl h
    · refine Or.inr ⟨he, ?_⟩
      by_cases h2 : v < a.ver
      · exact h2
      · exfalso
        have hv : a.ver = v := Nat.le_antisymm (Nat.le_of_not_lt h2) hle
        rw [decide_eq_false_iff_not] at hpa
        exact hpa ⟨he.symm, hv⟩
  have hbs := drLe_strict hstrict hab
  rw [decide_eq_false_iff_not]
  rintro ⟨hbk, hbv⟩
  rcases hbs with h | ⟨_, hlt⟩
  · rw [hbk, keyLt_irrefl] at h
    exact Bool.noConfusion h
  · rw [hbv] at hlt
    exact Nat.lt_irrefl v hlt

theorem fwdRows_split (db : DB) (k : Key) (v : Nat) :
    fwdRows db k v =
      (fwdRows db k v).filter (fun r => decide (r.key = k ∧ r.ver = v)) ++
      (fwdRows db k v).filter (fun r => !decide (r.key = k ∧ r.ver = v)) := by
  have hs : (fwdRows db k v).Pairwise srLe := by
    unfold fwdRows
    exact List.sorted_insertionSort srLe _
  apply pairwise_filter_append hs
  intro a ha b _ hpa hab
  have ha2 := (mem_fwdRows ha).2
  have hstrict : keyLt k a.key = true ∨ (k = a.key ∧ v < a.ver) := by
    rcases ha2 with h | ⟨he, hle⟩
    · exact Or.inl h
    · refine Or.inr ⟨he, ?_⟩
      by_cases h2 : v < a.ver
      · exact h2
      · exfalso
        have hv : a.ver = v := Nat.le_antisymm (Nat.le_of_not_lt h2) hle
        rw [decide_eq_false_iff_not] at hpa
        exact hpa ⟨he.symm, hv⟩
  have hbs := srLe_strict hstrict hab
  rw [decide_eq_false_iff_not]
  rintro ⟨hbk, hbv⟩
  rcases hbs with h | ⟨_, hlt⟩
  · rw [hbk, keyLt_irrefl] at h
    exact Bool.noConfusion h
  · rw [hbv] at hlt
    exact Nat.lt_irrefl v hlt

theorem dataFwdRows_prefix_length (db : DB) (k : Key) (v : Nat) :
    ((dataFwdRows db k v).filter (fun r => decide (r.key = k ∧ r.ver = v))).length
      = ndata db k v := by
  unfold dataFwdRows ndata
  have hperm := List.perm_insertionSort drLe
    (db.data.filter (fun r => keyLt k r.key || (decide (k = r.key) && decide (v ≤ r.ver))))
  have h2 := hperm.filter (fun r => decide (r.key = k ∧ r.ver = v))
  rw [h2.length_eq, List.filter_filter]
  congr 1
  apply List.filter_congr
  intro r _
  by_cases hr : r.key = k ∧ r.ver = v
  · have h1 : decide (r.key = k ∧ r.ver = v) = true := by simp [hr.1, hr.2]
    have h3 : (keyLt k r.key || (decide (k = r.key) && decide (v ≤ r.ver))) = true := by
      simp [hr.1, hr.2]
    rw [h1, h3]
    rfl
  · have h1 : decide (r.key = k ∧ r.ver = v) = false := by
      rw [decide_eq_false_iff_not]; exact hr
    rw [h1]
    rfl

theorem fwdRows_prefix_length (db : DB) (k : Key) (v : Nat) :
    ((fwdRows db k v).filter (fun r => decide (r.key = k ∧ r.ver = v))).length
      = nscore db k v := by
  unfold fwdRows nscore
  have hperm := List.perm_insertionSort srLe
    (db.score.filter (fun r => keyLt k r.key || (decide (k = r.key) && decide (v ≤ r.ver))))
  have h2 := hperm.filter (fun r => decide (r.key = k ∧ r.ver = v))
  rw [h2.length_eq, List.filter_filter]
  congr 1
  apply List.filter_congr
  intro r _
  by_cases hr : r.key = k ∧ r.ver = v
  · have h1 : decide (r.key = k ∧ r.ver = v) = true := by simp [hr.1, hr.2]
    have h3 : (keyLt k r.key || (decide (k = r.key) && decide (v ≤ r.ver))) = true := by
      simp [hr.1, hr.2]
    rw [h1, h3]
    rfl
  · have h1 : decide (r.key = k ∧ r.ver = v) = false := by
      rw [decide_eq_false_iff_not]; exact hr
    rw [h1]
    rfl

/-! ### Claim C10: ZRemrangebylex removing nothing leaves the state alone -/

theorem zrrblLoop_nil (k : Key) (v : Nat) (mn mx : Member) (lc rc lnl rnl : Bool)
    (stopIdx : Int) :
    ∀ (l : List DRow) (cur : Int),
      (∀ r ∈ l.take (stopIdx + 1 - cur).toNat,
        ¬(leftPassLex mn lc lnl r.member = true ∧
          rightPassLex mx rc rnl r.member = true)) →
      zrrblLoop k v mn mx lc rc lnl rnl stopIdx l cur = ([], 0) := by
  intro l
  induction l with
  | nil => intro cur _; rfl
  | cons r rest ih =>
    intro cur hno
    rw [zrrblLoop]
    by_cases hcur : cur ≤ stopIdx
    · rw [if_pos hcur]
      have hr : r ∈ (r :: rest).take (stopIdx + 1 - cur).toNat := by
        have hn : 1 ≤ (stopIdx + 1 - cur).toNat := by omega
        rcases Nat.exists_eq_add_of_le hn with ⟨n, hn2⟩
        rw [hn2, Nat.add_comm, List.take_succ_cons]
        exact List.mem_cons_self _ _
      have hnr := hno r hr
      have hrest : ∀ x ∈ rest.take (stopIdx + 1 - (cur + 1)).toNat,
          ¬(leftPassLex mn lc lnl x.member = true ∧
            rightPassLex mx rc rnl x.member = true) := by
        intro x hx
        apply hno
        have hn : 1 ≤ (stopIdx + 1 - cur).toNat := by omega
        rcases Nat.exists_eq_add_of_le hn with ⟨n, hn2⟩
        rw [hn2, Nat.add_comm, List.take_succ_cons]
        apply List.mem_cons_of_mem
        have he : (stopIdx + 1 - (cur + 1)).toNat = n := by omega
        rw [he] at hx
        exact hx
      by_cases hrp : rightPassLex mx rc rnl r.member = true
      · have hlp : leftPassLex mn lc lnl r.member = false := by
          by_contra hc
          have h2 : leftPassLex mn lc lnl r.member = true := by
            revert hc; cases leftPassLex mn lc lnl r.member <;> simp
          exact hnr ⟨h2, hrp⟩
        rw [hrp]
        simp only [Bool.not_true, Bool.false_eq_true, if_false, hlp, Bool.false_and]
        exact ih (cur + 1) hrest
      · have hrp2 : rightPassLex mx rc rnl r.member = false := by
          revert hrp; cases rightPassLex mx rc rnl r.member <;> simp
        rw [hrp2]
        simp [hrp2]
    · rw [if_neg hcur]

/-- Claim C10: a ZRemrangebylex call on a live, non-empty, coherent key that
removes no member (no member of the set lies within the lex bounds) returns
0 via ret and leaves the whole state - in particular the key's meta row with
its version, count and timestamp - unchanged. -/
theorem zremrangebylex_noop (db : DB) (k : Key) (mn mx : Member) (lc rc : Bool)
    (now : Int) (mv : MetaValue)
    (hm : getMeta db k = some mv)
    (hst : mv.isStale now = false)
    (hc : mv.count ≠ 0)
    (hcount : ndata db k mv.version = mv.count.toNat)
    (hnone : ∀ r ∈ db.data, r.key = k → r.ver = mv.version →
      ¬(leftPassLex mn lc (decide (mn = [45])) r.member = true ∧
        rightPassLex mx rc (decide (mx = [43])) r.member = true)) :
    zremrangebylex db k mn mx lc rc now = (Status.ok, 0, db) := by
  have hloop : zrrblLoop k mv.version mn mx lc rc (decide (mn = [45]))
      (decide (mx = [43])) (mv.count - 1) (dataFwdRows db k mv.version) 0 = ([], 0) := by
    apply zrrblLoop_nil
    intro r hr
    have hpr : r ∈ (dataFwdRows db k mv.version).filter
        (fun r => decide (r.key = k ∧ r.ver = mv.version)) := by
      have hsplit := dataFwdRows_split db k mv.version
      have hlen : ((dataFwdRows db k mv.version).filter
          (fun r => decide (r.key = k ∧ r.ver = mv.version))).length = mv.count.toNat := by
        rw [dataFwdRows_prefix_length, hcount]
      have htake : (dataFwdRows db k mv.version).take (mv.count - 1 + 1 - 0).toNat =
          (dataFwdRows db k mv.version).filter
            (fun r => decide (r.key = k ∧ r.ver = mv.version)) := by
        have he : (mv.count - 1 + 1 - (0 : Int)).toNat = mv.count.toNat := by omega
        rw [he]
        conv => lhs; rw [hsplit]
        rw [← hlen]
        exact List.take_left _ _
      rw [htake] at hr
      exact hr
    rcases List.mem_filter.mp hpr with ⟨h1, h2⟩
    rw [decide_eq_true_eq] at h2
    exact hnone r (mem_dataFwdRows h1).1 h2.1 h2.2
  simp only [zremrangebylex, hm]
  rw [if_neg (by simp [hst, hc])]
  rw [hloop]
  simp [applyBatch]

/-- The state used by the C10 witness: one live set with a single member
outside the queried lex range. -/
def lexDB : DB :=
  DB.mk [([1], MetaValue.mk 1 1 0)] [DRow.mk [1] 1 [2] (D.mk 1 false)]
    [SRow.mk [1] 1 (D.mk 1 false) [2]]

/-- Witness for `zremrangebylex_noop`: removing the range `[[5], [6]]` from
a set holding only member `[2]` is a complete no-op. -/
theorem zremrangebylex_noop_witness :
    zremrangebylex lexDB [1] [5] [6] true true 0 = (Status.ok, 0, lexDB) :=
  zremrangebylex_noop lexDB [1] [5] [6] true true 0 (MetaValue.mk 1 1 0)
    (by decide) (by decide) (by decide) (by decide) (by decide)

/-! ### Claim C2: ZAdd on an existing live key -/

theorem getMeta_applyBatch_putMeta_last (db : DB) (ops : List BatchOp) (k : Key)
    (mv : MetaValue) :
    getMeta (applyBatch db (ops ++ [BatchOp.putMeta k mv])) k = some mv := by
  unfold applyBatch
  rw [List.foldl_append]
  exact getMeta_putMeta_self _ k mv

theorem zaddLoop_cnt (db : DB) (k : Key) (v : Nat) : ∀ (l : List SM),
    (zaddLoop db k v false l).2 =
      ((l.filter (fun sm => decide (getData db k v sm.member = none))).length : Int) := by
  intro l
  induction l with
  | nil => rfl
  | cons sm rest ih =>
    rw [zaddLoop, List.filter_cons]
    rcases hgd : getData db k v sm.member with _ | old
    · simp only [zaddOne, hgd, Bool.false_eq_true, if_false, hgd, decide_eq_true_eq,
        List.length_cons, ih]
      simp [hgd]
      omega
    · by_cases he : old.q = sm.score.q
      · simp only [zaddOne, hgd, he]
        simp [hgd, ih]
      · simp only [zaddOne, hgd]
        rw [if_neg (by simp), if_neg he]
        simp [hgd, ih]

/-- Claim C2: for a ZAdd call on an existing, non-stale key: the returned
value is the number of distinct input members not already present; a pair
whose member is present with an identical score contributes no batch
operation at all; a pair present with a different old score contributes a
delete of the old Score row plus rewrites of its Data and Score rows; the
write batch is exactly the concatenation of the per-pair contributions
followed by one meta put; and meta.count is incremented by exactly the
returned value. -/
theorem zadd_existing_live_spec (db : DB) (k : Key) (sms : List SM) (now : Int)
    (tick : Nat) (mv : MetaValue)
    (hm : getMeta db k = some mv)
    (hst : mv.isStale now = false) :
    ((zadd db k sms now tick).1 = Status.ok) ∧
    ((zadd db k sms now tick).2.1 =
      (((dedupFirst sms).filter
        (fun sm => decide (getData db k mv.version sm.member = none))).length : Int)) ∧
    (∀ sm old, getData db k mv.version sm.member = some old → old.q = sm.score.q →
      zaddOne db k mv.version false sm = ([], 0)) ∧
    (∀ sm old, getData db k mv.version sm.member = some old → old.q ≠ sm.score.q →
      zaddOne db k mv.version false sm =
        ([BatchOp.delScore k mv.version old sm.member,
          BatchOp.putData k mv.version sm.member sm.score,
          BatchOp.putScore k mv.version sm.score sm.member], 0)) ∧
    ((zaddBatch db k sms now tick).1 =
      (zaddLoop db k mv.version false (dedupFirst sms)).1 ++
        [BatchOp.putMeta k
          { mv with count := mv.count + (zadd db k sms now tick).2.1 }]) ∧
    (getMeta (zadd db k sms now tick).2.2 k =
      some { mv with count := mv.count + (zadd db k sms now tick).2.1 }) := by
  have hbatch : zaddBatch db k sms now tick =
      ((zaddLoop db k mv.version false (dedupFirst sms)).1 ++
        [BatchOp.putMeta k
          { mv with count := mv.count +
              (zaddLoop db k mv.version false (dedupFirst sms)).2 }],
       (zaddLoop db k mv.version false (dedupFirst sms)).2) := by
    unfold zaddBatch
    rw [hm]
    simp only [hst, Bool.false_eq_true, if_false]
  have hret : (zadd db k sms now tick).2.1 =
      (zaddLoop db k mv.version false (dedupFirst sms)).2 := by
    show (zaddBatch db k sms now tick).2 = _
    rw [hbatch]
  refine ⟨rfl, ?_, ?_, ?_, ?_, ?_⟩
  · rw [hret]
    exact zaddLoop_cnt db k mv.version (dedupFirst sms)
  · intro sm old h he
    simp [zaddOne, h, he]
  · intro sm old h he
    simp [zaddOne, h, he]
  · rw [hret]
    show (zaddBatch db k sms now tick).1 = _
    rw [hbatch]
  · rw [hret]
    show getMeta (applyBatch db (zaddBatch db k sms now tick).1) k = _
    rw [hbatch]
    exact getMeta_applyBatch_putMeta_last db _ k _

/-- The state used by the C2 witness: a live set `{[2] ↦ 1, [3] ↦ 2}`. -/
def zaddDB : DB :=
  DB.mk [([1], MetaValue.mk 1 2 0)]
    [DRow.mk [1] 1 [2] (D.mk 1 false), DRow.mk [1] 1 [3] (D.mk 2 false)]
    [SRow.mk [1] 1 (D.mk 1 false) [2], SRow.mk [1] 1 (D.mk 2 false) [3]]

/-- Witness for `zadd_existing_live_spec`: adding `([2] ↦ 1, [9] ↦ 5)` to
`zaddDB` returns 1 (only `[9]` is new) and bumps meta.count from 2 to 3. -/
theorem zadd_existing_live_spec_witness :
    (zadd zaddDB [1] [SM.mk (D.mk 1 false) [2], SM.mk (D.mk 5 false) [9]] 0 9).1 =
      Status.ok ∧
    (zadd zaddDB [1] [SM.mk (D.mk 1 false) [2], SM.mk (D.mk 5 false) [9]] 0 9).2.1 = 1 ∧
    getMeta
      (zadd zaddDB [1] [SM.mk (D.mk 1 false) [2], SM.mk (D.mk 5 false) [9]] 0 9).2.2
      [1] = some (MetaValue.mk 1 3 0) := by
  have h := zadd_existing_live_spec zaddDB [1]
    [SM.mk (D.mk 1 false) [2], SM.mk (D.mk 5 false) [9]] 0 9 (MetaValue.mk 1 2 0)
    (by decide) (by decide)
  refine ⟨h.1, ?_, ?_⟩
  · rw [h.2.1]
    decide
  · have h6 := h.2.2.2.2.2
    rw [h6, h.2.1]
    decide

/-! ### Score and data families have the same cardinality under `Bij` -/

theorem getData_isSome_iff (db : DB) (k : Key) (v : Nat) (m : Member) :
    (∃ s, getData db k v m = some s) ↔
      ∃ r ∈ db.data, r.key = k ∧ r.ver = v ∧ r.member = m := by
  constructor
  · rintro ⟨s, hs⟩
    unfold getData at hs
    rcases hf : db.data.find? (fun r => decide (r.key = k ∧ r.ver = v ∧ r.member = m))
      with _ | r
    · rw [hf] at hs
      exact absurd hs (by simp)
    · have h1 := List.find?_some hf
      have h2 := List.mem_of_find?_eq_some hf
      rw [decide_eq_true_eq] at h1
      exact ⟨r, h2, h1⟩
  · rintro ⟨r, hr, hk, hv, hm⟩
    have : (db.data.find? (fun r => decide (r.key = k ∧ r.ver = v ∧ r.member = m))).isSome := by
      rw [List.find?_isSome]
      exact ⟨r, hr, by simp [hk, hv, hm]⟩
    rcases ho : db.data.find? (fun r => decide (r.key = k ∧ r.ver = v ∧ r.member = m))
      with _ | r2
    · rw [ho] at this
      exact absurd this (by simp)
    · refine ⟨r2.score, ?_⟩
      unfold getData
      rw [ho]
      rfl

theorem nscore_eq_ndata (db : DB) (k : Key) (v : Nat) (hu : Uniq db)
    (hb : Bij db k v) : nscore db k v = ndata db k v := by
  classical
  unfold nscore ndata
  have hSDn : ((db.score.filter (fun r => decide (r.key = k ∧ r.ver = v))).map
      (fun r => r.member)).Nodup := by
    apply List.Nodup.map_on
    · intro x hx y hy hxy
      rcases List.mem_filter.mp hx with ⟨hx1, hx2⟩
      rcases List.mem_filter.mp hy with ⟨hy1, hy2⟩
      rw [decide_eq_true_eq] at hx2 hy2
      have hxe : SRow.mk k v x.score x.member = x := by
        obtain ⟨a, b, c, d⟩ := x
        simp only [SRow.mk.injEq]
        exact ⟨hx2.1.symm, hx2.2.symm, trivial, trivial⟩
      have hye : SRow.mk k v y.score y.member = y := by
        obtain ⟨a, b, c, d⟩ := y
        simp only [SRow.mk.injEq]
        exact ⟨hy2.1.symm, hy2.2.symm, trivial, trivial⟩
      have hxrow : SRow.mk k v x.score x.member ∈ db.score := hxe.symm ▸ hx1
      have hyrow : SRow.mk k v y.score y.member ∈ db.score := hye.symm ▸ hy1
      have hxd := (hb x.score x.member).mp hxrow
      have hyd := (hb y.score y.member).mp hyrow
      rw [hxy] at hxd
      rw [hxd] at hyd
      have hsc : x.score = y.score := Option.some.inj hyd
      cases x; cases y; simp_all
    · exact (hu.2.2).filter _
  have hDDn : ((db.data.filter (fun r => decide (r.key = k ∧ r.ver = v))).map
      (fun r => r.member)).Nodup := by
    apply List.Nodup.map_on
    · intro x hx y hy hxy
      rcases List.mem_filter.mp hx with ⟨hx1, hx2⟩
      rcases List.mem_filter.mp hy with ⟨hy1, hy2⟩
      rw [decide_eq_true_eq] at hx2 hy2
      have hinj := List.inj_on_of_nodup_map (hu.2.1)
      apply hinj hx1 hy1
      unfold dKey
      rw [hx2.1, hx2.2, hy2.1, hy2.2, hxy]
    · exact (hu.2.1.of_map).filter _
  have hmemiff : ∀ m, (m ∈ (db.score.filter
      (fun r => decide (r.key = k ∧ r.ver = v))).map (fun r => r.member)) ↔
      (m ∈ (db.data.filter (fun r => decide (r.key = k ∧ r.ver = v))).map
        (fun r => r.member)) := by
    intro m
    simp only [List.mem_map, List.mem_filter, decide_eq_true_eq]
    constructor
    · rintro ⟨r, ⟨hr, hk2, hv2⟩, hm2⟩
      have hrow : SRow.mk k v r.score m ∈ db.score := by
        have : r = SRow.mk k v r.score m := by cases r; simp_all
        rw [← this]; exact hr
      have hd := (hb r.score m).mp hrow
      rcases (getData_isSome_iff db k v m).mp ⟨r.score, hd⟩ with ⟨d, hdmem, hdk, hdv, hdm⟩
      exact ⟨d, ⟨hdmem, hdk, hdv⟩, hdm⟩
    · rintro ⟨r, ⟨hr, hk2, hv2⟩, hm2⟩
      rcases (getData_isSome_iff db k v m).mpr ⟨r, hr, hk2, hv2, hm2⟩ with ⟨s, hs⟩
      have hrow := (hb s m).mpr hs
      exact ⟨SRow.mk k v s m, ⟨hrow, rfl, rfl⟩, rfl⟩
  have h1 : (db.score.filter (fun r => decide (r.key = k ∧ r.ver = v))).length =
      ((db.score.filter (fun r => decide (r.key = k ∧ r.ver = v))).map
        (fun r => r.member)).length := by rw [List.length_map]
  have h2 : (db.data.filter (fun r => decide (r.key = k ∧ r.ver = v))).length =
      ((db.data.filter (fun r => decide (r.key = k ∧ r.ver = v))).map
        (fun r => r.member)).length := by rw [List.length_map]
  rw [h1, h2]
  rw [← List.toFinset_card_of_nodup hSDn, ← List.toFinset_card_of_nodup hDDn]
  congr 1
  ext m
  simp only [List.mem_toFinset]
  exact hmemiff m

/-! ### Claim C7: ZRank and ZRevrank -/

/-- The sorted base list a reverse score-CF iterator walks (in forward
order) after `SeekForPrev(ZSetsScoreKey(k, v, max, ""))`. -/
def revBase (db : DB) (k : Key) (v : Nat) : List SRow :=
  List.insertionSort srLe (db.score.filter
    (fun r => keyLt r.key k || (decide (r.key = k) && decide (r.ver ≤ v))))

/-- The rows of the `(k, v)` prefix in forward iteration order, i.e. sorted
by (score ascending, member ascending). -/
def prefixRowsF (db : DB) (k : Key) (v : Nat) : List SRow :=
  (fwdRows db k v).filter (fun r => decide (r.key = k ∧ r.ver = v))

/-- The rows strictly before the `(k, v)` prefix that a reverse iterator
reaches after exhausting the prefix, still in forward order. -/
def beforeRowsR (db : DB) (k : Key) (v : Nat) : List SRow :=
  (revBase db k v).filter (fun r => !decide (r.key = k ∧ r.ver = v))

theorem revRows_revBase (db : DB) (k : Key) (v : Nat) :
    revRows db k v = (revBase db k v).reverse := rfl

theorem prefixRowsF_perm (db : DB) (k : Key) (v : Nat) :
    List.Perm (prefixRowsF db k v)
      (db.score.filter (fun r => decide (r.key = k ∧ r.ver = v))) := by
  unfold prefixRowsF fwdRows
  have hperm := (List.perm_insertionSort srLe
    (db.score.filter (fun r =>
      keyLt k r.key || (decide (k = r.key) && decide (v ≤ r.ver))))).filter
    (fun r => decide (r.key = k ∧ r.ver = v))
  rw [List.filter_filter] at hperm
  refine hperm.trans ?_
  have he : db.score.filter (fun r => decide (r.key = k ∧ r.ver = v) &&
      (keyLt k r.key || (decide (k = r.key) && decide (v ≤ r.ver)))) =
      db.score.filter (fun r => decide (r.key = k ∧ r.ver = v)) := by
    apply List.filter_congr
    intro r _
    by_cases hr : r.key = k ∧ r.ver = v
    · have h3 : (keyLt k r.key || (decide (k = r.key) && decide (v ≤ r.ver))) = true := by
        simp [hr.1, hr.2]
      rw [h3]
      simp
    · have h1 : decide (r.key = k ∧ r.ver = v) = false := by
        rw [decide_eq_false_iff_not]; exact hr
      rw [h1]
      simp
  rw [he]

theorem revBaseAt_perm (db : DB) (k : Key) (v : Nat) :
    List.Perm ((revBase db k v).filter (fun r => decide (r.key = k ∧ r.ver = v)))
      (db.score.filter (fun r => decide (r.key = k ∧ r.ver = v))) := by
  unfold revBase
  have hperm := (List.perm_insertionSort srLe
    (db.score.filter (fun r =>
      keyLt r.key k || (decide (r.key = k) && decide (r.ver ≤ v))))).filter
    (fun r => decide (r.key = k ∧ r.ver = v))
  rw [List.filter_filter] at hperm
  refine hperm.trans ?_
  have he : db.score.filter (fun r => decide (r.key = k ∧ r.ver = v) &&
      (keyLt r.key k || (decide (r.key = k) && decide (r.ver ≤ v)))) =
      db.score.filter (fun r => decide (r.key = k ∧ r.ver = v)) := by
    apply List.filter_congr
    intro r _
    by_cases hr : r.key = k ∧ r.ver = v
    · have h3 : (keyLt r.key k || (decide (r.key = k) && decide (r.ver ≤ v))) = true := by
        simp [hr.1, hr.2]
      rw [h3]
      simp
    · have h1 : decide (r.key = k ∧ r.ver = v) = false := by
        rw [decide_eq_false_iff_not]; exact hr
      rw [h1]
      simp
  rw [he]

theorem srLe_same_prefix {a b : SRow} (hk : a.key = b.key) (hv : a.ver = b.ver)
    (h : srLe a b) :
    a.score.q < b.score.q ∨ (a.score.q = b.score.q ∧
      (keyLt a.member b.member = true ∨ a.member = b.member)) := by
  rcases h with h | ⟨_, h⟩
  · rw [hk, keyLt_irrefl] at h
    exact Bool.noConfusion h
  · rcases h with h | ⟨_, h⟩
    · omega
    · exact h

theorem srLe_antisymm_at {db : DB} {k : Key} {v : Nat} (hb : Bij db k v)
    {a b : SRow} (ha : a ∈ db.score) (hbm : b ∈ db.score)
    (hak : a.key = k) (hav : a.ver = v) (hbk : b.key = k) (hbv : b.ver = v)
    (h1 : srLe a b) (h2 : srLe b a) : a = b := by
  have hkk : a.key = b.key := hak.trans hbk.symm
  have hvv : a.ver = b.ver := hav.trans hbv.symm
  have p1 := srLe_same_prefix hkk hvv h1
  have p2 := srLe_same_prefix hkk.symm hvv.symm h2
  have hq : a.score.q = b.score.q := by
    rcases p1 with h | ⟨h, _⟩
    · rcases p2 with h2q | ⟨h2q, _⟩
      · exact absurd h2q (by exact fun hc => absurd (hc.trans h) (lt_irrefl _ ∘ id) )
      · exact h2q.symm
    · exact h
  have hmm : a.member = b.member := by
    rcases p1 with h | ⟨_, hmem1⟩
    · exact absurd hq (by intro he; rw [he] at h; exact lt_irrefl _ h)
    · rcases p2 with h | ⟨_, hmem2⟩
      · exact absurd hq (by intro he; rw [he] at h; exact lt_irrefl _ h)
      · rcases hmem1 with hm1 | hm1
        · rcases hmem2 with hm2 | hm2
          · have hasym := keyLt_asymm hm1
            rw [hm2] at hasym
            exact Bool.noConfusion hasym
          · exact hm2.symm
        · exact hm1
  have hae : SRow.mk k v a.score a.member = a := by
    obtain ⟨x1, x2, x3, x4⟩ := a
    simp only [SRow.mk.injEq]
    exact ⟨hak.symm, hav.symm, trivial, trivial⟩
  have hbe : SRow.mk k v b.score b.member = b := by
    obtain ⟨x1, x2, x3, x4⟩ := b
    simp only [SRow.mk.injEq]
    exact ⟨hbk.symm, hbv.symm, trivial, trivial⟩
  have hda := (hb a.score a.member).mp (hae.symm ▸ ha)
  have hdb := (hb b.score b.member).mp (hbe.symm ▸ hbm)
  rw [hmm] at hda
  rw [hda] at hdb
  have hss : a.score = b.score := Option.some.inj hdb
  obtain ⟨x1, x2, x3, x4⟩ := a
  obtain ⟨y1, y2, y3, y4⟩ := b
  simp_all

theorem revBase_split (db : DB) (k : Key) (v : Nat) :
    revBase db k v =
      (revBase db k v).filter (fun r => !decide (r.key = k ∧ r.ver = v)) ++
      (revBase db k v).filter (fun x => !(!decide (x.key = k ∧ x.ver = v))) := by
  have hs : (revBase db k v).Pairwise srLe := by
    unfold revBase
    exact List.sorted_insertionSort srLe _
  apply pairwise_filter_append hs
  intro a ha b hbm hpa hab
  have hpa' : a.key = k ∧ a.ver = v := by
    by_contra hcontra
    rw [decide_eq_false hcontra] at hpa
    exact Bool.noConfusion hpa
  have hbf := (List.perm_insertionSort srLe _).mem_iff.mp hbm
  rcases List.mem_filter.mp hbf with ⟨_, hbc⟩
  simp only [Bool.or_eq_true, Bool.and_eq_true, decide_eq_true_eq] at hbc
  have hb' : b.key = k ∧ b.ver = v := by
    rcases hab with hlt | ⟨hke, hrest⟩
    · rw [hpa'.1] at hlt
      rcases hbc with hc | ⟨hc, _⟩
      · have hasym := keyLt_asymm hlt
        rw [hc] at hasym
        exact Bool.noConfusion hasym
      · rw [hc] at hlt
        rw [keyLt_irrefl] at hlt
        exact Bool.noConfusion hlt
    · have hbk : b.key = k := by rw [← hke, hpa'.1]
      refine ⟨hbk, ?_⟩
      rcases hbc with hc | ⟨_, hle⟩
      · rw [hbk] at hc
        rw [keyLt_irrefl] at hc
        exact Bool.noConfusion hc
      · rcases hrest with hlt2 | ⟨hve, _⟩
        · rw [hpa'.2] at hlt2
          omega
        · rw [← hve, hpa'.2]
  rw [decide_eq_true (by exact hb')]
  rfl

theorem revBase_at_eq_prefixRowsF (db : DB) (k : Key) (v : Nat)
    (hb : Bij db k v) :
    (revBase db k v).filter (fun x => decide (x.key = k ∧ x.ver = v)) =
      prefixRowsF db k v := by
  apply eq_of_perm_of_sorted_anti
  · exact (revBaseAt_perm db k v).trans (prefixRowsF_perm db k v).symm
  · have hs : (revBase db k v).Pairwise srLe := by
      unfold revBase
      exact List.sorted_insertionSort srLe _
    exact hs.filter _
  · have hs : (fwdRows db k v).Pairwise srLe := by
      unfold fwdRows
      exact List.sorted_insertionSort srLe _
    exact hs.filter _
  · intro a ha b hbm h1 h2
    rcases List.mem_filter.mp ha with ⟨ha1, ha2⟩
    rcases List.mem_filter.mp hbm with ⟨hb1, hb2⟩
    rw [decide_eq_true_eq] at ha2 hb2
    have ha3 : a ∈ db.score := by
      have hx := (List.perm_insertionSort srLe _).mem_iff.mp ha1
      exact (List.mem_filter.mp hx).1
    have hb3 : b ∈ db.score := by
      have hx := (List.perm_insertionSort srLe _).mem_iff.mp hb1
      exact (List.mem_filter.mp hx).1
    exact srLe_antisymm_at hb ha3 hb3 ha2.1 ha2.2 hb2.1 hb2.2 h1 h2

theorem revRows_eq (db : DB) (k : Key) (v : Nat) (hb : Bij db k v) :
    revRows db k v = (prefixRowsF db k v).reverse ++ (beforeRowsR db k v).reverse := by
  rw [revRows_revBase]
  conv_lhs => rw [revBase_split db k v]
  rw [List.reverse_append]
  have hdd : ((revBase db k v).filter (fun x => !(!decide (x.key = k ∧ x.ver = v)))) =
      (revBase db k v).filter (fun x => decide (x.key = k ∧ x.ver = v)) := by
    apply List.filter_congr
    intro x _
    rw [Bool.not_not]
  rw [hdd, revBase_at_eq_prefixRowsF db k v hb]
  rfl

theorem mem_prefixRowsF {db : DB} {k : Key} {v : Nat} (hb : Bij db k v) {r : SRow} :
    r ∈ prefixRowsF db k v ↔
      (r.key = k ∧ r.ver = v ∧ getData db k v r.member = some r.score) := by
  constructor
  · intro h
    have h2 := (prefixRowsF_perm db k v).mem_iff.mp h
    rcases List.mem_filter.mp h2 with ⟨hmem, hcond⟩
    rw [decide_eq_true_eq] at hcond
    refine ⟨hcond.1, hcond.2, ?_⟩
    have hre : SRow.mk k v r.score r.member = r := by
      obtain ⟨a, b, c, d⟩ := r
      simp only [SRow.mk.injEq]
      exact ⟨hcond.1.symm, hcond.2.symm, trivial, trivial⟩
    exact (hb r.score r.member).mp (hre.symm ▸ hmem)
  · rintro ⟨hk, hv, hd⟩
    have hmem := (hb r.score r.member).mpr hd
    have hre : SRow.mk k v r.score r.member = r := by
      obtain ⟨a, b, c, d⟩ := r
      simp only [SRow.mk.injEq]
      exact ⟨hk.symm, hv.symm, trivial, trivial⟩
    rw [hre] at hmem
    apply (prefixRowsF_perm db k v).mem_iff.mpr
    apply List.mem_filter.mpr
    refine ⟨hmem, ?_⟩
    rw [decide_eq_true_eq]
    exact ⟨hk, hv⟩

theorem prefixRowsF_length (db : DB) (k : Key) (v : Nat) :
    (prefixRowsF db k v).length = nscore db k v := by
  unfold prefixRowsF
  exact fwdRows_prefix_length db k v

theorem prefixRowsF_nodup (db : DB) (k : Key) (v : Nat) (hu : Uniq db) :
    (prefixRowsF db k v).Nodup :=
  (prefixRowsF_perm db k v).nodup_iff.mpr (hu.2.2.filter _)

theorem prefixRowsF_member_inj {db : DB} {k : Key} {v : Nat} (hb : Bij db k v)
    {x y : SRow} (hx : x ∈ prefixRowsF db k v) (hy : y ∈ prefixRowsF db k v)
    (he : x.member = y.member) : x = y := by
  rcases (mem_prefixRowsF hb).mp hx with ⟨hxk, hxv, hxd⟩
  rcases (mem_prefixRowsF hb).mp hy with ⟨hyk, hyv, hyd⟩
  rw [he] at hxd
  rw [hxd] at hyd
  have hs : x.score = y.score := Option.some.inj hyd
  obtain ⟨a, b, c, d⟩ := x
  obtain ⟨a2, b2, c2, d2⟩ := y
  simp_all

theorem zrankLoop_found (member : Member) (stopIdx : Int) :
    ∀ (pre : List SRow) (row : SRow) (rest : List SRow) (idx : Int),
      (∀ x ∈ pre, x.member ≠ member) → row.member = member →
      idx + pre.length ≤ stopIdx →
      zrankLoop member stopIdx (pre ++ row :: rest) idx = some (idx + pre.length)
  | [], row, rest, idx, _, hrow, hle => by
    simp only [List.length_nil, Nat.cast_zero, add_zero] at hle ⊢
    simp only [List.nil_append, zrankLoop]
    rw [if_pos hle, if_pos hrow]
  | x :: pre, row, rest, idx, hpre, hrow, hle => by
    have hxm : x.member ≠ member := hpre x (List.mem_cons_self _ _)
    have hle2 : idx + 1 + (pre.length : Int) ≤ stopIdx := by
      simp only [List.length_cons] at hle
      push_cast at hle
      omega
    have hle1 : idx ≤ stopIdx := by
      have h0 : (0 : Int) ≤ pre.length := Int.natCast_nonneg _
      omega
    have ih := zrankLoop_found member stopIdx pre row rest (idx + 1)
      (fun y hy => hpre y (List.mem_cons_of_mem _ hy)) hrow hle2
    simp only [List.cons_append, zrankLoop, List.append_eq]
    rw [if_pos hle1, if_neg hxm, ih]
    simp only [Option.some.injEq, List.length_cons]
    push_cast
    omega

theorem zrankLoop_exhaust (member : Member) (stopIdx : Int) :
    ∀ (pre rest : List SRow) (idx : Int),
      (∀ x ∈ pre, x.member ≠ member) →
      idx + pre.length = stopIdx + 1 →
      zrankLoop member stopIdx (pre ++ rest) idx = none
  | [], rest, idx, _, heq => by
    simp only [List.length_nil, Nat.cast_zero, add_zero] at heq
    cases rest with
    | nil => rfl
    | cons r rs =>
      simp only [List.nil_append, zrankLoop]
      rw [if_neg (by omega)]
  | x :: pre, rest, idx, hpre, heq => by
    have hxm : x.member ≠ member := hpre x (List.mem_cons_self _ _)
    have heq2 : idx + 1 + (pre.length : Int) = stopIdx + 1 := by
      simp only [List.length_cons] at heq
      push_cast at heq
      omega
    have hle1 : idx ≤ stopIdx := by
      have h0 : (0 : Int) ≤ pre.length := Int.natCast_nonneg _
      omega
    have ih := zrankLoop_exhaust member stopIdx pre rest (idx + 1)
      (fun y hy => hpre y (List.mem_cons_of_mem _ hy)) heq2
    simp only [List.cons_append, zrankLoop]
    rw [if_pos hle1, if_neg hxm]
    exact ih

theorem zrevrankLoop_found (member : Member) :
    ∀ (pre : List SRow) (row : SRow) (rest : List SRow) (left revIdx : Int),
      (∀ x ∈ pre, x.member ≠ member) → row.member = member →
      0 ≤ left - pre.length →
      zrevrankLoop member (pre ++ row :: rest) left revIdx = some (revIdx + pre.length)
  | [], row, rest, left, revIdx, _, hrow, hge => by
    simp only [List.length_nil, Nat.cast_zero, sub_zero] at hge
    simp only [List.nil_append, zrevrankLoop]
    rw [if_pos hge, if_pos hrow]
    simp
  | x :: pre, row, rest, left, revIdx, hpre, hrow, hge => by
    have hxm : x.member ≠ member := hpre x (List.mem_cons_self _ _)
    have hge2 : 0 ≤ left - 1 - (pre.length : Int) := by
      simp only [List.length_cons] at hge
      push_cast at hge
      omega
    have hge1 : 0 ≤ left := by
      have h0 : (0 : Int) ≤ pre.length := Int.natCast_nonneg _
      omega
    have ih := zrevrankLoop_found member pre row rest (left - 1) (revIdx + 1)
      (fun y hy => hpre y (List.mem_cons_of_mem _ hy)) hrow hge2
    simp only [List.cons_append, zrevrankLoop, List.append_eq]
    rw [if_pos hge1, if_neg hxm, ih]
    simp only [Option.some.injEq, List.length_cons]
    push_cast
    omega

theorem zrevrankLoop_none (member : Member) :
    ∀ (pre : List SRow) (left revIdx : Int),
      (∀ x ∈ pre, x.member ≠ member) →
      zrevrankLoop member pre left revIdx = none
  | [], _, _, _ => rfl
  | x :: pre, left, revIdx, hpre => by
    simp only [zrevrankLoop]
    by_cases h0 : 0 ≤ left
    · rw [if_pos h0, if_neg (hpre x (List.mem_cons_self _ _))]
      exact zrevrankLoop_none member pre (left - 1) (revIdx + 1)
        (fun y hy => hpre y (List.mem_cons_of_mem _ hy))
    · rw [if_neg h0]

theorem zrevrankLoop_stop (member : Member) :
    ∀ (pre rest : List SRow) (left revIdx : Int),
      (∀ x ∈ pre, x.member ≠ member) →
      left - pre.length = -1 →
      zrevrankLoop member (pre ++ rest) left revIdx = none
  | [], rest, left, revIdx, _, heq => by
    simp only [List.length_nil, Nat.cast_zero, sub_zero] at heq
    cases rest with
    | nil => rfl
    | cons r rs =>
      simp only [List.nil_append, zrevrankLoop]
      rw [if_neg (by omega)]
  | x :: pre, rest, left, revIdx, hpre, heq => by
    have hxm : x.member ≠ member := hpre x (List.mem_cons_self _ _)
    have heq2 : left - 1 - (pre.length : Int) = -1 := by
      simp only [List.length_cons] at heq
      push_cast at heq
      omega
    have hge1 : 0 ≤ left := by
      have h0 : (0 : Int) ≤ pre.length := Int.natCast_nonneg _
      omega
    have ih := zrevrankLoop_stop member pre rest (left - 1) (revIdx + 1)
      (fun y hy => hpre y (List.mem_cons_of_mem _ hy)) heq2
    simp only [List.cons_append, zrevrankLoop]
    rw [if_pos hge1, if_neg hxm]
    exact ih

/-- C7 (amended): on a live, coherent sorted set, ZRank of a present member
returns its 0-based rank `r` under (score ascending, member ascending) with
`0 ≤ r < count`, and ZRevrank returns `count - 1 - r`.  For an absent
member ZRank returns NotFound; ZRevrank however scans one row past the
prefix (`left >= 0`, lines 823-831 of redis_zsets.cc), so it answers
`Ok(count)` when the row just before the prefix carries the searched
member, and NotFound otherwise. -/
theorem zrank_zrevrank_spec (db : DB) (k : Key) (member : Member) (now : Int)
    (mv : MetaValue) (hu : Uniq db) (hm : getMeta db k = some mv)
    (hst : mv.isStale now = false) (hc : Coh db k mv.version mv.count) :
    ((∃ s, getData db k mv.version member = some s) →
      ∃ r : Int, zrank db k member now = (Status.ok, r) ∧ 0 ≤ r ∧ r < mv.count ∧
        zrevrank db k member now = (Status.ok, mv.count - 1 - r)) ∧
    (getData db k mv.version member = none →
      zrank db k member now = (Status.notFound "", -1) ∧
      ((mv.count ≠ 0 ∧ ∃ b, (beforeRowsR db k mv.version).reverse.head? = some b ∧
          b.member = member) →
        zrevrank db k member now = (Status.ok, mv.count)) ∧
      ((∀ b, (beforeRowsR db k mv.version).reverse.head? = some b → b.member ≠ member) →
        zrevrank db k member now = (Status.notFound "", -1))) := by
  obtain ⟨hbij, hnd, hc0⟩ := hc
  have hlen : (prefixRowsF db k mv.version).length = mv.count.toNat := by
    rw [prefixRowsF_length, nscore_eq_ndata db k mv.version hu hbij]
    exact hnd
  constructor
  · rintro ⟨s, hs⟩
    have hrowP : SRow.mk k mv.version s member ∈ prefixRowsF db k mv.version := by
      rw [mem_prefixRowsF hbij]
      exact ⟨rfl, rfl, hs⟩
    obtain ⟨pre1, post1, hsplitP⟩ := List.append_of_mem hrowP
    have hnodup := prefixRowsF_nodup db k mv.version hu
    rw [hsplitP] at hnodup
    rcases List.nodup_append.mp hnodup with ⟨hnd1, hnd2, hdisj⟩
    have hside : ∀ x ∈ prefixRowsF db k mv.version, x.member = member →
        x = SRow.mk k mv.version s member := by
      intro x hx hxm
      exact prefixRowsF_member_inj hbij hx hrowP hxm
    have hpre1 : ∀ x ∈ pre1, x.member ≠ member := by
      intro x hx hxm
      have hxe := hside x (by rw [hsplitP]; exact List.mem_append_left _ hx) hxm
      rw [hxe] at hx
      exact hdisj hx (List.mem_cons_self _ _)
    have hpost1 : ∀ x ∈ post1, x.member ≠ member := by
      intro x hx hxm
      have hxe := hside x
        (by rw [hsplitP]; exact List.mem_append_right _ (List.mem_cons_of_mem _ hx)) hxm
      rw [hxe] at hx
      exact (List.nodup_cons.mp hnd2).1 hx
    have hlensplit : pre1.length + 1 + post1.length = mv.count.toNat := by
      rw [← hlen, hsplitP]
      simp only [List.length_append, List.length_cons]
      omega
    have hcount0 : mv.count ≠ 0 := by omega
    have hfr : fwdRows db k mv.version =
        pre1 ++ SRow.mk k mv.version s member :: (post1 ++
          (fwdRows db k mv.version).filter
            (fun r => !decide (r.key = k ∧ r.ver = mv.version))) := by
      conv_lhs => rw [fwdRows_split db k mv.version]
      rw [show (fwdRows db k mv.version).filter
          (fun r => decide (r.key = k ∧ r.ver = mv.version)) =
          prefixRowsF db k mv.version from rfl]
      rw [hsplitP]
      simp only [List.append_assoc, List.cons_append]
    have hloop1 := zrankLoop_found member (mv.count - 1) pre1
      (SRow.mk k mv.version s member)
      (post1 ++ (fwdRows db k mv.version).filter
        (fun r => !decide (r.key = k ∧ r.ver = mv.version))) 0 hpre1 rfl
      (by omega)
    refine ⟨(pre1.length : Int), ?_, Int.natCast_nonneg _, by omega, ?_⟩
    · simp only [zrank, hm]
      rw [if_neg (by simp [hst]), if_neg hcount0, hfr, hloop1]
      simp
    · have hrl : revRows db k mv.version =
          post1.reverse ++ SRow.mk k mv.version s member ::
            (pre1.reverse ++ (beforeRowsR db k mv.version).reverse) := by
        rw [revRows_eq db k mv.version hbij, hsplitP]
        simp [List.reverse_append, List.reverse_cons, List.append_assoc,
          List.singleton_append]
      have hloop2 := zrevrankLoop_found member post1.reverse
        (SRow.mk k mv.version s member)
        (pre1.reverse ++ (beforeRowsR db k mv.version).reverse) mv.count 0
        (fun x hx => hpost1 x (List.mem_reverse.mp hx)) rfl
        (by rw [List.length_reverse]; omega)
      simp only [zrevrank, hm]
      rw [if_neg (by simp [hst]), if_neg hcount0, hrl, hloop2]
      have hlc : (post1.length : Int) = mv.count - 1 - pre1.length := by omega
      simp [hlc]
  · intro hd
    have hallP : ∀ x ∈ prefixRowsF db k mv.version, x.member ≠ member := by
      intro x hx hxm
      rcases (mem_prefixRowsF hbij).mp hx with ⟨-, -, hxd⟩
      rw [hxm, hd] at hxd
      exact Option.noConfusion hxd
    by_cases hcz : mv.count = 0
    · refine ⟨?_, ?_, ?_⟩
      · simp only [zrank, hm]
        rw [if_neg (by simp [hst]), if_pos hcz]
      · rintro ⟨hne, -⟩
        exact absurd hcz hne
      · intro _
        simp only [zrevrank, hm]
        rw [if_neg (by simp [hst]), if_pos hcz]
    · refine ⟨?_, ?_, ?_⟩
      · have hloop := zrankLoop_exhaust member (mv.count - 1)
          (prefixRowsF db k mv.version)
          ((fwdRows db k mv.version).filter
            (fun r => !decide (r.key = k ∧ r.ver = mv.version))) 0 hallP
          (by rw [hlen]; omega)
        have hfr2 : fwdRows db k mv.version = prefixRowsF db k mv.version ++
            (fwdRows db k mv.version).filter
              (fun r => !decide (r.key = k ∧ r.ver = mv.version)) := by
          conv_lhs => rw [fwdRows_split db k mv.version]
          rw [show (fwdRows db k mv.version).filter
              (fun r => decide (r.key = k ∧ r.ver = mv.version)) =
              prefixRowsF db k mv.version from rfl]
        simp only [zrank, hm]
        rw [if_neg (by simp [hst]), if_neg hcz, hfr2, hloop]
      · rintro ⟨-, b, hhead, hbm⟩
        rcases hbr : (beforeRowsR db k mv.version).reverse with _ | ⟨c, tail⟩
        · rw [hbr] at hhead
          exact Option.noConfusion hhead
        · rw [hbr] at hhead
          have hcb : c = b := by simpa using hhead
          subst hcb
          have hrl : revRows db k mv.version =
              (prefixRowsF db k mv.version).reverse ++ c :: tail := by
            rw [revRows_eq db k mv.version hbij, hbr]
          have hloop := zrevrankLoop_found member
            (prefixRowsF db k mv.version).reverse c tail mv.count 0
            (fun x hx => hallP x (List.mem_reverse.mp hx)) hbm
            (by rw [List.length_reverse, hlen]; omega)
          simp only [zrevrank, hm]
          rw [if_neg (by simp [hst]), if_neg hcz, hrl, hloop]
          have hlc : ((prefixRowsF db k mv.version).length : Int) = mv.count := by
            rw [hlen]; omega
          simp [hlc]
      · intro hnomatch
        rcases hbr : (beforeRowsR db k mv.version).reverse with _ | ⟨c, tail⟩
        · have hrl : revRows db k mv.version =
              (prefixRowsF db k mv.version).reverse := by
            rw [revRows_eq db k mv.version hbij, hbr, List.append_nil]
          have hloop := zrevrankLoop_none member
            (prefixRowsF db k mv.version).reverse mv.count 0
            (fun x hx => hallP x (List.mem_reverse.mp hx))
          simp only [zrevrank, hm]
          rw [if_neg (by simp [hst]), if_neg hcz, hrl, hloop]
        · have hcm : c.member ≠ member := hnomatch c (by rw [hbr]; rfl)
          have hrl : revRows db k mv.version =
              ((prefixRowsF db k mv.version).reverse ++ [c]) ++ tail := by
            rw [revRows_eq db k mv.version hbij, hbr]
            simp only [List.append_assoc, List.singleton_append]
          have hpreall : ∀ x ∈ (prefixRowsF db k mv.version).reverse ++ [c],
              x.member ≠ member := by
            intro x hx
            rcases List.mem_append.mp hx with hx | hx
            · exact hallP x (List.mem_reverse.mp hx)
            · rw [List.mem_singleton.mp hx]
              exact hcm
          have hloop := zrevrankLoop_stop member
            ((prefixRowsF db k mv.version).reverse ++ [c]) tail mv.count 0 hpreall
            (by
              simp only [List.length_append, List.length_reverse, List.length_cons,
                List.length_nil, hlen]
              push_cast
              omega)
          simp only [zrevrank, hm]
          rw [if_neg (by simp [hst]), if_neg hcz, hrl, hloop]

/-- Two singleton sets: in the score CF, the row of set `[1]` (member `[5]`)
sits immediately before the `([2], 1)` prefix. -/
def rankDB : DB :=
  ⟨[([1], ⟨1, 1, 0⟩), ([2], ⟨1, 1, 0⟩)],
   [⟨[1], 1, [5], ⟨1, false⟩⟩, ⟨[2], 1, [6], ⟨1, false⟩⟩],
   [⟨[1], 1, ⟨1, false⟩, [5]⟩, ⟨[2], 1, ⟨1, false⟩, [6]⟩]⟩

/-- C7 counterexample: member `[5]` is absent from the live set `[2]`
(count 1, not stale), yet `ZRevrank` answers `Ok` with rank 1, because its
scan bound `left >= 0` lets the reverse iterator examine one row past the
`([2], 1)` prefix and that row's member is `[5]`. -/
theorem zrevrank_absent_member_cex :
    getData rankDB [2] 1 [5] = none ∧
    getMeta rankDB [2] = some ⟨1, 1, 0⟩ ∧
    (⟨1, 1, 0⟩ : MetaValue).isStale 0 = false ∧
    zrevrank rankDB [2] [5] 0 = (Status.ok, 1) := by decide

/-- One live set `[1]` with members `[5]` (score 1) and `[6]` (score 2). -/
def rankWDB : DB :=
  ⟨[([1], ⟨1, 2, 0⟩)],
   [⟨[1], 1, [5], ⟨1, false⟩⟩, ⟨[1], 1, [6], ⟨2, false⟩⟩],
   [⟨[1], 1, ⟨1, false⟩, [5]⟩, ⟨[1], 1, ⟨2, false⟩, [6]⟩]⟩

theorem rankWDB_bij : Bij rankWDB [1] 1 := by
  intro s m
  constructor
  · intro h
    simp only [rankWDB, List.mem_cons, List.not_mem_nil, or_false,
      SRow.mk.injEq, true_and] at h
    rcases h with ⟨hs, hmem⟩ | ⟨hs, hmem⟩ <;> subst hs <;> subst hmem <;> decide
  · intro h
    by_cases h5 : m = [5]
    · subst h5
      have hgd : getData rankWDB [1] 1 [5] = some ⟨1, false⟩ := by decide
      rw [hgd] at h
      have hs := Option.some.inj h
      rw [← hs]
      decide
    · by_cases h6 : m = [6]
      · subst h6
        have hgd : getData rankWDB [1] 1 [6] = some ⟨2, false⟩ := by decide
        rw [hgd] at h
        have hs := Option.some.inj h
        rw [← hs]
        decide
      · have hgd : getData rankWDB [1] 1 m = none := by
          unfold getData rankWDB
          rw [List.find?_cons_of_neg _ (by
            simp only [decide_eq_true_eq]
            rintro ⟨-, -, hc⟩
            exact h5 hc.symm)]
          rw [List.find?_cons_of_neg _ (by
            simp only [decide_eq_true_eq]
            rintro ⟨-, -, hc⟩
            exact h6 hc.symm)]
          rfl
        rw [hgd] at h
        exact Option.noConfusion h

/-- C7 witness: the amended rank/revrank theorem applied to `rankWDB`,
key `[1]`, member `[6]`, with every hypothesis discharged concretely. -/
theorem zrank_zrevrank_spec_witness :
    ((∃ s, getData rankWDB [1] 1 [6] = some s) →
      ∃ r : Int, zrank rankWDB [1] [6] 0 = (Status.ok, r) ∧ 0 ≤ r ∧ r < 2 ∧
        zrevrank rankWDB [1] [6] 0 = (Status.ok, 2 - 1 - r)) ∧
    (getData rankWDB [1] 1 [6] = none →
      zrank rankWDB [1] [6] 0 = (Status.notFound "", -1) ∧
      (((2 : Int) ≠ 0 ∧ ∃ b, (beforeRowsR rankWDB [1] 1).reverse.head? = some b ∧
          b.member = [6]) →
        zrevrank rankWDB [1] [6] 0 = (Status.ok, 2)) ∧
      ((∀ b, (beforeRowsR rankWDB [1] 1).reverse.head? = some b → b.member ≠ [6]) →
        zrevrank rankWDB [1] [6] 0 = (Status.notFound "", -1))) :=
  zrank_zrevrank_spec rankWDB [1] [6] 0 ⟨1, 2, 0⟩ (by unfold Uniq; decide)
    (by decide) (by decide) ⟨rankWDB_bij, by decide, by decide⟩

/-! ### Claim C1: every mutation preserves invariant P1 -/

/-- The data-CF rows under prefix `(k, v)`. -/
def dpref (db : DB) (k : Key) (v : Nat) : List DRow :=
  db.data.filter (fun r => decide (r.key = k ∧ r.ver = v))

/-- The score-CF rows under prefix `(k, v)`. -/
def spref (db : DB) (k : Key) (v : Nat) : List SRow :=
  db.score.filter (fun r => decide (r.key = k ∧ r.ver = v))

/-- The user key an individual batch operation addresses. -/
def opKey : BatchOp → Key
  | .putMeta k _ => k
  | .putData k _ _ _ => k
  | .delData k _ _ => k
  | .putScore k _ _ _ => k
  | .delScore k _ _ _ => k

/-- Whether a batch operation writes the meta column family. -/
def isPutMeta : BatchOp → Bool
  | .putMeta _ _ => true
  | _ => false

/-- Spec §8 invariant P1: for every live meta row, the number of data rows
and the number of score rows under its `(key, version)` prefix both equal
`count`. -/
def P1 (db : DB) (now : Int) : Prop :=
  ∀ k mv, getMeta db k = some mv → mv.isStale now = false →
    (ndata db k mv.version : Int) = mv.count ∧
    (nscore db k mv.version : Int) = mv.count

/-- Freshness of the version the engine would allocate for key `k` at
version clock `tick` (`InitialMetaValue` / `UpdateVersion`): no rows exist
under that version yet. -/
def freshOk (db : DB) (k : Key) (tick : Nat) : Prop :=
  match getMeta db k with
  | some mv => FreshV db k (max tick (mv.version + 1))
  | none => FreshV db k tick

theorem ndata_dpref (db : DB) (k : Key) (v : Nat) :
    ndata db k v = (dpref db k v).length := rfl

theorem nscore_spref (db : DB) (k : Key) (v : Nat) :
    nscore db k v = (spref db k v).length := rfl

theorem applyBatch_nil (db : DB) : applyBatch db [] = db := rfl

theorem applyBatch_cons (db : DB) (op : BatchOp) (rest : List BatchOp) :
    applyBatch db (op :: rest) = applyBatch (applyOp db op) rest := rfl

theorem applyBatch_append (db : DB) (l1 l2 : List BatchOp) :
    applyBatch db (l1 ++ l2) = applyBatch (applyBatch db l1) l2 := by
  unfold applyBatch
  exact List.foldl_append applyOp db l1 l2

theorem length_filter_add_not {α : Type} (p : α → Bool) :
    ∀ (l : List α),
      (l.filter p).length + (l.filter (fun x => !p x)).length = l.length
  | [] => rfl
  | a :: t => by
    have ih := length_filter_add_not p t
    rw [List.filter_cons, List.filter_cons]
    by_cases h : p a = true
    · rw [if_pos h, if_neg (by simp [h])]
      simp only [List.length_cons]
      omega
    · have h2 : p a = false := by simpa using h
      rw [if_neg (by simp [h2]), if_pos (by simp [h2])]
      simp only [List.length_cons]
      omega

theorem length_filter_eq_one_of_nodup_map {α β : Type} [DecidableEq β] (f : α → β) :
    ∀ (l : List α) (x : α), (l.map f).Nodup → x ∈ l →
      (l.filter (fun y => decide (f y = f x))).length = 1
  | [], x, _, hx => absurd hx (List.not_mem_nil x)
  | a :: t, x, hnd, hx => by
    rw [List.map_cons, List.nodup_cons] at hnd
    rcases List.mem_cons.mp hx with hax | hxt
    · subst hax
      rw [List.filter_cons, if_pos (by simp)]
      have ht : t.filter (fun y => decide (f y = f x)) = [] := by
        rw [List.filter_eq_nil_iff]
        intro y hy
        simp only [decide_eq_true_eq]
        intro he
        exact hnd.1 (he ▸ List.mem_map_of_mem f hy)
      rw [ht]
      rfl
    · have hne : ¬(f a = f x) := by
        intro he
        exact hnd.1 (he.symm ▸ List.mem_map_of_mem f hxt)
      rw [List.filter_cons, if_neg (by simpa using hne)]
      exact length_filter_eq_one_of_nodup_map f t x hnd.2 hxt

theorem length_filter_eq_one_of_nodup {α : Type} [DecidableEq α] :
    ∀ (l : List α) (x : α), l.Nodup → x ∈ l →
      (l.filter (fun y => decide (y = x))).length = 1
  | [], x, _, hx => absurd hx (List.not_mem_nil x)
  | a :: t, x, hnd, hx => by
    rw [List.nodup_cons] at hnd
    rcases List.mem_cons.mp hx with hax | hxt
    · subst hax
      rw [List.filter_cons, if_pos (by simp)]
      have ht : t.filter (fun y => decide (y = x)) = [] := by
        rw [List.filter_eq_nil_iff]
        intro y hy
        simp only [decide_eq_true_eq]
        intro he
        exact hnd.1 (he ▸ hy)
      rw [ht]
      rfl
    · have hne : ¬(a = x) := by
        intro he
        exact hnd.1 (he.symm ▸ hxt)
      rw [List.filter_cons, if_neg (by simpa using hne)]
      exact length_filter_eq_one_of_nodup t x hnd.2 hxt

theorem length_filter_eq_zero_of_not_mem_map {α β : Type} [DecidableEq β]
    (f : α → β) (l : List α) (b : β) (h : b ∉ l.map f) :
    (l.filter (fun y => decide (f y = b))).length = 0 := by
  rw [List.length_eq_zero, List.filter_eq_nil_iff]
  intro y hy
  simp only [decide_eq_true_eq]
  intro he
  exact h (he ▸ List.mem_map_of_mem f hy)

theorem dprefix_putMeta (db : DB) (k2 : Key) (mv : MetaValue) (k : Key) (v : Nat) :
    dpref (applyOp db (BatchOp.putMeta k2 mv)) k v = dpref db k v := rfl

theorem sprefix_putMeta (db : DB) (k2 : Key) (mv : MetaValue) (k : Key) (v : Nat) :
    spref (applyOp db (BatchOp.putMeta k2 mv)) k v = spref db k v := rfl

theorem dprefix_putScore (db : DB) (k2 : Key) (v2 : Nat) (s : D) (m : Member)
    (k : Key) (v : Nat) :
    dpref (applyOp db (BatchOp.putScore k2 v2 s m)) k v = dpref db k v := rfl

theorem dprefix_delScore (db : DB) (k2 : Key) (v2 : Nat) (s : D) (m : Member)
    (k : Key) (v : Nat) :
    dpref (applyOp db (BatchOp.delScore k2 v2 s m)) k v = dpref db k v := rfl

theorem sprefix_putData (db : DB) (k2 : Key) (v2 : Nat) (m : Member) (s : D)
    (k : Key) (v : Nat) :
    spref (applyOp db (BatchOp.putData k2 v2 m s)) k v = spref db k v := rfl

theorem sprefix_delData (db : DB) (k2 : Key) (v2 : Nat) (m : Member)
    (k : Key) (v : Nat) :
    spref (applyOp db (BatchOp.delData k2 v2 m)) k v = spref db k v := rfl

theorem dprefix_putData_same (db : DB) (k : Key) (v : Nat) (m : Member) (s : D) :
    dpref (applyOp db (BatchOp.putData k v m s)) k v =
      DRow.mk k v m s :: (dpref db k v).filter (fun r => !decide (r.member = m)) := by
  unfold dpref applyOp
  rw [List.filter_cons, if_pos (by simp)]
  congr 1
  rw [List.filter_filter, List.filter_filter]
  apply List.filter_congr
  intro r _
  by_cases hat : r.key = k ∧ r.ver = v
  · by_cases hm : r.member = m
    · simp [hat.1, hat.2, hm]
    · simp [hat.1, hat.2, hm]
  · have h1 : decide (r.key = k ∧ r.ver = v) = false := by
      rw [decide_eq_false_iff_not]; exact hat
    have h2 : decide (r.key = k ∧ r.ver = v ∧ r.member = m) = false := by
      rw [decide_eq_false_iff_not]
      rintro ⟨ha, hb, -⟩
      exact hat ⟨ha, hb⟩
    rw [h1, h2]
    simp

theorem dprefix_putData_other (db : DB) (k : Key) (v : Nat) (m : Member) (s : D)
    (k2 : Key) (v2 : Nat) (h : ¬(k = k2 ∧ v = v2)) :
    dpref (applyOp db (BatchOp.putData k v m s)) k2 v2 = dpref db k2 v2 := by
  unfold dpref applyOp
  rw [List.filter_cons, if_neg (by
    simp only [decide_eq_true_eq]
    rintro ⟨ha, hb⟩
    exact h ⟨ha, hb⟩)]
  rw [List.filter_filter]
  apply List.filter_congr
  intro r _
  by_cases hat : r.key = k2 ∧ r.ver = v2
  · have h2 : decide (r.key = k ∧ r.ver = v ∧ r.member = m) = false := by
      rw [decide_eq_false_iff_not]
      rintro ⟨ha, hb, -⟩
      exact h ⟨hat.1 ▸ ha.symm ▸ rfl, hat.2 ▸ hb.symm ▸ rfl⟩
    simp only [hat.1, hat.2]
    have h3 : decide (k2 = k ∧ v2 = v ∧ r.member = m) = false := by
      rw [decide_eq_false_iff_not]
      rintro ⟨ha, hb, -⟩
      exact h ⟨ha.symm, hb.symm⟩
    rw [h3]
    simp
  · have h1 : decide (r.key = k2 ∧ r.ver = v2) = false := by
      rw [decide_eq_false_iff_not]; exact hat
    rw [h1]
    simp

theorem dprefix_delData_same (db : DB) (k : Key) (v : Nat) (m : Member) :
    dpref (applyOp db (BatchOp.delData k v m)) k v =
      (dpref db k v).filter (fun r => !decide (r.member = m)) := by
  unfold dpref applyOp
  rw [List.filter_filter, List.filter_filter]
  apply List.filter_congr
  intro r _
  by_cases hat : r.key = k ∧ r.ver = v
  · by_cases hm : r.member = m
    · simp [hat.1, hat.2, hm]
    · simp [hat.1, hat.2, hm]
  · have h1 : decide (r.key = k ∧ r.ver = v) = false := by
      rw [decide_eq_false_iff_not]; exact hat
    have h2 : decide (r.key = k ∧ r.ver = v ∧ r.member = m) = false := by
      rw [decide_eq_false_iff_not]
      rintro ⟨ha, hb, -⟩
      exact hat ⟨ha, hb⟩
    rw [h1, h2]
    simp

theorem dprefix_delData_other (db : DB) (k : Key) (v : Nat) (m : Member)
    (k2 : Key) (v2 : Nat) (h : ¬(k = k2 ∧ v = v2)) :
    dpref (applyOp db (BatchOp.delData k v m)) k2 v2 = dpref db k2 v2 := by
  unfold dpref applyOp
  rw [List.filter_filter]
  apply List.filter_congr
  intro r _
  by_cases hat : r.key = k2 ∧ r.ver = v2
  · have h2 : decide (r.key = k ∧ r.ver = v ∧ r.member = m) = false := by
      rw [decide_eq_false_iff_not]
      rintro ⟨ha, hb, -⟩
      exact h ⟨hat.1 ▸ ha.symm ▸ rfl, hat.2 ▸ hb.symm ▸ rfl⟩
    simp only [hat.1, hat.2]
    have h3 : decide (k2 = k ∧ v2 = v ∧ r.member = m) = false := by
      rw [decide_eq_false_iff_not]
      rintro ⟨ha, hb, -⟩
      exact h ⟨ha.symm, hb.symm⟩
    rw [h3]
    simp
  · have h1 : decide (r.key = k2 ∧ r.ver = v2) = false := by
      rw [decide_eq_false_iff_not]; exact hat
    rw [h1]
    simp

theorem sprefix_putScore_same (db : DB) (k : Key) (v : Nat) (s : D) (m : Member) :
    spref (applyOp db (BatchOp.putScore k v s m)) k v =
      SRow.mk k v s m :: (spref db k v).filter
        (fun r => !decide (r = SRow.mk k v s m)) := by
  unfold spref applyOp
  rw [List.filter_cons, if_pos (by simp)]
  congr 1
  rw [List.filter_filter, List.filter_filter]
  apply List.filter_congr
  intro r _
  by_cases heq : r = SRow.mk k v s m
  · simp [heq]
  · simp [heq]

theorem sprefix_putScore_other (db : DB) (k : Key) (v : Nat) (s : D) (m : Member)
    (k2 : Key) (v2 : Nat) (h : ¬(k = k2 ∧ v = v2)) :
    spref (applyOp db (BatchOp.putScore k v s m)) k2 v2 = spref db k2 v2 := by
  unfold spref applyOp
  rw [List.filter_cons, if_neg (by
    simp only [decide_eq_true_eq]
    rintro ⟨ha, hb⟩
    exact h ⟨ha, hb⟩)]
  rw [List.filter_filter]
  apply List.filter_congr
  intro r _
  by_cases hat : r.key = k2 ∧ r.ver = v2
  · have h2 : decide (r = SRow.mk k v s m) = false := by
      rw [decide_eq_false_iff_not]
      intro he
      rw [he] at hat
      exact h ⟨hat.1, hat.2⟩
    simp [hat.1, hat.2, h2]
  · have h1 : decide (r.key = k2 ∧ r.ver = v2) = false := by
      rw [decide_eq_false_iff_not]; exact hat
    rw [h1]
    simp

theorem sprefix_delScore_same (db : DB) (k : Key) (v : Nat) (s : D) (m : Member) :
    spref (applyOp db (BatchOp.delScore k v s m)) k v =
      (spref db k v).filter (fun r => !decide (r = SRow.mk k v s m)) := by
  unfold spref applyOp
  rw [List.filter_filter, List.filter_filter]
  apply List.filter_congr
  intro r _
  by_cases heq : r = SRow.mk k v s m
  · simp [heq]
  · simp [heq]

theorem sprefix_delScore_other (db : DB) (k : Key) (v : Nat) (s : D) (m : Member)
    (k2 : Key) (v2 : Nat) (h : ¬(k = k2 ∧ v = v2)) :
    spref (applyOp db (BatchOp.delScore k v s m)) k2 v2 = spref db k2 v2 := by
  unfold spref applyOp
  rw [List.filter_filter]
  apply List.filter_congr
  intro r _
  by_cases hat : r.key = k2 ∧ r.ver = v2
  · have h2 : decide (r = SRow.mk k v s m) = false := by
      rw [decide_eq_false_iff_not]
      intro he
      rw [he] at hat
      exact h ⟨hat.1, hat.2⟩
    simp [hat.1, hat.2, h2]
  · have h1 : decide (r.key = k2 ∧ r.ver = v2) = false := by
      rw [decide_eq_false_iff_not]; exact hat
    rw [h1]
    simp

theorem getMeta_applyOp_notMeta (db : DB) (op : BatchOp) (k : Key)
    (h : isPutMeta op = false) : getMeta (applyOp db op) k = getMeta db k := by
  cases op with
  | putMeta k2 mv => exact absurd h (by simp [isPutMeta])
  | putData k2 v2 m s => rfl
  | delData k2 v2 m => rfl
  | putScore k2 v2 s m => rfl
  | delScore k2 v2 s m => rfl

theorem getMeta_applyBatch_notMeta (k : Key) :
    ∀ (ops : List BatchOp) (db : DB),
      (∀ op ∈ ops, isPutMeta op = false) →
      getMeta (applyBatch db ops) k = getMeta db k
  | [], _, _ => rfl
  | op :: rest, db, h => by
    rw [applyBatch_cons]
    rw [getMeta_applyBatch_notMeta k rest (applyOp db op)
      (fun o ho => h o (List.mem_cons_of_mem _ ho))]
    exact getMeta_applyOp_notMeta db op k (h op (List.mem_cons_self _ _))

theorem preserved_other_key_op (db : DB) (op : BatchOp) (k2 : Key)
    (h : ¬(opKey op = k2)) :
    getMeta (applyOp db op) k2 = getMeta db k2 ∧
    ∀ v2, dpref (applyOp db op) k2 v2 = dpref db k2 v2 ∧
          spref (applyOp db op) k2 v2 = spref db k2 v2 := by
  cases op with
  | putMeta k mv =>
    simp only [opKey] at h
    exact ⟨getMeta_putMeta_other db k k2 mv (fun he => h he.symm),
      fun v2 => ⟨rfl, rfl⟩⟩
  | putData k v m s =>
    simp only [opKey] at h
    exact ⟨rfl, fun v2 =>
      ⟨dprefix_putData_other db k v m s k2 v2 (fun hc => h hc.1), rfl⟩⟩
  | delData k v m =>
    simp only [opKey] at h
    exact ⟨rfl, fun v2 =>
      ⟨dprefix_delData_other db k v m k2 v2 (fun hc => h hc.1), rfl⟩⟩
  | putScore k v s m =>
    simp only [opKey] at h
    exact ⟨rfl, fun v2 =>
      ⟨rfl, sprefix_putScore_other db k v s m k2 v2 (fun hc => h hc.1)⟩⟩
  | delScore k v s m =>
    simp only [opKey] at h
    exact ⟨rfl, fun v2 =>
      ⟨rfl, sprefix_delScore_other db k v s m k2 v2 (fun hc => h hc.1)⟩⟩

theorem preserved_other_key (k2 kt : Key) (hne : ¬(k2 = kt)) :
    ∀ (ops : List BatchOp) (db : DB),
      (∀ op ∈ ops, opKey op = kt) →
      getMeta (applyBatch db ops) k2 = getMeta db k2 ∧
      ∀ v2, dpref (applyBatch db ops) k2 v2 = dpref db k2 v2 ∧
            spref (applyBatch db ops) k2 v2 = spref db k2 v2
  | [], _, _ => ⟨rfl, fun _ => ⟨rfl, rfl⟩⟩
  | op :: rest, db, h => by
    rw [applyBatch_cons]
    have hop := preserved_other_key_op db op k2
      (by rw [h op (List.mem_cons_self _ _)]; exact fun he => hne he.symm)
    have ih := preserved_other_key k2 kt hne rest (applyOp db op)
      (fun o ho => h o (List.mem_cons_of_mem _ ho))
    refine ⟨ih.1.trans hop.1, fun v2 => ?_⟩
    exact ⟨((ih.2 v2).1).trans ((hop.2 v2).1), ((ih.2 v2).2).trans ((hop.2 v2).2)⟩

theorem delOps_opKey (k : Key) (v : Nat) (S : List SRow) :
    ∀ op ∈ (S.map (fun r =>
      [BatchOp.delData k v r.member, BatchOp.delScore k v r.score r.member])).flatten,
      opKey op = k := by
  intro op hop
  rcases List.mem_flatten.mp hop with ⟨l, hl, hopl⟩
  rcases List.mem_map.mp hl with ⟨r, -, hrl⟩
  rw [← hrl] at hopl
  rcases List.mem_cons.mp hopl with he | he2
  · rw [he]; rfl
  · rcases List.mem_cons.mp he2 with he | he3
    · rw [he]; rfl
    · exact absurd he3 (List.not_mem_nil op)

theorem delOps_notMeta (k : Key) (v : Nat) (S : List SRow) :
    ∀ op ∈ (S.map (fun r =>
      [BatchOp.delData k v r.member, BatchOp.delScore k v r.score r.member])).flatten,
      isPutMeta op = false := by
  intro op hop
  rcases List.mem_flatten.mp hop with ⟨l, hl, hopl⟩
  rcases List.mem_map.mp hl with ⟨r, -, hrl⟩
  rw [← hrl] at hopl
  rcases List.mem_cons.mp hopl with he | he2
  · rw [he]; rfl
  · rcases List.mem_cons.mp he2 with he | he3
    · rw [he]; rfl
    · exact absurd he3 (List.not_mem_nil op)

theorem insOps_opKey (k : Key) (v : Nat) (L : List SM) :
    ∀ op ∈ (L.map (fun sm =>
      [BatchOp.putData k v sm.member sm.score,
       BatchOp.putScore k v sm.score sm.member])).flatten,
      opKey op = k := by
  intro op hop
  rcases List.mem_flatten.mp hop with ⟨l, hl, hopl⟩
  rcases List.mem_map.mp hl with ⟨sm, -, hrl⟩
  rw [← hrl] at hopl
  rcases List.mem_cons.mp hopl with he | he2
  · rw [he]; rfl
  · rcases List.mem_cons.mp he2 with he | he3
    · rw [he]; rfl
    · exact absurd he3 (List.not_mem_nil op)

theorem insOps_notMeta (k : Key) (v : Nat) (L : List SM) :
    ∀ op ∈ (L.map (fun sm =>
      [BatchOp.putData k v sm.member sm.score,
       BatchOp.putScore k v sm.score sm.member])).flatten,
      isPutMeta op = false := by
  intro op hop
  rcases List.mem_flatten.mp hop with ⟨l, hl, hopl⟩
  rcases List.mem_map.mp hl with ⟨sm, -, hrl⟩
  rw [← hrl] at hopl
  rcases List.mem_cons.mp hopl with he | he2
  · rw [he]; rfl
  · rcases List.mem_cons.mp he2 with he | he3
    · rw [he]; rfl
    · exact absurd he3 (List.not_mem_nil op)

theorem getData_of_mem_data (db : DB) (k : Key) (v : Nat) (hu : Uniq db)
    {r : DRow} (hr : r ∈ db.data) (hk : r.key = k) (hv : r.ver = v) :
    getData db k v r.member = some r.score := by
  unfold getData
  rcases hf : db.data.find? (fun r2 => decide (r2.key = k ∧ r2.ver = v ∧
      r2.member = r.member)) with _ | r2
  · have := List.find?_eq_none.mp hf r hr
    rw [decide_eq_true_eq] at this
    exact absurd ⟨hk, hv, rfl⟩ this
  · have h1 := List.find?_some hf
    have h2 := List.mem_of_find?_eq_some hf
    rw [decide_eq_true_eq] at h1
    have hdk : dKey r2 = dKey r := by
      unfold dKey
      rw [h1.1, h1.2.1, h1.2.2, hk, hv]
    have hre : r2 = r := by
      have hinj := List.inj_on_of_nodup_map hu.2.1
      exact hinj h2 hr hdk
    rw [hf, hre]
    rfl

theorem getData_some_mem_dprefix (db : DB) (k : Key) (v : Nat) (m : Member)
    {s : D} (h : getData db k v m = some s) :
    m ∈ (dpref db k v).map DRow.member := by
  unfold getData at h
  rcases hf : db.data.find? (fun r => decide (r.key = k ∧ r.ver = v ∧
      r.member = m)) with _ | r
  · rw [hf] at h
    exact absurd h (by simp)
  · have h1 := List.find?_some hf
    have h2 := List.mem_of_find?_eq_some hf
    rw [decide_eq_true_eq] at h1
    apply List.mem_map.mpr
    refine ⟨r, ?_, h1.2.2⟩
    unfold dpref
    apply List.mem_filter.mpr
    refine ⟨h2, ?_⟩
    rw [decide_eq_true_eq]
    exact ⟨h1.1, h1.2.1⟩

theorem getData_none_not_mem_dprefix (db : DB) (k : Key) (v : Nat) (m : Member)
    (h : getData db k v m = none) :
    m ∉ (dpref db k v).map DRow.member := by
  intro hmem
  rcases List.mem_map.mp hmem with ⟨r, hr, hrm⟩
  rcases List.mem_filter.mp hr with ⟨hrd, hat⟩
  rw [decide_eq_true_eq] at hat
  unfold getData at h
  rcases hf : db.data.find? (fun r2 => decide (r2.key = k ∧ r2.ver = v ∧
      r2.member = m)) with _ | r2
  · have := List.find?_eq_none.mp hf r hrd
    rw [decide_eq_true_eq] at this
    exact absurd ⟨hat.1, hat.2, hrm⟩ this
  · rw [hf] at h
    exact Option.noConfusion h

theorem dprefix_members_nodup (db : DB) (k : Key) (v : Nat) (hu : Uniq db) :
    ((dpref db k v).map DRow.member).Nodup := by
  apply List.Nodup.map_on
  · intro x hx y hy hxy
    rcases List.mem_filter.mp hx with ⟨hx1, hx2⟩
    rcases List.mem_filter.mp hy with ⟨hy1, hy2⟩
    rw [decide_eq_true_eq] at hx2 hy2
    have hdk : dKey x = dKey y := by
      unfold dKey
      rw [hx2.1, hx2.2, hy2.1, hy2.2, hxy]
    exact List.inj_on_of_nodup_map hu.2.1 hx1 hy1 hdk
  · exact (List.Nodup.of_map dKey hu.2.1).filter _

theorem sprefix_nodup (db : DB) (k : Key) (v : Nat) (hu : Uniq db) :
    (spref db k v).Nodup := hu.2.2.filter _

theorem mem_sprefix_of_prefixRowsF (db : DB) (k : Key) (v : Nat) {r : SRow}
    (h : r ∈ prefixRowsF db k v) : r ∈ spref db k v :=
  (prefixRowsF_perm db k v).mem_iff.mp h

theorem mem_sprefix_at (db : DB) (k : Key) (v : Nat) {r : SRow}
    (h : r ∈ spref db k v) : r ∈ db.score ∧ r.key = k ∧ r.ver = v := by
  rcases List.mem_filter.mp h with ⟨h1, h2⟩
  rw [decide_eq_true_eq] at h2
  exact ⟨h1, h2⟩

theorem prefixRowsF_members_nodup (db : DB) (k : Key) (v : Nat) (hu : Uniq db)
    (hb : Bij db k v) : ((prefixRowsF db k v).map SRow.member).Nodup := by
  apply List.Nodup.map_on
  · intro x hx y hy hxy
    exact prefixRowsF_member_inj hb hx hy hxy
  · exact prefixRowsF_nodup db k v hu

theorem del_rows_counts (k : Key) (v : Nat) :
    ∀ (S : List SRow) (wdb : DB),
      (S.map SRow.member).Nodup →
      (∀ r ∈ S, r ∈ spref wdb k v) →
      (∀ r ∈ S, r.member ∈ (dpref wdb k v).map DRow.member) →
      (spref wdb k v).Nodup →
      ((dpref wdb k v).map DRow.member).Nodup →
      ndata (applyBatch wdb ((S.map (fun r2 =>
          [BatchOp.delData k v r2.member,
           BatchOp.delScore k v r2.score r2.member])).flatten)) k v
        + S.length = ndata wdb k v ∧
      nscore (applyBatch wdb ((S.map (fun r2 =>
          [BatchOp.delData k v r2.member,
           BatchOp.delScore k v r2.score r2.member])).flatten)) k v
        + S.length = nscore wdb k v
  | [], wdb, _, _, _, _, _ => by
    constructor <;> simp [applyBatch_nil]
  | r :: S, wdb, hnd, hsp, hdp, hsnd, hdnd => by
    rw [List.map_cons, List.nodup_cons] at hnd
    have hbatch : ((r :: S).map (fun r2 => [BatchOp.delData k v r2.member,
        BatchOp.delScore k v r2.score r2.member])).flatten =
        BatchOp.delData k v r.member :: BatchOp.delScore k v r.score r.member ::
        (S.map (fun r2 => [BatchOp.delData k v r2.member,
          BatchOp.delScore k v r2.score r2.member])).flatten := by
      simp
    rw [hbatch, applyBatch_cons, applyBatch_cons]
    have hrs := mem_sprefix_at wdb k v (hsp r (List.mem_cons_self _ _))
    have heta : SRow.mk k v r.score r.member = r := by
      obtain ⟨a, b, c, d⟩ := r
      simp only [SRow.mk.injEq]
      exact ⟨hrs.2.1.symm, hrs.2.2.symm, trivial, trivial⟩
    have hd2 : dpref (applyOp (applyOp wdb (BatchOp.delData k v r.member))
        (BatchOp.delScore k v r.score r.member)) k v =
        (dpref wdb k v).filter (fun y => !decide (y.member = r.member)) := by
      rw [dprefix_delScore, dprefix_delData_same]
    have hs2 : spref (applyOp (applyOp wdb (BatchOp.delData k v r.member))
        (BatchOp.delScore k v r.score r.member)) k v =
        (spref wdb k v).filter
          (fun y => !decide (y = SRow.mk k v r.score r.member)) := by
      rw [sprefix_delScore_same, sprefix_delData]
    rcases List.mem_map.mp (hdp r (List.mem_cons_self _ _)) with ⟨dr, hdr, hdrm⟩
    have h1 : ((dpref wdb k v).filter
        (fun y => decide (y.member = r.member))).length = 1 := by
      simp only [← hdrm]
      exact length_filter_eq_one_of_nodup_map DRow.member (dpref wdb k v) dr hdnd hdr
    have h2 : ((spref wdb k v).filter
        (fun y => decide (y = SRow.mk k v r.score r.member))).length = 1 := by
      simp only [heta]
      exact length_filter_eq_one_of_nodup (spref wdb k v) r hsnd
        (hsp r (List.mem_cons_self _ _))
    have hdtot := length_filter_add_not
      (fun y => decide (y.member = r.member)) (dpref wdb k v)
    have hstot := length_filter_add_not
      (fun y => decide (y = SRow.mk k v r.score r.member)) (spref wdb k v)
    have ih := del_rows_counts k v S
      (applyOp (applyOp wdb (BatchOp.delData k v r.member))
        (BatchOp.delScore k v r.score r.member))
      hnd.2
      (by
        intro r2 hr2
        rw [hs2]
        apply List.mem_filter.mpr
        refine ⟨hsp r2 (List.mem_cons_of_mem _ hr2), ?_⟩
        simp only [heta, Bool.not_eq_eq_eq_not, Bool.not_true, decide_eq_false_iff_not]
        intro he
        exact hnd.1 (he ▸ List.mem_map_of_mem SRow.member hr2)
      )
      (by
        intro r2 hr2
        rcases List.mem_map.mp (hdp r2 (List.mem_cons_of_mem _ hr2)) with ⟨d2, hd2m, hd2e⟩
        rw [hd2]
        apply List.mem_map.mpr
        refine ⟨d2, ?_, hd2e⟩
        apply List.mem_filter.mpr
        refine ⟨hd2m, ?_⟩
        simp only [Bool.not_eq_eq_eq_not, Bool.not_true, decide_eq_false_iff_not]
        rw [hd2e]
        intro he
        exact hnd.1 (he ▸ List.mem_map_of_mem SRow.member hr2)
      )
      (by rw [hs2]; exact hsnd.filter _)
      (by
        rw [hd2]
        exact List.Nodup.sublist
          ((List.filter_sublist _).map DRow.member) hdnd
      )
    simp only [ndata_dpref, nscore_spref] at ih ⊢
    rw [hd2, hs2] at ih
    simp only [List.length_cons]
    constructor
    · omega
    · omega

theorem ins_rows_counts (k : Key) (v : Nat) :
    ∀ (L : List SM) (wdb : DB),
      (L.map SM.member).Nodup →
      (∀ sm ∈ L, sm.member ∉ (dpref wdb k v).map DRow.member) →
      (∀ sm ∈ L, ∀ sr ∈ spref wdb k v, ¬(sr.member = sm.member)) →
      ndata (applyBatch wdb ((L.map (fun sm =>
          [BatchOp.putData k v sm.member sm.score,
           BatchOp.putScore k v sm.score sm.member])).flatten)) k v
        = ndata wdb k v + L.length ∧
      nscore (applyBatch wdb ((L.map (fun sm =>
          [BatchOp.putData k v sm.member sm.score,
           BatchOp.putScore k v sm.score sm.member])).flatten)) k v
        = nscore wdb k v + L.length
  | [], wdb, _, _, _ => by
    constructor <;> simp [applyBatch_nil]
  | sm :: L, wdb, hnd, hdp, hsp => by
    rw [List.map_cons, List.nodup_cons] at hnd
    have hbatch : ((sm :: L).map (fun s2 => [BatchOp.putData k v s2.member s2.score,
        BatchOp.putScore k v s2.score s2.member])).flatten =
        BatchOp.putData k v sm.member sm.score ::
        BatchOp.putScore k v sm.score sm.member ::
        (L.map (fun s2 => [BatchOp.putData k v s2.member s2.score,
          BatchOp.putScore k v s2.score s2.member])).flatten := by
      simp
    rw [hbatch, applyBatch_cons, applyBatch_cons]
    have hdkeep : (dpref wdb k v).filter
        (fun y => !decide (y.member = sm.member)) = dpref wdb k v := by
      apply List.filter_eq_self.mpr
      intro y hy
      simp only [Bool.not_eq_eq_eq_not, Bool.not_true, decide_eq_false_iff_not]
      intro he
      exact hdp sm (List.mem_cons_self _ _) (he ▸ List.mem_map_of_mem DRow.member hy)
    have hskeep : (spref wdb k v).filter
        (fun y => !decide (y = SRow.mk k v sm.score sm.member)) = spref wdb k v := by
      apply List.filter_eq_self.mpr
      intro y hy
      simp only [Bool.not_eq_eq_eq_not, Bool.not_true, decide_eq_false_iff_not]
      intro he
      exact hsp sm (List.mem_cons_self _ _) y hy (by rw [he])
    have hd2 : dpref (applyOp (applyOp wdb
        (BatchOp.putData k v sm.member sm.score))
        (BatchOp.putScore k v sm.score sm.member)) k v =
        DRow.mk k v sm.member sm.score :: dpref wdb k v := by
      rw [dprefix_putScore, dprefix_putData_same, hdkeep]
    have hs2 : spref (applyOp (applyOp wdb
        (BatchOp.putData k v sm.member sm.score))
        (BatchOp.putScore k v sm.score sm.member)) k v =
        SRow.mk k v sm.score sm.member :: spref wdb k v := by
      rw [sprefix_putScore_same, sprefix_putData, hskeep]
    have ih := ins_rows_counts k v L
      (applyOp (applyOp wdb (BatchOp.putData k v sm.member sm.score))
        (BatchOp.putScore k v sm.score sm.member))
      hnd.2
      (by
        intro s2 hs2m
        rw [hd2]
        simp only [List.map_cons, List.mem_cons]
        rintro (he | hmem)
        · exact hnd.1 (he ▸ List.mem_map_of_mem SM.member hs2m)
        · exact hdp s2 (List.mem_cons_of_mem _ hs2m) hmem
      )
      (by
        intro s2 hs2m sr hsr
        rw [hs2] at hsr
        rcases List.mem_cons.mp hsr with he | hmem
        · rw [he]
          intro hc
          have hc2 : sm.member = s2.member := hc
          exact hnd.1 (hc2 ▸ List.mem_map_of_mem SM.member hs2m)
        · exact hsp s2 (List.mem_cons_of_mem _ hs2m) sr hmem
      )
    simp only [ndata_dpref, nscore_spref] at ih ⊢
    rw [hd2, hs2] at ih
    simp only [List.length_cons] at ih ⊢
    constructor
    · omega
    · omega

theorem inv_implies_p1 (db : DB) (now : Int) (hinv : INV db now) : P1 db now := by
  intro k mv hm hlive
  rcases hinv.2 k mv hm hlive with ⟨hbij, hnd, hc0⟩
  have hns := nscore_eq_ndata db k mv.version hinv.1 hbij
  constructor
  · rw [hnd]; omega
  · rw [hns, hnd]; omega

theorem freshv_prefixes (db : DB) (k : Key) (v : Nat) (h : FreshV db k v) :
    dpref db k v = [] ∧ spref db k v = [] := by
  rcases h with ⟨h1, h2⟩
  rw [ndata_dpref] at h1
  rw [nscore_spref] at h2
  exact ⟨List.length_eq_zero.mp h1, List.length_eq_zero.mp h2⟩

theorem getData_none_of_empty_dprefix (db : DB) (k : Key) (v : Nat)
    (h : dpref db k v = []) (m : Member) : getData db k v m = none := by
  unfold getData
  rcases hf : db.data.find?
      (fun r => decide (r.key = k ∧ r.ver = v ∧ r.member = m)) with _ | r
  · rw [hf]; rfl
  · have h1 := List.find?_some hf
    have h2 := List.mem_of_find?_eq_some hf
    rw [decide_eq_true_eq] at h1
    have hmem : r ∈ dpref db k v := List.mem_filter.mpr
      ⟨h2, by rw [decide_eq_true_eq]; exact ⟨h1.1, h1.2.1⟩⟩
    rw [h] at hmem
    exact absurd hmem (List.not_mem_nil r)

theorem dedupFirstMemGo_nodup : ∀ (L seen : List Member),
    (dedupFirstMemGo L seen).Nodup ∧ ∀ m ∈ dedupFirstMemGo L seen, m ∉ seen
  | [], seen => ⟨List.nodup_nil, fun m hm => absurd hm (List.not_mem_nil m)⟩
  | m :: rest, seen => by
    rw [dedupFirstMemGo]
    by_cases h : m ∈ seen
    · rw [if_pos h]
      exact dedupFirstMemGo_nodup rest seen
    · rw [if_neg h]
      have ih := dedupFirstMemGo_nodup rest (m :: seen)
      constructor
      · rw [List.nodup_cons]
        exact ⟨fun hc => (ih.2 m hc) (List.mem_cons_self _ _), ih.1⟩
      · intro m2 hm2
        rcases List.mem_cons.mp hm2 with he | hm3
        · rw [he]; exact h
        · intro hc
          exact ih.2 m2 hm3 (List.mem_cons_of_mem _ hc)

theorem dedupFirstMem_nodup (L : List Member) : (dedupFirstMem L).Nodup :=
  (dedupFirstMemGo_nodup L []).1

theorem dedupFirstGo_members_nodup : ∀ (L : List SM) (seen : List Member),
    ((dedupFirstGo L seen).map SM.member).Nodup ∧
      ∀ sm ∈ dedupFirstGo L seen, sm.member ∉ seen
  | [], seen => ⟨List.nodup_nil, fun sm hm => absurd hm (List.not_mem_nil sm)⟩
  | sm :: rest, seen => by
    rw [dedupFirstGo]
    by_cases h : sm.member ∈ seen
    · rw [if_pos h]
      exact dedupFirstGo_members_nodup rest seen
    · rw [if_neg h]
      have ih := dedupFirstGo_members_nodup rest (sm.member :: seen)
      constructor
      · rw [List.map_cons, List.nodup_cons]
        refine ⟨?_, ih.1⟩
        intro hc
        rcases List.mem_map.mp hc with ⟨sm2, hsm2, he⟩
        exact ih.2 sm2 hsm2 (he ▸ List.mem_cons_self _ _)
      · intro sm2 hm2
        rcases List.mem_cons.mp hm2 with he | hm3
        · rw [he]; exact h
        · intro hc
          exact ih.2 sm2 hm3 (List.mem_cons_of_mem _ hc)

theorem dedupFirst_members_nodup (L : List SM) :
    ((dedupFirst L).map SM.member).Nodup :=
  (dedupFirstGo_members_nodup L []).1

theorem zremLoop_shape (db : DB) (k : Key) (v : Nat) : ∀ (L : List Member),
    zremLoop db k v L =
      (((L.filterMap (fun m => (getData db k v m).map (fun sc => (m, sc)))).map
        (fun p => [BatchOp.delData k v p.1, BatchOp.delScore k v p.2 p.1])).flatten,
       ((L.filterMap (fun m => (getData db k v m).map
         (fun sc => (m, sc)))).length : Int))
  | [] => rfl
  | m :: rest => by
    have ih := zremLoop_shape db k v rest
    rw [zremLoop, ih, List.filterMap_cons]
    rcases hg : getData db k v m with _ | sc
    · simp
    · simp only [Option.map_some', List.map_cons, List.flatten_cons,
        List.cons_append, List.nil_append, List.length_cons, Prod.mk.injEq]
      constructor
      · trivial
      · push_cast
        omega

theorem zrem_pairs_members (db : DB) (k : Key) (v : Nat) : ∀ (L : List Member),
    (L.filterMap (fun m => (getData db k v m).map (fun sc => (m, sc)))).map
      Prod.fst = L.filter (fun m => (getData db k v m).isSome)
  | [] => rfl
  | m :: rest => by
    have ih := zrem_pairs_members db k v rest
    rw [List.filterMap_cons, List.filter_cons]
    rcases hg : getData db k v m with _ | sc
    · rw [if_neg (by simp [hg])]
      exact ih
    · rw [if_pos (by simp [hg])]
      simp only [Option.map_some', List.map_cons]
      rw [ih]

theorem zrem_pairs_spec (db : DB) (k : Key) (v : Nat) (L : List Member) :
    ∀ p ∈ L.filterMap (fun m => (getData db k v m).map (fun sc => (m, sc))),
      getData db k v p.1 = some p.2 := by
  intro p hp
  rcases List.mem_filterMap.mp hp with ⟨m, hm, he⟩
  rcases hg : getData db k v m with _ | sc
  · rw [hg] at he
    exact Option.noConfusion he
  · rw [hg] at he
    have hpe : (m, sc) = p := Option.some.inj he
    rw [← hpe]
    exact hg

theorem zaddOne_stale (db : DB) (k : Key) (v : Nat) (sm : SM) :
    zaddOne db k v true sm =
      ([BatchOp.putData k v sm.member sm.score,
        BatchOp.putScore k v sm.score sm.member], 1) := rfl

theorem zaddLoop_stale_shape (db : DB) (k : Key) (v : Nat) : ∀ (L : List SM),
    zaddLoop db k v true L =
      ((L.map (fun sm => [BatchOp.putData k v sm.member sm.score,
        BatchOp.putScore k v sm.score sm.member])).flatten, (L.length : Int))
  | [] => rfl
  | sm :: rest => by
    have ih := zaddLoop_stale_shape db k v rest
    rw [zaddLoop, ih, zaddOne_stale]
    simp only [List.map_cons, List.flatten_cons, List.cons_append,
      List.nil_append, List.length_cons, Prod.mk.injEq]
    constructor
    · trivial
    · push_cast
      omega

theorem zrrbrLoop_shape (k : Key) (v : Nat) (si ti : Int) :
    ∀ (rows : List SRow) (cur : Int), ∃ S : List SRow,
      S.Sublist (rows.take (ti + 1 - cur).toNat) ∧
      zrrbrLoop k v si ti rows cur =
        ((S.map (fun r => [BatchOp.delData k v r.member,
          BatchOp.delScore r.key r.ver r.score r.member])).flatten,
         (S.length : Int))
  | [], cur => ⟨[], by simp, rfl⟩
  | r :: rest, cur => by
    simp only [zrrbrLoop]
    by_cases hc : cur ≤ ti
    · rw [if_pos hc]
      obtain ⟨S, hS1, hS2⟩ := zrrbrLoop_shape k v si ti rest (cur + 1)
      have htake : (ti + 1 - cur).toNat = (ti + 1 - (cur + 1)).toNat + 1 := by omega
      by_cases hs : si ≤ cur
      · refine ⟨r :: S, ?_, ?_⟩
        · rw [htake, List.take_succ_cons]
          exact hS1.cons₂ r
        · rw [if_pos hs, hS2]
          simp only [List.map_cons, List.flatten_cons, List.cons_append,
            List.nil_append, List.length_cons, Prod.mk.injEq]
          constructor
          · trivial
          · push_cast
            omega
      · refine ⟨S, ?_, ?_⟩
        · rw [htake, List.take_succ_cons]
          exact hS1.cons r
        · rw [if_neg hs, hS2]
    · rw [if_neg hc]
      exact ⟨[], by simp, rfl⟩

theorem zrrbsLoop_shape (k : Key) (v : Nat) (mn mx : D) (lc rc : Bool) (ti : Int) :
    ∀ (rows : List SRow) (cur : Int), ∃ S : List SRow,
      S.Sublist (rows.take (ti + 1 - cur).toNat) ∧
      zrrbsLoop k v mn mx lc rc ti rows cur =
        ((S.map (fun r => [BatchOp.delData k v r.member,
          BatchOp.delScore r.key r.ver r.score r.member])).flatten,
         (S.length : Int))
  | [], cur => ⟨[], by simp, rfl⟩
  | r :: rest, cur => by
    simp only [zrrbsLoop]
    by_cases hc : cur ≤ ti
    · rw [if_pos hc]
      have htake : (ti + 1 - cur).toNat = (ti + 1 - (cur + 1)).toNat + 1 := by omega
      by_cases hrp : rightPassScore mx rc r.score = true
      · rw [if_neg (show ¬((!rightPassScore mx rc r.score) = true) from by
          simp [hrp])]
        obtain ⟨S, hS1, hS2⟩ := zrrbsLoop_shape k v mn mx lc rc ti rest (cur + 1)
        by_cases hlp : leftPassScore mn lc r.score = true
        · rw [if_pos (show (leftPassScore mn lc r.score &&
              rightPassScore mx rc r.score) = true from by simp [hlp, hrp])]
          refine ⟨r :: S, ?_, ?_⟩
          · rw [htake, List.take_succ_cons]
            exact hS1.cons₂ r
          · rw [hS2]
            simp only [List.map_cons, List.flatten_cons, List.cons_append,
              List.nil_append, List.length_cons, Prod.mk.injEq]
            constructor
            · trivial
            · push_cast
              omega
        · rw [if_neg (show ¬((leftPassScore mn lc r.score &&
              rightPassScore mx rc r.score) = true) from by simp [hlp])]
          refine ⟨S, ?_, hS2⟩
          rw [htake, List.take_succ_cons]
          exact hS1.cons r
      · have hrp2 : rightPassScore mx rc r.score = false := by
          simpa using hrp
        rw [if_pos (show (!rightPassScore mx rc r.score) = true from by
          simp [hrp2])]
        rw [if_neg (show ¬((leftPassScore mn lc r.score &&
            rightPassScore mx rc r.score) = true) from by simp [hrp2])]
        exact ⟨[], by simp, rfl⟩
    · rw [if_neg hc]
      exact ⟨[], by simp, rfl⟩

theorem zrrblLoop_shape (k : Key) (v : Nat) (mn mx : Member) (lc rc lnl rnl : Bool)
    (ti : Int) :
    ∀ (rows : List DRow) (cur : Int), ∃ S : List DRow,
      S.Sublist (rows.take (ti + 1 - cur).toNat) ∧
      zrrblLoop k v mn mx lc rc lnl rnl ti rows cur =
        ((S.map (fun r => [BatchOp.delData r.key r.ver r.member,
          BatchOp.delScore k v r.score r.member])).flatten,
         (S.length : Int))
  | [], cur => ⟨[], by simp, rfl⟩
  | r :: rest, cur => by
    simp only [zrrblLoop]
    by_cases hc : cur ≤ ti
    · rw [if_pos hc]
      have htake : (ti + 1 - cur).toNat = (ti + 1 - (cur + 1)).toNat + 1 := by omega
      by_cases hrp : rightPassLex mx rc rnl r.member = true
      · rw [if_neg (show ¬((!rightPassLex mx rc rnl r.member) = true) from by
          simp [hrp])]
        obtain ⟨S, hS1, hS2⟩ := zrrblLoop_shape k v mn mx lc rc lnl rnl ti rest (cur + 1)
        by_cases hlp : leftPassLex mn lc lnl r.member = true
        · rw [if_pos (show (leftPassLex mn lc lnl r.member &&
              rightPassLex mx rc rnl r.member) = true from by simp [hlp, hrp])]
          refine ⟨r :: S, ?_, ?_⟩
          · rw [htake, List.take_succ_cons]
            exact hS1.cons₂ r
          · rw [hS2]
            simp only [List.map_cons, List.flatten_cons, List.cons_append,
              List.nil_append, List.length_cons, Prod.mk.injEq]
            constructor
            · trivial
            · push_cast
              omega
        · rw [if_neg (show ¬((leftPassLex mn lc lnl r.member &&
              rightPassLex mx rc rnl r.member) = true) from by simp [hlp])]
          refine ⟨S, ?_, hS2⟩
          rw [htake, List.take_succ_cons]
          exact hS1.cons r
      · have hrp2 : rightPassLex mx rc rnl r.member = false := by
          simpa using hrp
        rw [if_pos (show (!rightPassLex mx rc rnl r.member) = true from by
          simp [hrp2])]
        rw [if_neg (show ¬((leftPassLex mn lc lnl r.member &&
            rightPassLex mx rc rnl r.member) = true) from by simp [hrp2])]
        exact ⟨[], by simp, rfl⟩
    · rw [if_neg hc]
      exact ⟨[], by simp, rfl⟩

theorem take_fwdRows_sublist_prefix (db : DB) (k : Key) (v : Nat) (n : Nat)
    (hn : n ≤ (prefixRowsF db k v).length) :
    ((fwdRows db k v).take n).Sublist (prefixRowsF db k v) := by
  have hsplit := fwdRows_split db k v
  have heq : (fwdRows db k v).take n = (prefixRowsF db k v).take n := by
    conv_lhs => rw [hsplit]
    exact List.take_append_of_le_length hn
  rw [heq]
  exact List.take_sublist n (prefixRowsF db k v)

/-- The rows of the `(k, v)` prefix of the data CF in forward iteration
order. -/
def dprefixRowsF (db : DB) (k : Key) (v : Nat) : List DRow :=
  (dataFwdRows db k v).filter (fun r => decide (r.key = k ∧ r.ver = v))

theorem take_dataFwdRows_sublist_prefix (db : DB) (k : Key) (v : Nat) (n : Nat)
    (hn : n ≤ (dprefixRowsF db k v).length) :
    ((dataFwdRows db k v).take n).Sublist (dprefixRowsF db k v) := by
  have hsplit := dataFwdRows_split db k v
  have heq : (dataFwdRows db k v).take n = (dprefixRowsF db k v).take n := by
    conv_lhs => rw [hsplit]
    exact List.take_append_of_le_length hn
  rw [heq]
  exact List.take_sublist n (dprefixRowsF db k v)

theorem dprefixRowsF_perm (db : DB) (k : Key) (v : Nat) :
    List.Perm (dprefixRowsF db k v) (dpref db k v) := by
  unfold dprefixRowsF dataFwdRows dpref
  have hperm := (List.perm_insertionSort drLe
    (db.data.filter (fun r =>
      keyLt k r.key || (decide (k = r.key) && decide (v ≤ r.ver))))).filter
    (fun r => decide (r.key = k ∧ r.ver = v))
  rw [List.filter_filter] at hperm
  refine hperm.trans ?_
  have he : db.data.filter (fun r => decide (r.key = k ∧ r.ver = v) &&
      (keyLt k r.key || (decide (k = r.key) && decide (v ≤ r.ver)))) =
      db.data.filter (fun r => decide (r.key = k ∧ r.ver = v)) := by
    apply List.filter_congr
    intro r _
    by_cases hr : r.key = k ∧ r.ver = v
    · have h3 : (keyLt k r.key || (decide (k = r.key) && decide (v ≤ r.ver))) = true := by
        simp [hr.1, hr.2]
      rw [h3]
      simp
    · have h1 : decide (r.key = k ∧ r.ver = v) = false := by
        rw [decide_eq_false_iff_not]; exact hr
      rw [h1]
      simp
  rw [he]

theorem dprefixRowsF_length (db : DB) (k : Key) (v : Nat) :
    (dprefixRowsF db k v).length = ndata db k v := by
  rw [(dprefixRowsF_perm db k v).length_eq]
  rfl

theorem mem_dprefixRowsF_at (db : DB) (k : Key) (v : Nat) {r : DRow}
    (h : r ∈ dprefixRowsF db k v) : r ∈ db.data ∧ r.key = k ∧ r.ver = v := by
  have h2 := (dprefixRowsF_perm db k v).mem_iff.mp h
  rcases List.mem_filter.mp h2 with ⟨h3, h4⟩
  rw [decide_eq_true_eq] at h4
  exact ⟨h3, h4⟩

theorem dprefixRowsF_members_nodup (db : DB) (k : Key) (v : Nat) (hu : Uniq db) :
    ((dprefixRowsF db k v).map DRow.member).Nodup := by
  have hperm := (dprefixRowsF_perm db k v).map DRow.member
  exact hperm.nodup_iff.mpr (dprefix_members_nodup db k v hu)

theorem eq_singleton_of_nodup_all {α : Type} (l : List α) (x : α) (hnd : l.Nodup)
    (hx : x ∈ l) (hall : ∀ y ∈ l, y = x) : l = [x] := by
  cases l with
  | nil => exact absurd hx (List.not_mem_nil x)
  | cons a t =>
    have ha : a = x := hall a (List.mem_cons_self _ _)
    subst ha
    have ht : t = [] := by
      cases t with
      | nil => rfl
      | cons b t2 =>
        have hb : b = a := hall b (by simp)
        rw [List.nodup_cons] at hnd
        exact absurd (show a ∈ b :: t2 from hb ▸ List.mem_cons_self b t2) hnd.1
    rw [ht]

theorem dprefix_member_filter_eq (db : DB) (k : Key) (v : Nat) (hu : Uniq db)
    (m : Member) :
    (dpref db k v).filter (fun y => decide (y.member = m)) =
      (match getData db k v m with
       | some sc => [DRow.mk k v m sc]
       | none => []) := by
  rcases hg : getData db k v m with _ | sc
  · rw [List.filter_eq_nil_iff]
    intro y hy
    rcases List.mem_filter.mp hy with ⟨hy1, hy2⟩
    rw [decide_eq_true_eq] at hy2
    simp only [decide_eq_true_eq]
    intro he
    have := getData_of_mem_data db k v hu hy1 hy2.1 hy2.2
    rw [he, hg] at this
    exact Option.noConfusion this
  · apply eq_singleton_of_nodup_all
    · exact ((List.Nodup.of_map dKey hu.2.1).filter _).filter _
    · apply List.mem_filter.mpr
      unfold getData at hg
      rcases hf : db.data.find?
          (fun r => decide (r.key = k ∧ r.ver = v ∧ r.member = m)) with _ | r2
      · rw [hf] at hg
        exact absurd hg (by simp)
      · rw [hf] at hg
        have h1 := List.find?_some hf
        have h2 := List.mem_of_find?_eq_some hf
        rw [decide_eq_true_eq] at h1
        have hsc : r2.score = sc := by
          have : some r2.score = some sc := hg
          exact Option.some.inj this
        have heta : DRow.mk k v m sc = r2 := by
          obtain ⟨a, b, c, d⟩ := r2
          simp only [DRow.mk.injEq]
          exact ⟨h1.1.symm, h1.2.1.symm, h1.2.2.symm, hsc.symm⟩
        rw [heta]
        constructor
        · exact List.mem_filter.mpr ⟨h2, by
            rw [decide_eq_true_eq]; exact ⟨h1.1, h1.2.1⟩⟩
        · rw [decide_eq_true_eq]
          exact h1.2.2
    · intro y hy
      rcases List.mem_filter.mp hy with ⟨hy1, hy2⟩
      rcases List.mem_filter.mp hy1 with ⟨hy3, hy4⟩
      rw [decide_eq_true_eq] at hy2 hy4
      have := getData_of_mem_data db k v hu hy3 hy4.1 hy4.2
      rw [hy2, hg] at this
      have hsc : y.score = sc := (Option.some.inj this).symm
      obtain ⟨a, b, c, d⟩ := y
      simp only [DRow.mk.injEq]
      exact ⟨hy4.1, hy4.2, hy2, hsc⟩

theorem sprefix_member_filter_eq (db : DB) (k : Key) (v : Nat) (hu : Uniq db)
    (hbij : Bij db k v) (m : Member) :
    (spref db k v).filter (fun y => decide (y.member = m)) =
      (match getData db k v m with
       | some sc => [SRow.mk k v sc m]
       | none => []) := by
  rcases hg : getData db k v m with _ | sc
  · rw [List.filter_eq_nil_iff]
    intro y hy
    rcases List.mem_filter.mp hy with ⟨hy1, hy2⟩
    rw [decide_eq_true_eq] at hy2
    simp only [decide_eq_true_eq]
    intro he
    have heta : SRow.mk k v y.score y.member = y := by
      obtain ⟨a, b, c, d⟩ := y
      simp only [SRow.mk.injEq]
      exact ⟨hy2.1.symm, hy2.2.symm, trivial, trivial⟩
    have hmem : SRow.mk k v y.score y.member ∈ db.score := heta.symm ▸ hy1
    have := (hbij y.score y.member).mp hmem
    rw [he, hg] at this
    exact Option.noConfusion this
  · apply eq_singleton_of_nodup_all
    · exact (hu.2.2.filter _).filter _
    · apply List.mem_filter.mpr
      have hmem := (hbij sc m).mpr hg
      constructor
      · exact List.mem_filter.mpr ⟨hmem, by rw [decide_eq_true_eq]; exact ⟨rfl, rfl⟩⟩
      · rw [decide_eq_true_eq]
    · intro y hy
      rcases List.mem_filter.mp hy with ⟨hy1, hy2⟩
      rcases List.mem_filter.mp hy1 with ⟨hy3, hy4⟩
      rw [decide_eq_true_eq] at hy2 hy4
      have heta : SRow.mk k v y.score y.member = y := by
        obtain ⟨a, b, c, d⟩ := y
        simp only [SRow.mk.injEq]
        exact ⟨hy4.1.symm, hy4.2.symm, trivial, trivial⟩
      have hmem : SRow.mk k v y.score y.member ∈ db.score := heta.symm ▸ hy3
      have := (hbij y.score y.member).mp hmem
      rw [hy2, hg] at this
      have hsc : y.score = sc := (Option.some.inj this).symm
      obtain ⟨a, b, c, d⟩ := y
      simp only [SRow.mk.injEq]
      exact ⟨hy4.1, hy4.2, hsc, hy2⟩

theorem del_batch_p1 (db : DB) (now : Int) (hinv : INV db now)
    (k : Key) (mv : MetaValue) (hm : getMeta db k = some mv)
    (hlive : mv.isStale now = false)
    (S : List SRow)
    (hS : ∀ r ∈ S, r.key = k ∧ r.ver = mv.version ∧
      getData db k mv.version r.member = some r.score)
    (hndS : (S.map SRow.member).Nodup)
    (mv2 : MetaValue) (hver : mv2.version = mv.version)
    (hcnt : mv2.count = mv.count - S.length) :
    P1 (applyBatch db ((S.map (fun r =>
      [BatchOp.delData k mv.version r.member,
       BatchOp.delScore k mv.version r.score r.member])).flatten ++
      [BatchOp.putMeta k mv2])) now := by
  obtain ⟨hbij, hnd, hc0⟩ := hinv.2 k mv hm hlive
  have hcounts := del_rows_counts k mv.version S db hndS
    (fun r hr => by
      rcases hS r hr with ⟨h1, h2, h3⟩
      have hmem := (hbij r.score r.member).mpr h3
      have heta : SRow.mk k mv.version r.score r.member = r := by
        obtain ⟨a, b, c, d⟩ := r
        simp only [SRow.mk.injEq]
        exact ⟨h1.symm, h2.symm, trivial, trivial⟩
      rw [heta] at hmem
      exact List.mem_filter.mpr ⟨hmem, by rw [decide_eq_true_eq]; exact ⟨h1, h2⟩⟩)
    (fun r hr => getData_some_mem_dprefix db k mv.version r.member (hS r hr).2.2)
    (sprefix_nodup db k mv.version hinv.1)
    (dprefix_members_nodup db k mv.version hinv.1)
  have hns := nscore_eq_ndata db k mv.version hinv.1 hbij
  intro k2 mv' hm2 hlive2
  by_cases hk : k2 = k
  · rw [hk] at hm2 ⊢
    have hmF := getMeta_applyBatch_putMeta_last db ((S.map (fun r =>
      [BatchOp.delData k mv.version r.member,
       BatchOp.delScore k mv.version r.score r.member])).flatten) k mv2
    rw [hmF] at hm2
    have hmv' : mv' = mv2 := (Option.some.inj hm2).symm
    rw [hmv']
    rw [applyBatch_append]
    have hd : dpref (applyBatch (applyBatch db ((S.map (fun r =>
        [BatchOp.delData k mv.version r.member,
         BatchOp.delScore k mv.version r.score r.member])).flatten))
        [BatchOp.putMeta k mv2]) k mv2.version =
        dpref (applyBatch db ((S.map (fun r =>
        [BatchOp.delData k mv.version r.member,
         BatchOp.delScore k mv.version r.score r.member])).flatten)) k mv2.version := rfl
    have hs : spref (applyBatch (applyBatch db ((S.map (fun r =>
        [BatchOp.delData k mv.version r.member,
         BatchOp.delScore k mv.version r.score r.member])).flatten))
        [BatchOp.putMeta k mv2]) k mv2.version =
        spref (applyBatch db ((S.map (fun r =>
        [BatchOp.delData k mv.version r.member,
         BatchOp.delScore k mv.version r.score r.member])).flatten)) k mv2.version := rfl
    constructor
    · rw [ndata_dpref, hd, ← ndata_dpref, hver, hcnt]
      omega
    · rw [nscore_spref, hs, ← nscore_spref, hver, hcnt]
      omega
  · have hopk : ∀ op ∈ (S.map (fun r =>
        [BatchOp.delData k mv.version r.member,
         BatchOp.delScore k mv.version r.score r.member])).flatten ++
        [BatchOp.putMeta k mv2], opKey op = k := by
      intro op hop
      rcases List.mem_append.mp hop with h1 | h2
      · exact delOps_opKey k mv.version S op h1
      · rw [List.mem_singleton.mp h2]
        rfl
    have hpres := preserved_other_key k2 k hk _ db hopk
    rw [hpres.1] at hm2
    obtain ⟨hbij2, hnd2, hc02⟩ := hinv.2 k2 mv' hm2 hlive2
    have hns2 := nscore_eq_ndata db k2 mv'.version hinv.1 hbij2
    constructor
    · rw [ndata_dpref, (hpres.2 mv'.version).1, ← ndata_dpref, hnd2]
      omega
    · rw [nscore_spref, (hpres.2 mv'.version).2, ← nscore_spref, hns2, hnd2]
      omega

theorem ins_batch_p1_meta_last (db : DB) (now : Int) (hinv : INV db now)
    (k : Key) (vnew : Nat) (hfresh : FreshV db k vnew)
    (L : List SM) (hndL : (L.map SM.member).Nodup)
    (mvN : MetaValue) (hver : mvN.version = vnew)
    (hcntN : mvN.count = (L.length : Int)) :
    P1 (applyBatch db ((L.map (fun sm =>
      [BatchOp.putData k vnew sm.member sm.score,
       BatchOp.putScore k vnew sm.score sm.member])).flatten ++
      [BatchOp.putMeta k mvN])) now := by
  rcases freshv_prefixes db k vnew hfresh with ⟨hdp, hsp⟩
  have hins := ins_rows_counts k vnew L db hndL
    (fun sm _ => by rw [hdp]; simp)
    (fun sm _ sr hsr => by rw [hsp] at hsr; exact absurd hsr (List.not_mem_nil sr))
  intro k2 mv' hm2 hlive2
  by_cases hk : k2 = k
  · rw [hk] at hm2 ⊢
    have hmF := getMeta_applyBatch_putMeta_last db ((L.map (fun sm =>
      [BatchOp.putData k vnew sm.member sm.score,
       BatchOp.putScore k vnew sm.score sm.member])).flatten) k mvN
    rw [hmF] at hm2
    have hmv' : mv' = mvN := (Option.some.inj hm2).symm
    rw [hmv']
    rw [applyBatch_append]
    have hd0 : ndata db k vnew = 0 := hfresh.1
    have hs0 : nscore db k vnew = 0 := hfresh.2
    have hd : dpref (applyBatch (applyBatch db ((L.map (fun sm =>
        [BatchOp.putData k vnew sm.member sm.score,
         BatchOp.putScore k vnew sm.score sm.member])).flatten))
        [BatchOp.putMeta k mvN]) k mvN.version =
        dpref (applyBatch db ((L.map (fun sm =>
        [BatchOp.putData k vnew sm.member sm.score,
         BatchOp.putScore k vnew sm.score sm.member])).flatten)) k mvN.version := rfl
    have hs : spref (applyBatch (applyBatch db ((L.map (fun sm =>
        [BatchOp.putData k vnew sm.member sm.score,
         BatchOp.putScore k vnew sm.score sm.member])).flatten))
        [BatchOp.putMeta k mvN]) k mvN.version =
        spref (applyBatch db ((L.map (fun sm =>
        [BatchOp.putData k vnew sm.member sm.score,
         BatchOp.putScore k vnew sm.score sm.member])).flatten)) k mvN.version := rfl
    constructor
    · rw [ndata_dpref, hd, ← ndata_dpref, hver, hcntN, hins.1, hd0]
      omega
    · rw [nscore_spref, hs, ← nscore_spref, hver, hcntN, hins.2, hs0]
      omega
  · have hopk : ∀ op ∈ (L.map (fun sm =>
        [BatchOp.putData k vnew sm.member sm.score,
         BatchOp.putScore k vnew sm.score sm.member])).flatten ++
        [BatchOp.putMeta k mvN], opKey op = k := by
      intro op hop
      rcases List.mem_append.mp hop with h1 | h2
      · exact insOps_opKey k vnew L op h1
      · rw [List.mem_singleton.mp h2]
        rfl
    have hpres := preserved_other_key k2 k hk _ db hopk
    rw [hpres.1] at hm2
    obtain ⟨hbij2, hnd2, hc02⟩ := hinv.2 k2 mv' hm2 hlive2
    have hns2 := nscore_eq_ndata db k2 mv'.version hinv.1 hbij2
    constructor
    · rw [ndata_dpref, (hpres.2 mv'.version).1, ← ndata_dpref, hnd2]
      omega
    · rw [nscore_spref, (hpres.2 mv'.version).2, ← nscore_spref, hns2, hnd2]
      omega

theorem ins_batch_p1_meta_first (db : DB) (now : Int) (hinv : INV db now)
    (k : Key) (vnew : Nat) (hfresh : FreshV db k vnew)
    (L : List SM) (hndL : (L.map SM.member).Nodup)
    (mvN : MetaValue) (hver : mvN.version = vnew)
    (hcntN : mvN.count = (L.length : Int)) :
    P1 (applyBatch db (BatchOp.putMeta k mvN :: (L.map (fun sm =>
      [BatchOp.putData k vnew sm.member sm.score,
       BatchOp.putScore k vnew sm.score sm.member])).flatten)) now := by
  rw [applyBatch_cons]
  have hdp1 : dpref (applyOp db (BatchOp.putMeta k mvN)) k vnew = dpref db k vnew := rfl
  have hsp1 : spref (applyOp db (BatchOp.putMeta k mvN)) k vnew = spref db k vnew := rfl
  rcases freshv_prefixes db k vnew hfresh with ⟨hdp, hsp⟩
  have hins := ins_rows_counts k vnew L (applyOp db (BatchOp.putMeta k mvN)) hndL
    (fun sm _ => by rw [hdp1, hdp]; simp)
    (fun sm _ sr hsr => by
      rw [hsp1, hsp] at hsr
      exact absurd hsr (List.not_mem_nil sr))
  intro k2 mv' hm2 hlive2
  by_cases hk : k2 = k
  · rw [hk] at hm2 ⊢
    have hmF : getMeta (applyBatch (applyOp db (BatchOp.putMeta k mvN))
        ((L.map (fun sm => [BatchOp.putData k vnew sm.member sm.score,
          BatchOp.putScore k vnew sm.score sm.member])).flatten)) k = some mvN := by
      rw [getMeta_applyBatch_notMeta k _ _ (insOps_notMeta k vnew L)]
      exact getMeta_putMeta_self db k mvN
    rw [hmF] at hm2
    have hmv' : mv' = mvN := (Option.some.inj hm2).symm
    rw [hmv']
    have hd0 : ndata (applyOp db (BatchOp.putMeta k mvN)) k vnew = 0 := by
      rw [ndata_dpref, hdp1, ← ndata_dpref]
      exact hfresh.1
    have hs0 : nscore (applyOp db (BatchOp.putMeta k mvN)) k vnew = 0 := by
      rw [nscore_spref, hsp1, ← nscore_spref]
      exact hfresh.2
    constructor
    · rw [hver, hcntN, hins.1, hd0]
      omega
    · rw [hver, hcntN, hins.2, hs0]
      omega
  · have hopk : ∀ op ∈ BatchOp.putMeta k mvN :: (L.map (fun sm =>
        [BatchOp.putData k vnew sm.member sm.score,
         BatchOp.putScore k vnew sm.score sm.member])).flatten,
        opKey op = k := by
      intro op hop
      rcases List.mem_cons.mp hop with h1 | h2
      · rw [h1]
        rfl
      · exact insOps_opKey k vnew L op h2
    have hpres := preserved_other_key k2 k hk _ db hopk
    rw [← applyBatch_cons] at hm2 ⊢
    rw [hpres.1] at hm2
    obtain ⟨hbij2, hnd2, hc02⟩ := hinv.2 k2 mv' hm2 hlive2
    have hns2 := nscore_eq_ndata db k2 mv'.version hinv.1 hbij2
    constructor
    · rw [ndata_dpref, (hpres.2 mv'.version).1, ← ndata_dpref, hnd2]
      omega
    · rw [nscore_spref, (hpres.2 mv'.version).2, ← nscore_spref, hns2, hnd2]
      omega

theorem zrem_p1 (db : DB) (now : Int) (hinv : INV db now) (k : Key)
    (ms : List Member) : P1 (zrem db k ms now).2.2 now := by
  rcases hm : getMeta db k with _ | mv
  · simp only [zrem, hm]
    exact inv_implies_p1 db now hinv
  · simp only [zrem, hm]
    by_cases hst : mv.isStale now = true
    · rw [if_pos hst]
      exact inv_implies_p1 db now hinv
    · rw [if_neg hst]
      by_cases hc0 : mv.count = 0
      · rw [if_pos hc0]
        exact inv_implies_p1 db now hinv
      · rw [if_neg hc0]
        rw [zremLoop_shape db k mv.version (dedupFirstMem ms)]
        have hcanon : (List.map (fun p => [BatchOp.delData k mv.version p.1,
            BatchOp.delScore k mv.version p.2 p.1])
            ((dedupFirstMem ms).filterMap (fun m =>
              (getData db k mv.version m).map (fun sc => (m, sc))))).flatten =
            ((((dedupFirstMem ms).filterMap (fun m =>
              (getData db k mv.version m).map (fun sc => (m, sc)))).map
              (fun p => SRow.mk k mv.version p.2 p.1)).map (fun r =>
              [BatchOp.delData k mv.version r.member,
               BatchOp.delScore k mv.version r.score r.member])).flatten := by
          rw [List.map_map]
          rfl
        simp only []
        rw [hcanon]
        apply del_batch_p1 db now hinv k mv hm (by simpa using hst)
        · intro r hr
          rcases List.mem_map.mp hr with ⟨p, hp, hpe⟩
          have hgd := zrem_pairs_spec db k mv.version (dedupFirstMem ms) p hp
          rw [← hpe]
          exact ⟨rfl, rfl, hgd⟩
        · rw [List.map_map]
          rw [show (SRow.member ∘ (fun p : Member × D =>
            SRow.mk k mv.version p.2 p.1)) = Prod.fst from rfl]
          rw [zrem_pairs_members db k mv.version (dedupFirstMem ms)]
          exact (dedupFirstMem_nodup ms).filter _
        · rfl
        · rw [List.length_map]

theorem zremrangebyrank_p1 (db : DB) (now : Int) (hinv : INV db now) (k : Key)
    (start stop : Int) : P1 (zremrangebyrank db k start stop now).2.2 now := by
  rcases hm : getMeta db k with _ | mv
  · simp only [zremrangebyrank, hm]
    exact inv_implies_p1 db now hinv
  · simp only [zremrangebyrank, hm]
    by_cases hst : mv.isStale now = true
    · rw [if_pos hst]
      exact inv_implies_p1 db now hinv
    · rw [if_neg hst]
      by_cases hc0 : mv.count = 0
      · rw [if_pos hc0]
        exact inv_implies_p1 db now hinv
      · rw [if_neg hc0]
        obtain ⟨hbij, hnd, hcpos⟩ := hinv.2 k mv hm (by simpa using hst)
        have hplen : (prefixRowsF db k mv.version).length = mv.count.toNat := by
          rw [prefixRowsF_length, nscore_eq_ndata db k mv.version hinv.1 hbij, hnd]
        obtain ⟨S, hsub, heq⟩ := zrrbrLoop_shape k mv.version
          (if (if 0 ≤ start then start else mv.count + start) ≤ 0 then 0
           else if 0 ≤ start then start else mv.count + start)
          (if mv.count ≤ (if 0 ≤ stop then stop else mv.count + stop)
           then mv.count - 1
           else if 0 ≤ stop then stop else mv.count + stop)
          (fwdRows db k mv.version) 0
        rw [heq]
        simp only []
        have hti : (if mv.count ≤ (if 0 ≤ stop then stop else mv.count + stop)
            then mv.count - 1
            else if 0 ≤ stop then stop else mv.count + stop) ≤ mv.count - 1 := by
          by_cases h : mv.count ≤ (if 0 ≤ stop then stop else mv.count + stop)
          · rw [if_pos h]
          · rw [if_neg h]
            by_cases h2 : 0 ≤ stop
            · rw [if_pos h2] at h ⊢
              omega
            · rw [if_neg h2] at h ⊢
              omega
        have hsub2 : S.Sublist (prefixRowsF db k mv.version) := by
          refine hsub.trans ?_
          apply take_fwdRows_sublist_prefix
          rw [hplen]
          omega
        have hmemP : ∀ r ∈ S, r.key = k ∧ r.ver = mv.version ∧
            getData db k mv.version r.member = some r.score := by
          intro r hr
          exact (mem_prefixRowsF hbij).mp (hsub2.subset hr)
        have hcanon : (S.map (fun r => [BatchOp.delData k mv.version r.member,
            BatchOp.delScore r.key r.ver r.score r.member])).flatten =
            (S.map (fun r => [BatchOp.delData k mv.version r.member,
            BatchOp.delScore k mv.version r.score r.member])).flatten := by
          congr 1
          apply List.map_congr_left
          intro r hr
          rw [(hmemP r hr).1, (hmemP r hr).2.1]
        rw [hcanon]
        apply del_batch_p1 db now hinv k mv hm (by simpa using hst) S hmemP
        · exact List.Nodup.sublist (hsub2.map SRow.member)
            (prefixRowsF_members_nodup db k mv.version hinv.1 hbij)
        · rfl
        · rfl

theorem zremrangebyscore_p1 (db : DB) (now : Int) (hinv : INV db now) (k : Key)
    (mn mx : D) (lc rc : Bool) :
    P1 (zremrangebyscore db k mn mx lc rc now).2.2 now := by
  rcases hm : getMeta db k with _ | mv
  · simp only [zremrangebyscore, hm]
    exact inv_implies_p1 db now hinv
  · simp only [zremrangebyscore, hm]
    by_cases hst : mv.isStale now = true
    · rw [if_pos hst]
      exact inv_implies_p1 db now hinv
    · rw [if_neg hst]
      by_cases hc0 : mv.count = 0
      · rw [if_pos hc0]
        exact inv_implies_p1 db now hinv
      · rw [if_neg hc0]
        obtain ⟨hbij, hnd, hcpos⟩ := hinv.2 k mv hm (by simpa using hst)
        have hplen : (prefixRowsF db k mv.version).length = mv.count.toNat := by
          rw [prefixRowsF_length, nscore_eq_ndata db k mv.version hinv.1 hbij, hnd]
        obtain ⟨S, hsub, heq⟩ := zrrbsLoop_shape k mv.version mn mx lc rc
          (mv.count - 1) (fwdRows db k mv.version) 0
        rw [heq]
        simp only []
        have hsub2 : S.Sublist (prefixRowsF db k mv.version) := by
          refine hsub.trans ?_
          apply take_fwdRows_sublist_prefix
          rw [hplen]
          omega
        have hmemP : ∀ r ∈ S, r.key = k ∧ r.ver = mv.version ∧
            getData db k mv.version r.member = some r.score := by
          intro r hr
          exact (mem_prefixRowsF hbij).mp (hsub2.subset hr)
        have hcanon : (S.map (fun r => [BatchOp.delData k mv.version r.member,
            BatchOp.delScore r.key r.ver r.score r.member])).flatten =
            (S.map (fun r => [BatchOp.delData k mv.version r.member,
            BatchOp.delScore k mv.version r.score r.member])).flatten := by
          congr 1
          apply List.map_congr_left
          intro r hr
          rw [(hmemP r hr).1, (hmemP r hr).2.1]
        rw [hcanon]
        apply del_batch_p1 db now hinv k mv hm (by simpa using hst) S hmemP
        · exact List.Nodup.sublist (hsub2.map SRow.member)
            (prefixRowsF_members_nodup db k mv.version hinv.1 hbij)
        · rfl
        · rfl

theorem zremrangebylex_p1 (db : DB) (now : Int) (hinv : INV db now) (k : Key)
    (mn mx : Member) (lc rc : Bool) :
    P1 (zremrangebylex db k mn mx lc rc now).2.2 now := by
  rcases hm : getMeta db k with _ | mv
  · simp only [zremrangebylex, hm]
    exact inv_implies_p1 db now hinv
  · simp only [zremrangebylex, hm]
    by_cases hst : (mv.isStale now || decide (mv.count = 0)) = true
    · rw [if_pos hst]
      exact inv_implies_p1 db now hinv
    · rw [if_neg hst]
      have hst' : mv.isStale now = false ∧ ¬(mv.count = 0) := by
        have h2 := hst
        simp only [Bool.or_eq_true, not_or, Bool.not_eq_true,
          decide_eq_true_eq] at h2
        exact h2
      obtain ⟨hbij, hnd, hcpos⟩ := hinv.2 k mv hm hst'.1
      have hplen : (dprefixRowsF db k mv.version).length = mv.count.toNat := by
        rw [dprefixRowsF_length, hnd]
      obtain ⟨S, hsub, heq⟩ := zrrblLoop_shape k mv.version mn mx lc rc
        (decide (mn = [45])) (decide (mx = [43])) (mv.count - 1)
        (dataFwdRows db k mv.version) 0
      rw [heq]
      simp only []
      by_cases hpos : (0 : Int) < (S.length : Int)
      · rw [if_pos hpos]
        have hsub2 : S.Sublist (dprefixRowsF db k mv.version) := by
          refine hsub.trans ?_
          apply take_dataFwdRows_sublist_prefix
          rw [hplen]
          omega
        have hmemP : ∀ r ∈ S, r ∈ db.data ∧ r.key = k ∧ r.ver = mv.version :=
          fun r hr => mem_dprefixRowsF_at db k mv.version (hsub2.subset hr)
        have hgd : ∀ r ∈ S, getData db k mv.version r.member = some r.score := by
          intro r hr
          exact getData_of_mem_data db k mv.version hinv.1 (hmemP r hr).1
            (hmemP r hr).2.1 (hmemP r hr).2.2
        have hcanon : (S.map (fun r => [BatchOp.delData r.key r.ver r.member,
            BatchOp.delScore k mv.version r.score r.member])).flatten =
            ((S.map (fun dr => SRow.mk k mv.version dr.score dr.member)).map
              (fun r => [BatchOp.delData k mv.version r.member,
               BatchOp.delScore k mv.version r.score r.member])).flatten := by
          rw [List.map_map]
          congr 1
          apply List.map_congr_left
          intro r hr
          rw [show ((fun r2 : SRow => [BatchOp.delData k mv.version r2.member,
            BatchOp.delScore k mv.version r2.score r2.member]) ∘
            (fun dr : DRow => SRow.mk k mv.version dr.score dr.member)) r =
            [BatchOp.delData k mv.version r.member,
             BatchOp.delScore k mv.version r.score r.member] from rfl]
          rw [(hmemP r hr).2.1, (hmemP r hr).2.2]
        rw [hcanon]
        apply del_batch_p1 db now hinv k mv hm hst'.1
        · intro r hr
          rcases List.mem_map.mp hr with ⟨dr, hdr, hde⟩
          rw [← hde]
          exact ⟨rfl, rfl, hgd dr hdr⟩
        · rw [List.map_map]
          rw [show (SRow.member ∘ (fun dr : DRow =>
            SRow.mk k mv.version dr.score dr.member)) = DRow.member from rfl]
          exact List.Nodup.sublist (hsub2.map DRow.member)
            (dprefixRowsF_members_nodup db k mv.version hinv.1)
        · rfl
        · rw [List.length_map]
      · rw [if_neg hpos]
        have hS0 : S = [] := by
          have hl : S.length = 0 := by omega
          exact List.length_eq_zero.mp hl
        subst hS0
        simp only [List.map_nil, List.flatten_nil]
        rw [applyBatch_nil]
        exact inv_implies_p1 db now hinv

theorem filter_comm_imp {α : Type} (l : List α) (p q : α → Bool)
    (himp : ∀ y, q y = true → p y = true) :
    (l.filter p).filter q = l.filter q := by
  rw [List.filter_filter]
  apply List.filter_congr
  intro y _
  by_cases hq : q y = true
  · rw [hq, himp y hq]
    rfl
  · have hq2 : q y = false := by simpa using hq
    rw [hq2]
    simp

theorem zaddOne_none (rdb : DB) (k : Key) (v : Nat) (sm : SM)
    (hg : getData rdb k v sm.member = none) :
    zaddOne rdb k v false sm = ([BatchOp.putData k v sm.member sm.score,
      BatchOp.putScore k v sm.score sm.member], 1) := by
  unfold zaddOne
  rw [if_neg (by simp), hg]

theorem zaddOne_same (rdb : DB) (k : Key) (v : Nat) (sm : SM) (old : D)
    (hg : getData rdb k v sm.member = some old) (hq : old.q = sm.score.q) :
    zaddOne rdb k v false sm = ([], 0) := by
  unfold zaddOne
  rw [if_neg (by simp), hg]
  simp only []
  rw [if_pos hq]

theorem zaddOne_diff (rdb : DB) (k : Key) (v : Nat) (sm : SM) (old : D)
    (hg : getData rdb k v sm.member = some old) (hq : ¬(old.q = sm.score.q)) :
    zaddOne rdb k v false sm = ([BatchOp.delScore k v old sm.member,
      BatchOp.putData k v sm.member sm.score,
      BatchOp.putScore k v sm.score sm.member], 0) := by
  unfold zaddOne
  rw [if_neg (by simp), hg]
  simp only []
  rw [if_neg hq]

theorem zaddOne_opKey (rdb : DB) (k : Key) (v : Nat) (isSt : Bool) (sm : SM) :
    ∀ op ∈ (zaddOne rdb k v isSt sm).1, opKey op = k ∧ isPutMeta op = false := by
  intro op hop
  by_cases hs : isSt = true
  · rw [hs, zaddOne_stale] at hop
    rcases List.mem_cons.mp hop with he | he2
    · rw [he]; exact ⟨rfl, rfl⟩
    · rcases List.mem_cons.mp he2 with he | he3
      · rw [he]; exact ⟨rfl, rfl⟩
      · exact absurd he3 (List.not_mem_nil op)
  · have hs2 : isSt = false := by simpa using hs
    rw [hs2] at hop
    rcases hg : getData rdb k v sm.member with _ | old
    · rw [zaddOne_none rdb k v sm hg] at hop
      rcases List.mem_cons.mp hop with he | he2
      · rw [he]; exact ⟨rfl, rfl⟩
      · rcases List.mem_cons.mp he2 with he | he3
        · rw [he]; exact ⟨rfl, rfl⟩
        · exact absurd he3 (List.not_mem_nil op)
    · by_cases hq : old.q = sm.score.q
      · rw [zaddOne_same rdb k v sm old hg hq] at hop
        exact absurd hop (List.not_mem_nil op)
      · rw [zaddOne_diff rdb k v sm old hg hq] at hop
        rcases List.mem_cons.mp hop with he | he2
        · rw [he]; exact ⟨rfl, rfl⟩
        · rcases List.mem_cons.mp he2 with he | he3
          · rw [he]; exact ⟨rfl, rfl⟩
          · rcases List.mem_cons.mp he3 with he | he4
            · rw [he]; exact ⟨rfl, rfl⟩
            · exact absurd he4 (List.not_mem_nil op)

theorem zaddLoop_opKey (rdb : DB) (k : Key) (v : Nat) (isSt : Bool) :
    ∀ (L : List SM), ∀ op ∈ (zaddLoop rdb k v isSt L).1,
      opKey op = k ∧ isPutMeta op = false
  | [], op, h => absurd h (List.not_mem_nil op)
  | sm :: rest, op, h => by
    simp only [zaddLoop] at h
    rcases List.mem_append.mp h with h1 | h2
    · exact zaddOne_opKey rdb k v isSt sm op h1
    · exact zaddLoop_opKey rdb k v isSt rest op h2

theorem zadd_live_counts (rdb : DB) (k : Key) (v : Nat)
    (hu : Uniq rdb) (hbij : Bij rdb k v) :
    ∀ (L : List SM) (wdb : DB),
      (L.map SM.member).Nodup →
      (∀ sm ∈ L,
        (dpref wdb k v).filter (fun y => decide (y.member = sm.member)) =
          (dpref rdb k v).filter (fun y => decide (y.member = sm.member)) ∧
        (spref wdb k v).filter (fun y => decide (y.member = sm.member)) =
          (spref rdb k v).filter (fun y => decide (y.member = sm.member))) →
      ((ndata (applyBatch wdb (zaddLoop rdb k v false L).1) k v : Int) =
        (ndata wdb k v : Int) + (zaddLoop rdb k v false L).2) ∧
      ((nscore (applyBatch wdb (zaddLoop rdb k v false L).1) k v : Int) =
        (nscore wdb k v : Int) + (zaddLoop rdb k v false L).2)
  | [], wdb, _, _ => by
    constructor <;> simp [zaddLoop, applyBatch_nil]
  | sm :: L, wdb, hnd, hagree => by
    rw [List.map_cons, List.nodup_cons] at hnd
    have hagr := hagree sm (List.mem_cons_self _ _)
    simp only [zaddLoop]
    rcases hg : getData rdb k v sm.member with _ | old
    · rw [zaddOne_none rdb k v sm hg]
      have hdm : (dpref wdb k v).filter
          (fun y => decide (y.member = sm.member)) = [] := by
        rw [hagr.1, dprefix_member_filter_eq rdb k v hu sm.member, hg]
      have hsm : (spref wdb k v).filter
          (fun y => decide (y.member = sm.member)) = [] := by
        rw [hagr.2, sprefix_member_filter_eq rdb k v hu hbij sm.member, hg]
      have hd2 : dpref (applyOp (applyOp wdb
          (BatchOp.putData k v sm.member sm.score))
          (BatchOp.putScore k v sm.score sm.member)) k v =
          DRow.mk k v sm.member sm.score :: dpref wdb k v := by
        rw [dprefix_putScore, dprefix_putData_same]
        congr 1
        apply List.filter_eq_self.mpr
        intro y hy
        simp only [Bool.not_eq_eq_eq_not, Bool.not_true, decide_eq_false_iff_not]
        intro he
        have hmem : y ∈ (dpref wdb k v).filter
            (fun y2 => decide (y2.member = sm.member)) :=
          List.mem_filter.mpr ⟨hy, by rw [decide_eq_true_eq]; exact he⟩
        rw [hdm] at hmem
        exact absurd hmem (List.not_mem_nil y)
      have hsc2 : spref (applyOp (applyOp wdb
          (BatchOp.putData k v sm.member sm.score))
          (BatchOp.putScore k v sm.score sm.member)) k v =
          SRow.mk k v sm.score sm.member :: spref wdb k v := by
        rw [sprefix_putScore_same, sprefix_putData]
        congr 1
        apply List.filter_eq_self.mpr
        intro y hy
        simp only [Bool.not_eq_eq_eq_not, Bool.not_true, decide_eq_false_iff_not]
        intro he
        have hmem : y ∈ (spref wdb k v).filter
            (fun y2 => decide (y2.member = sm.member)) := by
          apply List.mem_filter.mpr
          refine ⟨hy, ?_⟩
          rw [decide_eq_true_eq, he]
        rw [hsm] at hmem
        exact absurd hmem (List.not_mem_nil y)
      have ih := zadd_live_counts rdb k v hu hbij L
        (applyOp (applyOp wdb (BatchOp.putData k v sm.member sm.score))
          (BatchOp.putScore k v sm.score sm.member))
        hnd.2
        (by
          intro s2 hs2m
          have hne : ¬(sm.member = s2.member) := by
            intro hc
            exact hnd.1 (hc ▸ List.mem_map_of_mem SM.member hs2m)
          have hag2 := hagree s2 (List.mem_cons_of_mem _ hs2m)
          constructor
          · rw [hd2, List.filter_cons, if_neg (by
              simp only [decide_eq_true_eq]
              exact fun hc => hne hc)]
            exact hag2.1
          · rw [hsc2, List.filter_cons, if_neg (by
              simp only [decide_eq_true_eq]
              exact fun hc => hne hc)]
            exact hag2.2)
      have hn2 : (ndata (applyOp (applyOp wdb
          (BatchOp.putData k v sm.member sm.score))
          (BatchOp.putScore k v sm.score sm.member)) k v : Int) =
          (ndata wdb k v : Int) + 1 := by
        rw [ndata_dpref, hd2, List.length_cons, ndata_dpref]
        push_cast
        omega
      have hns2 : (nscore (applyOp (applyOp wdb
          (BatchOp.putData k v sm.member sm.score))
          (BatchOp.putScore k v sm.score sm.member)) k v : Int) =
          (nscore wdb k v : Int) + 1 := by
        rw [nscore_spref, hsc2, List.length_cons, nscore_spref]
        push_cast
        omega
      rw [show ([BatchOp.putData k v sm.member sm.score,
          BatchOp.putScore k v sm.score sm.member] ++ (zaddLoop rdb k v false L).1) =
          BatchOp.putData k v sm.member sm.score ::
          BatchOp.putScore k v sm.score sm.member :: (zaddLoop rdb k v false L).1
          from rfl]
      rw [applyBatch_cons, applyBatch_cons]
      constructor
      · rw [ih.1, hn2]
        omega
      · rw [ih.2, hns2]
        omega
    · by_cases hq : old.q = sm.score.q
      · rw [zaddOne_same rdb k v sm old hg hq]
        simp only [List.nil_append]
        have ih := zadd_live_counts rdb k v hu hbij L wdb hnd.2
          (fun s2 hs2m => hagree s2 (List.mem_cons_of_mem _ hs2m))
        constructor
        · rw [ih.1]
          omega
        · rw [ih.2]
          omega
      · rw [zaddOne_diff rdb k v sm old hg hq]
        have hdmf : (dpref wdb k v).filter
            (fun y => decide (y.member = sm.member)) =
            [DRow.mk k v sm.member old] := by
          rw [hagr.1, dprefix_member_filter_eq rdb k v hu sm.member, hg]
        have hsmf : (spref wdb k v).filter
            (fun y => decide (y.member = sm.member)) =
            [SRow.mk k v old sm.member] := by
          rw [hagr.2, sprefix_member_filter_eq rdb k v hu hbij sm.member, hg]
        have hd3 : dpref (applyOp (applyOp (applyOp wdb
            (BatchOp.delScore k v old sm.member))
            (BatchOp.putData k v sm.member sm.score))
            (BatchOp.putScore k v sm.score sm.member)) k v =
            DRow.mk k v sm.member sm.score ::
              (dpref wdb k v).filter (fun y => !decide (y.member = sm.member)) := by
          rw [dprefix_putScore, dprefix_putData_same, dprefix_delScore]
        have hs3 : spref (applyOp (applyOp (applyOp wdb
            (BatchOp.delScore k v old sm.member))
            (BatchOp.putData k v sm.member sm.score))
            (BatchOp.putScore k v sm.score sm.member)) k v =
            SRow.mk k v sm.score sm.member ::
              ((spref wdb k v).filter
                (fun y => !decide (y = SRow.mk k v old sm.member))).filter
                (fun y => !decide (y = SRow.mk k v sm.score sm.member)) := by
          rw [sprefix_putScore_same, sprefix_putData, sprefix_delScore_same]
        have hnd3 : (ndata (applyOp (applyOp (applyOp wdb
            (BatchOp.delScore k v old sm.member))
            (BatchOp.putData k v sm.member sm.score))
            (BatchOp.putScore k v sm.score sm.member)) k v : Int) =
            (ndata wdb k v : Int) := by
          rw [ndata_dpref, hd3, List.length_cons, ndata_dpref]
          have htot := length_filter_add_not
            (fun y => decide (y.member = sm.member)) (dpref wdb k v)
          rw [hdmf] at htot
          simp only [List.length_cons, List.length_nil] at htot
          push_cast
          omega
        have hns3 : (nscore (applyOp (applyOp (applyOp wdb
            (BatchOp.delScore k v old sm.member))
            (BatchOp.putData k v sm.member sm.score))
            (BatchOp.putScore k v sm.score sm.member)) k v : Int) =
            (nscore wdb k v : Int) := by
          rw [nscore_spref, hs3, List.length_cons, nscore_spref]
          have h1 : (spref wdb k v).filter
              (fun y => decide (y = SRow.mk k v old sm.member)) =
              [SRow.mk k v old sm.member] := by
            rw [← filter_comm_imp (spref wdb k v)
              (fun y => decide (y.member = sm.member))
              (fun y => decide (y = SRow.mk k v old sm.member))
              (fun y hy => by
                rw [decide_eq_true_eq] at hy
                rw [decide_eq_true_eq, hy])]
            rw [hsmf]
            simp
          have htot := length_filter_add_not
            (fun y => decide (y = SRow.mk k v old sm.member)) (spref wdb k v)
          rw [h1] at htot
          have h2 : ((spref wdb k v).filter
              (fun y => !decide (y = SRow.mk k v old sm.member))).filter
              (fun y => decide (y = SRow.mk k v sm.score sm.member)) = [] := by
            rw [List.filter_eq_nil_iff]
            intro y hy
            rcases List.mem_filter.mp hy with ⟨hy1, hy2⟩
            simp only [decide_eq_true_eq]
            intro he
            have hmem : y ∈ (spref wdb k v).filter
                (fun y2 => decide (y2.member = sm.member)) :=
              List.mem_filter.mpr ⟨hy1, by rw [decide_eq_true_eq, he]⟩
            rw [hsmf] at hmem
            have hyold : y = SRow.mk k v old sm.member := by simpa using hmem
            rw [hyold] at hy2
            simp at hy2
          have htot2 := length_filter_add_not
            (fun y => decide (y = SRow.mk k v sm.score sm.member))
            ((spref wdb k v).filter
              (fun y => !decide (y = SRow.mk k v old sm.member)))
          rw [h2] at htot2
          simp only [List.length_cons, List.length_nil] at htot htot2
          push_cast
          omega
        have ih := zadd_live_counts rdb k v hu hbij L
          (applyOp (applyOp (applyOp wdb
            (BatchOp.delScore k v old sm.member))
            (BatchOp.putData k v sm.member sm.score))
            (BatchOp.putScore k v sm.score sm.member))
          hnd.2
          (by
            intro s2 hs2m
            have hne : ¬(sm.member = s2.member) := by
              intro hc
              exact hnd.1 (hc ▸ List.mem_map_of_mem SM.member hs2m)
            have hag2 := hagree s2 (List.mem_cons_of_mem _ hs2m)
            constructor
            · rw [hd3, List.filter_cons, if_neg (by
                simp only [decide_eq_true_eq]
                exact fun hc => hne hc)]
              rw [filter_comm_imp (dpref wdb k v)
                (fun y => !decide (y.member = sm.member))
                (fun y => decide (y.member = s2.member))
                (fun y hy => by
                  rw [decide_eq_true_eq] at hy
                  simp only [Bool.not_eq_eq_eq_not, Bool.not_true,
                    decide_eq_false_iff_not]
                  rw [hy]
                  exact fun hc => hne hc.symm)]
              exact hag2.1
            · rw [hs3, List.filter_cons, if_neg (by
                simp only [decide_eq_true_eq]
                exact fun hc => hne hc)]
              rw [filter_comm_imp ((spref wdb k v).filter
                  (fun y => !decide (y = SRow.mk k v old sm.member)))
                (fun y => !decide (y = SRow.mk k v sm.score sm.member))
                (fun y => decide (y.member = s2.member))
                (fun y hy => by
                  rw [decide_eq_true_eq] at hy
                  simp only [Bool.not_eq_eq_eq_not, Bool.not_true,
                    decide_eq_false_iff_not]
                  intro hc
                  rw [hc] at hy
                  exact hne hy)]
              rw [filter_comm_imp (spref wdb k v)
                (fun y => !decide (y = SRow.mk k v old sm.member))
                (fun y => decide (y.member = s2.member))
                (fun y hy => by
                  rw [decide_eq_true_eq] at hy
                  simp only [Bool.not_eq_eq_eq_not, Bool.not_true,
                    decide_eq_false_iff_not]
                  intro hc
                  rw [hc] at hy
                  exact hne hy)]
              exact hag2.2)
        rw [show ([BatchOp.delScore k v old sm.member,
            BatchOp.putData k v sm.member sm.score,
            BatchOp.putScore k v sm.score sm.member] ++
            (zaddLoop rdb k v false L).1) =
            BatchOp.delScore k v old sm.member ::
            BatchOp.putData k v sm.member sm.score ::
            BatchOp.putScore k v sm.score sm.member ::
            (zaddLoop rdb k v false L).1 from rfl]
        rw [applyBatch_cons, applyBatch_cons, applyBatch_cons]
        constructor
        · rw [ih.1, hnd3]
          omega
        · rw [ih.2, hns3]
          omega

theorem zaddBatch_none (db : DB) (k : Key) (sms : List SM) (now : Int) (tick : Nat)
    (hm : getMeta db k = none) :
    zaddBatch db k sms now tick =
      (BatchOp.putMeta k (MetaValue.mk tick (Int.ofNat (dedupFirst sms).length) 0) ::
        ((dedupFirst sms).map (fun sm =>
          [BatchOp.putData k tick sm.member sm.score,
           BatchOp.putScore k tick sm.score sm.member])).flatten,
       Int.ofNat (dedupFirst sms).length) := by
  unfold zaddBatch
  rw [hm]

theorem zaddBatch_some_stale (db : DB) (k : Key) (sms : List SM) (now : Int)
    (tick : Nat) (mv : MetaValue) (hm : getMeta db k = some mv)
    (hst : mv.isStale now = true) :
    zaddBatch db k sms now tick =
      ((zaddLoop db k (max tick (mv.version + 1)) true (dedupFirst sms)).1 ++
        [BatchOp.putMeta k (MetaValue.mk (max tick (mv.version + 1))
          (0 + (zaddLoop db k (max tick (mv.version + 1)) true (dedupFirst sms)).2)
          0)],
       (zaddLoop db k (max tick (mv.version + 1)) true (dedupFirst sms)).2) := by
  unfold zaddBatch
  rw [hm]
  simp only [hst, initialMetaValue]
  simp

theorem zaddBatch_some_live (db : DB) (k : Key) (sms : List SM) (now : Int)
    (tick : Nat) (mv : MetaValue) (hm : getMeta db k = some mv)
    (hst : mv.isStale now = false) :
    zaddBatch db k sms now tick =
      ((zaddLoop db k mv.version false (dedupFirst sms)).1 ++
        [BatchOp.putMeta k { mv with count := mv.count +
          (zaddLoop db k mv.version false (dedupFirst sms)).2 }],
       (zaddLoop db k mv.version false (dedupFirst sms)).2) := by
  unfold zaddBatch
  rw [hm]
  simp only [hst]
  rw [if_neg (by simp)]

theorem zadd_p1 (db : DB) (now : Int) (tick : Nat) (hinv : INV db now) (k : Key)
    (sms : List SM) (hfresh : freshOk db k tick) :
    P1 (zadd db k sms now tick).2.2 now := by
  unfold zadd
  simp only []
  rcases hm : getMeta db k with _ | mv
  · rw [zaddBatch_none db k sms now tick hm]
    have hfr : FreshV db k tick := by
      simp only [freshOk, hm] at hfresh
      exact hfresh
    exact ins_batch_p1_meta_first db now hinv k tick hfr (dedupFirst sms)
      (dedupFirst_members_nodup sms)
      (MetaValue.mk tick (Int.ofNat (dedupFirst sms).length) 0) rfl rfl
  · by_cases hst : mv.isStale now = true
    · rw [zaddBatch_some_stale db k sms now tick mv hm hst]
      rw [zaddLoop_stale_shape db k (max tick (mv.version + 1)) (dedupFirst sms)]
      simp only []
      have hfr : FreshV db k (max tick (mv.version + 1)) := by
        simp only [freshOk, hm] at hfresh
        exact hfresh
      exact ins_batch_p1_meta_last db now hinv k (max tick (mv.version + 1)) hfr
        (dedupFirst sms) (dedupFirst_members_nodup sms)
        (MetaValue.mk (max tick (mv.version + 1))
          (0 + ((dedupFirst sms).length : Int)) 0) rfl (by simp)
    · have hst2 : mv.isStale now = false := by simpa using hst
      rw [zaddBatch_some_live db k sms now tick mv hm hst2]
      simp only []
      obtain ⟨hbij, hnd, hcpos⟩ := hinv.2 k mv hm hst2
      have hcounts := zadd_live_counts db k mv.version hinv.1 hbij
        (dedupFirst sms) db (dedupFirst_members_nodup sms)
        (fun sm _ => ⟨rfl, rfl⟩)
      have hns := nscore_eq_ndata db k mv.version hinv.1 hbij
      intro k2 mv' hm2 hlive2
      by_cases hk : k2 = k
      · rw [hk] at hm2 ⊢
        have hmF := getMeta_applyBatch_putMeta_last db
          (zaddLoop db k mv.version false (dedupFirst sms)).1 k
          { mv with count := mv.count +
            (zaddLoop db k mv.version false (dedupFirst sms)).2 }
        rw [hmF] at hm2
        have hmv' : mv' = { mv with count := mv.count +
            (zaddLoop db k mv.version false (dedupFirst sms)).2 } :=
          (Option.some.inj hm2).symm
        rw [hmv']
        rw [applyBatch_append]
        have hd : dpref (applyBatch (applyBatch db
            (zaddLoop db k mv.version false (dedupFirst sms)).1)
            [BatchOp.putMeta k { mv with count := mv.count +
              (zaddLoop db k mv.version false (dedupFirst sms)).2 }]) k mv.version =
            dpref (applyBatch db
              (zaddLoop db k mv.version false (dedupFirst sms)).1) k mv.version := rfl
        have hs : spref (applyBatch (applyBatch db
            (zaddLoop db k mv.version false (dedupFirst sms)).1)
            [BatchOp.putMeta k { mv with count := mv.count +
              (zaddLoop db k mv.version false (dedupFirst sms)).2 }]) k mv.version =
            spref (applyBatch db
              (zaddLoop db k mv.version false (dedupFirst sms)).1) k mv.version := rfl
        constructor
        · rw [show ({ mv with count := mv.count +
              (zaddLoop db k mv.version false (dedupFirst sms)).2 } :
              MetaValue).version = mv.version from rfl]
          rw [ndata_dpref, hd, ← ndata_dpref, hcounts.1, hnd]
          rw [show ({ mv with count := mv.count +
              (zaddLoop db k mv.version false (dedupFirst sms)).2 } :
              MetaValue).count = mv.count +
              (zaddLoop db k mv.version false (dedupFirst sms)).2 from rfl]
          omega
        · rw [show ({ mv with count := mv.count +
              (zaddLoop db k mv.version false (dedupFirst sms)).2 } :
              MetaValue).version = mv.version from rfl]
          rw [nscore_spref, hs, ← nscore_spref, hcounts.2, hns, hnd]
          rw [show ({ mv with count := mv.count +
              (zaddLoop db k mv.version false (dedupFirst sms)).2 } :
              MetaValue).count = mv.count +
              (zaddLoop db k mv.version false (dedupFirst sms)).2 from rfl]
          omega
      · have hopk : ∀ op ∈ (zaddLoop db k mv.version false (dedupFirst sms)).1 ++
            [BatchOp.putMeta k { mv with count := mv.count +
              (zaddLoop db k mv.version false (dedupFirst sms)).2 }],
            opKey op = k := by
          intro op hop
          rcases List.mem_append.mp hop with h1 | h2
          · exact (zaddLoop_opKey db k mv.version false (dedupFirst sms) op h1).1
          · rw [List.mem_singleton.mp h2]
            rfl
        have hpres := preserved_other_key k2 k hk _ db hopk
        rw [hpres.1] at hm2
        obtain ⟨hbij2, hnd2, hc02⟩ := hinv.2 k2 mv' hm2 hlive2
        have hns2 := nscore_eq_ndata db k2 mv'.version hinv.1 hbij2
        constructor
        · rw [ndata_dpref, (hpres.2 mv'.version).1, ← ndata_dpref, hnd2]
          omega
        · rw [nscore_spref, (hpres.2 mv'.version).2, ← nscore_spref, hns2, hnd2]
          omega

theorem replace_pair_counts (db : DB) (k : Key) (v : Nat)
    (hu : Uniq db) (hbij : Bij db k v) (m : Member) (old snew : D)
    (hg : getData db k v m = some old) :
    (ndata (applyBatch db [BatchOp.delScore k v old m,
      BatchOp.putData k v m snew, BatchOp.putScore k v snew m]) k v : Int) =
      (ndata db k v : Int) ∧
    (nscore (applyBatch db [BatchOp.delScore k v old m,
      BatchOp.putData k v m snew, BatchOp.putScore k v snew m]) k v : Int) =
      (nscore db k v : Int) := by
  have hdmf : (dpref db k v).filter (fun y => decide (y.member = m)) =
      [DRow.mk k v m old] := by
    rw [dprefix_member_filter_eq db k v hu m, hg]
  have hsmf : (spref db k v).filter (fun y => decide (y.member = m)) =
      [SRow.mk k v old m] := by
    rw [sprefix_member_filter_eq db k v hu hbij m, hg]
  rw [applyBatch_cons, applyBatch_cons, applyBatch_cons, applyBatch_nil]
  have hd3 : dpref (applyOp (applyOp (applyOp db
      (BatchOp.delScore k v old m)) (BatchOp.putData k v m snew))
      (BatchOp.putScore k v snew m)) k v =
      DRow.mk k v m snew ::
        (dpref db k v).filter (fun y => !decide (y.member = m)) := by
    rw [dprefix_putScore, dprefix_putData_same, dprefix_delScore]
  have hs3 : spref (applyOp (applyOp (applyOp db
      (BatchOp.delScore k v old m)) (BatchOp.putData k v m snew))
      (BatchOp.putScore k v snew m)) k v =
      SRow.mk k v snew m ::
        ((spref db k v).filter
          (fun y => !decide (y = SRow.mk k v old m))).filter
          (fun y => !decide (y = SRow.mk k v snew m)) := by
    rw [sprefix_putScore_same, sprefix_putData, sprefix_delScore_same]
  constructor
  · rw [ndata_dpref, hd3, List.length_cons, ndata_dpref]
    have htot := length_filter_add_not
      (fun y => decide (y.member = m)) (dpref db k v)
    rw [hdmf] at htot
    simp only [List.length_cons, List.length_nil] at htot
    push_cast
    omega
  · rw [nscore_spref, hs3, List.length_cons, nscore_spref]
    have h1 : (spref db k v).filter
        (fun y => decide (y = SRow.mk k v old m)) = [SRow.mk k v old m] := by
      rw [← filter_comm_imp (spref db k v)
        (fun y => decide (y.member = m))
        (fun y => decide (y = SRow.mk k v old m))
        (fun y hy => by
          rw [decide_eq_true_eq] at hy
          rw [decide_eq_true_eq, hy])]
      rw [hsmf]
      simp
    have htot := length_filter_add_not
      (fun y => decide (y = SRow.mk k v old m)) (spref db k v)
    rw [h1] at htot
    have h2 : ((spref db k v).filter
        (fun y => !decide (y = SRow.mk k v old m))).filter
        (fun y => decide (y = SRow.mk k v snew m)) = [] := by
      rw [List.filter_eq_nil_iff]
      intro y hy
      rcases List.mem_filter.mp hy with ⟨hy1, hy2⟩
      simp only [decide_eq_true_eq]
      intro he
      have hmem : y ∈ (spref db k v).filter
          (fun y2 => decide (y2.member = m)) :=
        List.mem_filter.mpr ⟨hy1, by rw [decide_eq_true_eq, he]⟩
      rw [hsmf] at hmem
      have hyold : y = SRow.mk k v old m := by simpa using hmem
      rw [hyold] at hy2
      simp at hy2
    have htot2 := length_filter_add_not
      (fun y => decide (y = SRow.mk k v snew m))
      ((spref db k v).filter (fun y => !decide (y = SRow.mk k v old m)))
    rw [h2] at htot2
    simp only [List.length_cons, List.length_nil] at htot htot2
    push_cast
    omega

theorem insert_pair_counts (db : DB) (k : Key) (v : Nat)
    (hu : Uniq db) (hbij : Bij db k v) (m : Member) (snew : D)
    (hg : getData db k v m = none) :
    (ndata (applyBatch db [BatchOp.putData k v m snew,
      BatchOp.putScore k v snew m]) k v : Int) = (ndata db k v : Int) + 1 ∧
    (nscore (applyBatch db [BatchOp.putData k v m snew,
      BatchOp.putScore k v snew m]) k v : Int) = (nscore db k v : Int) + 1 := by
  have hdm : (dpref db k v).filter (fun y => decide (y.member = m)) = [] := by
    rw [dprefix_member_filter_eq db k v hu m, hg]
  have hsm : (spref db k v).filter (fun y => decide (y.member = m)) = [] := by
    rw [sprefix_member_filter_eq db k v hu hbij m, hg]
  rw [applyBatch_cons, applyBatch_cons, applyBatch_nil]
  have hd2 : dpref (applyOp (applyOp db (BatchOp.putData k v m snew))
      (BatchOp.putScore k v snew m)) k v =
      DRow.mk k v m snew :: dpref db k v := by
    rw [dprefix_putScore, dprefix_putData_same]
    congr 1
    apply List.filter_eq_self.mpr
    intro y hy
    simp only [Bool.not_eq_eq_eq_not, Bool.not_true, decide_eq_false_iff_not]
    intro he
    have hmem : y ∈ (dpref db k v).filter
        (fun y2 => decide (y2.member = m)) :=
      List.mem_filter.mpr ⟨hy, by rw [decide_eq_true_eq]; exact he⟩
    rw [hdm] at hmem
    exact absurd hmem (List.not_mem_nil y)
  have hs2 : spref (applyOp (applyOp db (BatchOp.putData k v m snew))
      (BatchOp.putScore k v snew m)) k v =
      SRow.mk k v snew m :: spref db k v := by
    rw [sprefix_putScore_same, sprefix_putData]
    congr 1
    apply List.filter_eq_self.mpr
    intro y hy
    simp only [Bool.not_eq_eq_eq_not, Bool.not_true, decide_eq_false_iff_not]
    intro he
    have hmem : y ∈ (spref db k v).filter
        (fun y2 => decide (y2.member = m)) := by
      apply List.mem_filter.mpr
      refine ⟨hy, ?_⟩
      rw [decide_eq_true_eq, he]
    rw [hsm] at hmem
    exact absurd hmem (List.not_mem_nil y)
  constructor
  · rw [ndata_dpref, hd2, List.length_cons, ndata_dpref]
    push_cast
    omega
  · rw [nscore_spref, hs2, List.length_cons, nscore_spref]
    push_cast
    omega

theorem zincrby_none_eq (db : DB) (k : Key) (member : Member) (increment : D)
    (now : Int) (tick : Nat) (hm : getMeta db k = none) :
    zincrby db k member increment now tick =
      (Status.ok, increment, applyBatch db
        [BatchOp.putMeta k (MetaValue.mk tick 1 0),
         BatchOp.putData k tick member increment,
         BatchOp.putScore k tick increment member]) := by
  unfold zincrby
  rw [hm]

theorem zincrby_stale_eq (db : DB) (k : Key) (member : Member) (increment : D)
    (now : Int) (tick : Nat) (mv : MetaValue) (hm : getMeta db k = some mv)
    (hst : mv.isStale now = true)
    (hgd : getData db k (max tick (mv.version + 1)) member = none) :
    zincrby db k member increment now tick =
      (Status.ok, increment, applyBatch db
        [BatchOp.putMeta k (MetaValue.mk (max tick (mv.version + 1)) (0 + 1) 0),
         BatchOp.putData k (max tick (mv.version + 1)) member increment,
         BatchOp.putScore k (max tick (mv.version + 1)) increment member]) := by
  unfold zincrby
  rw [hm]
  simp only [hst, initialMetaValue, if_true]
  rw [hgd]

theorem zincrby_live_some_eq (db : DB) (k : Key) (member : Member) (increment : D)
    (now : Int) (tick : Nat) (mv : MetaValue) (old : D)
    (hm : getMeta db k = some mv) (hst : mv.isStale now = false)
    (hgd : getData db k mv.version member = some old) :
    zincrby db k member increment now tick =
      (Status.ok, D.add old increment, applyBatch db
        [BatchOp.delScore k mv.version old member,
         BatchOp.putData k mv.version member (D.add old increment),
         BatchOp.putScore k mv.version (D.add old increment) member]) := by
  unfold zincrby
  rw [hm]
  simp only [hst]
  rw [if_neg (by simp)]
  rw [hgd]

theorem zincrby_live_none_eq (db : DB) (k : Key) (member : Member) (increment : D)
    (now : Int) (tick : Nat) (mv : MetaValue)
    (hm : getMeta db k = some mv) (hst : mv.isStale now = false)
    (hgd : getData db k mv.version member = none) :
    zincrby db k member increment now tick =
      (Status.ok, increment, applyBatch db
        [BatchOp.putMeta k { mv with count := mv.count + 1 },
         BatchOp.putData k mv.version member increment,
         BatchOp.putScore k mv.version increment member]) := by
  unfold zincrby
  rw [hm]
  simp only [hst]
  rw [if_neg (by simp)]
  rw [hgd]

theorem zincrby_p1 (db : DB) (now : Int) (tick : Nat) (hinv : INV db now) (k : Key)
    (member : Member) (increment : D) (hfresh : freshOk db k tick) :
    P1 (zincrby db k member increment now tick).2.2 now := by
  rcases hm : getMeta db k with _ | mv
  · rw [zincrby_none_eq db k member increment now tick hm]
    simp only []
    have hfr : FreshV db k tick := by
      simp only [freshOk, hm] at hfresh
      exact hfresh
    exact ins_batch_p1_meta_first db now hinv k tick hfr [SM.mk increment member]
      (by simp) (MetaValue.mk tick 1 0) rfl rfl
  · by_cases hst : mv.isStale now = true
    · have hfr : FreshV db k (max tick (mv.version + 1)) := by
        simp only [freshOk, hm] at hfresh
        exact hfresh
      have hgd : getData db k (max tick (mv.version + 1)) member = none :=
        getData_none_of_empty_dprefix db k _ (freshv_prefixes db k _ hfr).1 member
      rw [zincrby_stale_eq db k member increment now tick mv hm hst hgd]
      simp only []
      exact ins_batch_p1_meta_first db now hinv k (max tick (mv.version + 1)) hfr
        [SM.mk increment member] (by simp)
        (MetaValue.mk (max tick (mv.version + 1)) (0 + 1) 0) rfl (by simp)
    · have hst2 : mv.isStale now = false := by simpa using hst
      obtain ⟨hbij, hnd, hcpos⟩ := hinv.2 k mv hm hst2
      have hns := nscore_eq_ndata db k mv.version hinv.1 hbij
      rcases hgd : getData db k mv.version member with _ | old
      · rw [zincrby_live_none_eq db k member increment now tick mv hm hst2 hgd]
        simp only []
        have hins := insert_pair_counts db k mv.version hinv.1 hbij member
          increment hgd
        intro k2 mv' hm2 hlive2
        by_cases hk : k2 = k
        · rw [hk] at hm2 ⊢
          have hmF : getMeta (applyBatch db
              [BatchOp.putMeta k { mv with count := mv.count + 1 },
               BatchOp.putData k mv.version member increment,
               BatchOp.putScore k mv.version increment member]) k =
              some { mv with count := mv.count + 1 } := by
            rw [applyBatch_cons]
            rw [getMeta_applyBatch_notMeta k _ _ (by
              intro op hop
              rcases List.mem_cons.mp hop with he | he2
              · rw [he]; rfl
              · rcases List.mem_cons.mp he2 with he | he3
                · rw [he]; rfl
                · exact absurd he3 (List.not_mem_nil op))]
            exact getMeta_putMeta_self db k _
          rw [hmF] at hm2
          have hmv' : mv' = { mv with count := mv.count + 1 } :=
            (Option.some.inj hm2).symm
          rw [hmv']
          have hdeq : dpref (applyBatch db
              [BatchOp.putMeta k { mv with count := mv.count + 1 },
               BatchOp.putData k mv.version member increment,
               BatchOp.putScore k mv.version increment member]) k mv.version =
              dpref (applyBatch db
              [BatchOp.putData k mv.version member increment,
               BatchOp.putScore k mv.version increment member]) k mv.version := rfl
          have hseq : spref (applyBatch db
              [BatchOp.putMeta k { mv with count := mv.count + 1 },
               BatchOp.putData k mv.version member increment,
               BatchOp.putScore k mv.version increment member]) k mv.version =
              spref (applyBatch db
              [BatchOp.putData k mv.version member increment,
               BatchOp.putScore k mv.version increment member]) k mv.version := rfl
          constructor
          · rw [show ({ mv with count := mv.count + 1 } : MetaValue).version =
                mv.version from rfl]
            rw [ndata_dpref, hdeq, ← ndata_dpref]
            rw [show ({ mv with count := mv.count + 1 } : MetaValue).count =
                mv.count + 1 from rfl]
            rw [hins.1, hnd]
            omega
          · rw [show ({ mv with count := mv.count + 1 } : MetaValue).version =
                mv.version from rfl]
            rw [nscore_spref, hseq, ← nscore_spref]
            rw [show ({ mv with count := mv.count + 1 } : MetaValue).count =
                mv.count + 1 from rfl]
            rw [hins.2, hns, hnd]
            omega
        · have hopk : ∀ op ∈ [BatchOp.putMeta k { mv with count := mv.count + 1 },
              BatchOp.putData k mv.version member increment,
              BatchOp.putScore k mv.version increment member], opKey op = k := by
            intro op hop
            rcases List.mem_cons.mp hop with he | he2
            · rw [he]; rfl
            · rcases List.mem_cons.mp he2 with he | he3
              · rw [he]; rfl
              · rcases List.mem_cons.mp he3 with he | he4
                · rw [he]; rfl
                · exact absurd he4 (List.not_mem_nil op)
          have hpres := preserved_other_key k2 k hk _ db hopk
          rw [hpres.1] at hm2
          obtain ⟨hbij2, hnd2, hc02⟩ := hinv.2 k2 mv' hm2 hlive2
          have hns2 := nscore_eq_ndata db k2 mv'.version hinv.1 hbij2
          constructor
          · rw [ndata_dpref, (hpres.2 mv'.version).1, ← ndata_dpref, hnd2]
            omega
          · rw [nscore_spref, (hpres.2 mv'.version).2, ← nscore_spref,
              hns2, hnd2]
            omega
      · rw [zincrby_live_some_eq db k member increment now tick mv old hm hst2 hgd]
        simp only []
        have hrep := replace_pair_counts db k mv.version hinv.1 hbij member old
          (D.add old increment) hgd
        intro k2 mv' hm2 hlive2
        have hnometa : ∀ op ∈ [BatchOp.delScore k mv.version old member,
            BatchOp.putData k mv.version member (D.add old increment),
            BatchOp.putScore k mv.version (D.add old increment) member],
            isPutMeta op = false := by
          intro op hop
          rcases List.mem_cons.mp hop with he | he2
          · rw [he]; rfl
          · rcases List.mem_cons.mp he2 with he | he3
            · rw [he]; rfl
            · rcases List.mem_cons.mp he3 with he | he4
              · rw [he]; rfl
              · exact absurd he4 (List.not_mem_nil op)
        rw [getMeta_applyBatch_notMeta k2 _ db hnometa] at hm2
        by_cases hk : k2 = k
        · rw [hk] at hm2 ⊢
          rw [hm] at hm2
          have hmv' : mv' = mv := (Option.some.inj hm2).symm
          rw [hmv']
          constructor
          · rw [hrep.1, hnd]
            omega
          · rw [hrep.2, hns, hnd]
            omega
        · have hopk : ∀ op ∈ [BatchOp.delScore k mv.version old member,
              BatchOp.putData k mv.version member (D.add old increment),
              BatchOp.putScore k mv.version (D.add old increment) member],
              opKey op = k := by
            intro op hop
            rcases List.mem_cons.mp hop with he | he2
            · rw [he]; rfl
            · rcases List.mem_cons.mp he2 with he | he3
              · rw [he]; rfl
              · rcases List.mem_cons.mp he3 with he | he4
                · rw [he]; rfl
                · exact absurd he4 (List.not_mem_nil op)
          have hpres := preserved_other_key k2 k hk _ db hopk
          obtain ⟨hbij2, hnd2, hc02⟩ := hinv.2 k2 mv' hm2 hlive2
          have hns2 := nscore_eq_ndata db k2 mv'.version hinv.1 hbij2
          constructor
          · rw [ndata_dpref, (hpres.2 mv'.version).1, ← ndata_dpref, hnd2]
            omega
          · rw [nscore_spref, (hpres.2 mv'.version).2, ← nscore_spref,
              hns2, hnd2]
            omega

theorem zuUpsert_mem_fst : ∀ (l : List (Member × D)) (m : Member) (s : D),
    ∀ p ∈ zuUpsert l m s, p.1 = m ∨ p.1 ∈ l.map Prod.fst
  | [], m, s, p, hp => by
    simp only [zuUpsert, List.mem_singleton] at hp
    rw [hp]
    exact Or.inl rfl
  | (m1, s1) :: rest, m, s, p, hp => by
    rw [zuUpsert] at hp
    by_cases he : m = m1
    · rw [if_pos he] at hp
      rcases List.mem_cons.mp hp with h1 | h2
      · rw [h1]; exact Or.inl rfl
      · exact Or.inr (by
          rw [List.map_cons]
          exact List.mem_cons_of_mem _ (List.mem_map_of_mem Prod.fst h2))
    · rw [if_neg he] at hp
      by_cases hlt : keyLt m m1 = true
      · rw [if_pos hlt] at hp
        rcases List.mem_cons.mp hp with h1 | h2
        · rw [h1]; exact Or.inl rfl
        · exact Or.inr (List.mem_map_of_mem Prod.fst h2)
      · rw [if_neg hlt] at hp
        rcases List.mem_cons.mp hp with h1 | h2
        · rw [h1]
          exact Or.inr (by rw [List.map_cons]; exact List.mem_cons_self _ _)
        · rcases zuUpsert_mem_fst rest m s p h2 with h3 | h4
          · exact Or.inl h3
          · exact Or.inr (by
              rw [List.map_cons]
              exact List.mem_cons_of_mem _ h4)

theorem zuUpsert_sorted : ∀ (l : List (Member × D)) (m : Member) (s : D),
    l.Pairwise (fun a b => keyLt a.1 b.1 = true) →
    (zuUpsert l m s).Pairwise (fun a b => keyLt a.1 b.1 = true)
  | [], m, s, _ => by
    simp [zuUpsert]
  | (m1, s1) :: rest, m, s, hs => by
    rcases List.pairwise_cons.mp hs with ⟨hhead, htail⟩
    rw [zuUpsert]
    by_cases he : m = m1
    · rw [if_pos he]
      apply List.pairwise_cons.mpr
      refine ⟨?_, htail⟩
      intro b hb
      rw [he]
      exact hhead b hb
    · rw [if_neg he]
      by_cases hlt : keyLt m m1 = true
      · rw [if_pos hlt]
        apply List.pairwise_cons.mpr
        constructor
        · intro b hb
          rcases List.mem_cons.mp hb with h1 | h2
          · rw [h1]; exact hlt
          · exact keyLt_trans hlt (hhead b h2)
        · exact hs
      · rw [if_neg hlt]
        have hgt : keyLt m1 m = true := by
          rcases keyLt_trich m m1 with h | h | h
          · exact absurd h hlt
          · exact absurd h he
          · exact h
        apply List.pairwise_cons.mpr
        constructor
        · intro b hb
          rcases zuUpsert_mem_fst rest m s b hb with h1 | h2
          · rw [h1]; exact hgt
          · rcases List.mem_map.mp h2 with ⟨q, hq, hqe⟩
            rw [← hqe]
            exact hhead q hq
        · exact zuUpsert_sorted rest m s htail

theorem zuAccumRow_sorted (agg : Agg) (w : D) (map : List (Member × D)) (r : SRow)
    (hs : map.Pairwise (fun a b => keyLt a.1 b.1 = true)) :
    (zuAccumRow agg w map r).Pairwise (fun a b => keyLt a.1 b.1 = true) := by
  unfold zuAccumRow
  rcases hf : (map.find? (fun p => decide (p.1 = r.member))).map (·.2) with _ | cur
  · rw [hf]
    exact zuUpsert_sorted map r.member _ hs
  · rw [hf]
    exact zuUpsert_sorted map r.member _ hs

theorem foldl_zuAccumRow_sorted (agg : Agg) (w : D) :
    ∀ (rows : List SRow) (map : List (Member × D)),
      map.Pairwise (fun a b => keyLt a.1 b.1 = true) →
      (rows.foldl (zuAccumRow agg w) map).Pairwise
        (fun a b => keyLt a.1 b.1 = true)
  | [], map, hs => hs
  | r :: rest, map, hs => by
    rw [List.foldl_cons]
    exact foldl_zuAccumRow_sorted agg w rest _ (zuAccumRow_sorted agg w map r hs)

theorem zuFold_sorted (db : DB) (now : Int) (weights : List D) (agg : Agg) :
    ∀ (ks : List Key) (idx : Nat) (map : List (Member × D)),
      map.Pairwise (fun a b => keyLt a.1 b.1 = true) →
      (zuFold db now weights agg ks idx map).Pairwise
        (fun a b => keyLt a.1 b.1 = true)
  | [], _, map, hs => hs
  | k :: rest, idx, map, hs => by
    rw [zuFold]
    apply zuFold_sorted db now weights agg rest (idx + 1)
    rcases hmk : getMeta db k with _ | mv
    · exact hs
    · simp only []
      by_cases hcond : (!(mv.isStale now) && !decide (mv.count = 0)) = true
      · rw [if_pos hcond]
        exact foldl_zuAccumRow_sorted agg _ _ map hs
      · rw [if_neg hcond]
        exact hs

theorem sorted_fst_nodup (l : List (Member × D))
    (hs : l.Pairwise (fun a b => keyLt a.1 b.1 = true)) :
    (l.map Prod.fst).Nodup := by
  apply List.pairwise_map.mpr
  apply hs.imp
  intro a b h he
  rw [he] at h
  rw [keyLt_irrefl] at h
  exact Bool.noConfusion h

theorem overwriteDest_some (db : DB) (dest : Key) (n : Int) (tick : Nat)
    (mv : MetaValue) (hm : getMeta db dest = some mv) :
    overwriteDest db dest n tick = (max tick (mv.version + 1),
      BatchOp.putMeta dest (MetaValue.mk (max tick (mv.version + 1)) n 0)) := by
  unfold overwriteDest
  rw [hm]
  simp [initialMetaValue]

theorem overwriteDest_none (db : DB) (dest : Key) (n : Int) (tick : Nat)
    (hm : getMeta db dest = none) :
    overwriteDest db dest n tick =
      (tick, BatchOp.putMeta dest (MetaValue.mk tick n 0)) := by
  unfold overwriteDest
  rw [hm]

theorem zunionstore_p1 (db : DB) (now : Int) (tick : Nat) (hinv : INV db now)
    (dest : Key) (keys : List Key) (weights : List D) (agg : Agg)
    (hfresh : freshOk db dest tick) :
    P1 (zunionstore db dest keys weights agg now tick).2.2 now := by
  unfold zunionstore zunionstoreBatch
  simp only []
  have hndM : ((zuFold db now weights agg keys 0 []).map Prod.fst).Nodup :=
    sorted_fst_nodup _ (zuFold_sorted db now weights agg keys 0 [] (by simp))
  rcases hm : getMeta db dest with _ | mv
  · rw [overwriteDest_none db dest
      (Int.ofNat (zuFold db now weights agg keys 0 []).length) tick hm]
    simp only []
    have hfr : FreshV db dest tick := by
      simp only [freshOk, hm] at hfresh
      exact hfresh
    have hconv : ((zuFold db now weights agg keys 0 []).map (fun p =>
        [BatchOp.putData dest tick p.1 p.2,
         BatchOp.putScore dest tick p.2 p.1])).flatten =
        (((zuFold db now weights agg keys 0 []).map (fun p => SM.mk p.2 p.1)).map
          (fun sm => [BatchOp.putData dest tick sm.member sm.score,
           BatchOp.putScore dest tick sm.score sm.member])).flatten := by
      rw [List.map_map]
      rfl
    rw [hconv]
    exact ins_batch_p1_meta_first db now hinv dest tick hfr
      ((zuFold db now weights agg keys 0 []).map (fun p => SM.mk p.2 p.1))
      (by
        rw [List.map_map]
        exact hndM)
      (MetaValue.mk tick (Int.ofNat (zuFold db now weights agg keys 0 []).length) 0)
      rfl
      (by rw [List.length_map]; rfl)
  · rw [overwriteDest_some db dest
      (Int.ofNat (zuFold db now weights agg keys 0 []).length) tick mv hm]
    simp only []
    have hfr : FreshV db dest (max tick (mv.version + 1)) := by
      simp only [freshOk, hm] at hfresh
      exact hfresh
    have hconv : ((zuFold db now weights agg keys 0 []).map (fun p =>
        [BatchOp.putData dest (max tick (mv.version + 1)) p.1 p.2,
         BatchOp.putScore dest (max tick (mv.version + 1)) p.2 p.1])).flatten =
        (((zuFold db now weights agg keys 0 []).map (fun p => SM.mk p.2 p.1)).map
          (fun sm => [BatchOp.putData dest (max tick (mv.version + 1))
            sm.member sm.score,
           BatchOp.putScore dest (max tick (mv.version + 1))
            sm.score sm.member])).flatten := by
      rw [List.map_map]
      rfl
    rw [hconv]
    exact ins_batch_p1_meta_first db now hinv dest (max tick (mv.version + 1)) hfr
      ((zuFold db now weights agg keys 0 []).map (fun p => SM.mk p.2 p.1))
      (by
        rw [List.map_map]
        exact hndM)
      (MetaValue.mk (max tick (mv.version + 1))
        (Int.ofNat (zuFold db now weights agg keys 0 []).length) 0)
      rfl
      (by rw [List.length_map]; rfl)

theorem filterMap_mk_members_sublist (g : SRow → Option D) :
    ∀ (l : List SRow),
      ((l.filterMap (fun r => (g r).map (fun sc => SM.mk sc r.member))).map
        SM.member).Sublist (l.map SRow.member)
  | [] => List.Sublist.refl []
  | r :: rest => by
    rw [List.filterMap_cons, List.map_cons]
    rcases hg : g r with _ | sc
    · simp only [Option.map_none']
      exact (filterMap_mk_members_sublist g rest).cons r.member
    · simp only [Option.map_some']
      rw [List.map_cons]
      exact (filterMap_mk_members_sublist g rest).cons₂ r.member

theorem ziFinal_members_nodup (db : DB) (now : Int) (hinv : INV db now)
    (weights : List D) (agg : Agg) (k0 : Key) (mv0 : MetaValue)
    (hm0 : getMeta db k0 = some mv0) (hst0 : mv0.isStale now = false)
    (others : List (Key × Nat)) :
    ((ziFinal db weights agg k0 mv0 others).map SM.member).Nodup := by
  obtain ⟨hbij0, hnd0, hc00⟩ := hinv.2 k0 mv0 hm0 hst0
  have hplen : (prefixRowsF db k0 mv0.version).length = mv0.count.toNat := by
    rw [prefixRowsF_length, nscore_eq_ndata db k0 mv0.version hinv.1 hbij0, hnd0]
  unfold ziFinal
  simp only []
  have hsub : (((fwdRows db k0 mv0.version).take mv0.count.toNat).map
      SRow.member).Sublist ((prefixRowsF db k0 mv0.version).map SRow.member) := by
    apply List.Sublist.map
    apply take_fwdRows_sublist_prefix
    omega
  have hrows_nodup : (((fwdRows db k0 mv0.version).take mv0.count.toNat).map
      SRow.member).Nodup :=
    List.Nodup.sublist hsub
      (prefixRowsF_members_nodup db k0 mv0.version hinv.1 hbij0)
  exact List.Nodup.sublist (filterMap_mk_members_sublist _ _) hrows_nodup

theorem zinterstore_valids_spec (db : DB) (now : Int) (keys : List Key) :
    ∀ p ∈ (keys.map (fun k => (k, getMeta db k))).filterMap (fun q =>
      match q.2 with
      | some mv => if !(mv.isStale now) && !decide (mv.count = 0)
          then some (q.1, mv) else none
      | none => none),
      getMeta db p.1 = some p.2 ∧ p.2.isStale now = false ∧ ¬(p.2.count = 0) := by
  intro p hp
  rcases List.mem_filterMap.mp hp with ⟨q, hq, he⟩
  rcases List.mem_map.mp hq with ⟨k, hk, hke⟩
  rw [← hke] at he
  simp only [] at he
  rcases hm : getMeta db k with _ | mv
  · rw [hm] at he
    exact Option.noConfusion he
  · rw [hm] at he
    simp only [] at he
    by_cases hcond : (!(mv.isStale now) && !decide (mv.count = 0)) = true
    · rw [if_pos hcond] at he
      have hpe : (k, mv) = p := Option.some.inj he
      rw [← hpe]
      simp only [Bool.and_eq_true, Bool.not_eq_true',
        decide_eq_false_iff_not] at hcond
      exact ⟨hm, hcond.1, hcond.2⟩
    · rw [if_neg hcond] at he
      exact Option.noConfusion he

theorem zinterstore_p1 (db : DB) (now : Int) (tick : Nat) (hinv : INV db now)
    (dest : Key) (keys : List Key) (weights : List D) (agg : Agg) (ret0 : Int)
    (hfresh : freshOk db dest tick) :
    P1 (zinterstore db dest keys weights agg now tick ret0).2.2 now := by
  unfold zinterstore
  by_cases hk0 : keys.length = 0
  · rw [if_pos hk0]
    exact inv_implies_p1 db now hinv
  · rw [if_neg hk0]
    simp only []
    have hndF : ((if ((keys.map (fun k => (k, getMeta db k))).any (fun p =>
          match p.2 with
          | some mv => mv.isStale now || decide (mv.count = 0)
          | none => true)) = true then ([] : List SM)
        else match (keys.map (fun k => (k, getMeta db k))).filterMap (fun p =>
            match p.2 with
            | some mv => if !(mv.isStale now) && !decide (mv.count = 0)
                then some (p.1, mv) else none
            | none => none) with
          | [] => ([] : List SM)
          | (k0, mv0) :: restv => ziFinal db weights agg k0 mv0
              (restv.map (fun p => (p.1, p.2.version)))).map SM.member).Nodup := by
      by_cases hinvv : ((keys.map (fun k => (k, getMeta db k))).any (fun p =>
          match p.2 with
          | some mv => mv.isStale now || decide (mv.count = 0)
          | none => true)) = true
      · rw [if_pos hinvv]
        simp
      · rw [if_neg hinvv]
        rcases hv : (keys.map (fun k => (k, getMeta db k))).filterMap (fun p =>
            match p.2 with
            | some mv => if !(mv.isStale now) && !decide (mv.count = 0)
                then some (p.1, mv) else none
            | none => none) with _ | ⟨⟨k0, mv0⟩, restv⟩
        · rw [hv]
          exact List.nodup_nil
        · rw [hv]
          have hspec := zinterstore_valids_spec db now keys (k0, mv0)
            (by rw [hv]; exact List.mem_cons_self _ _)
          exact ziFinal_members_nodup db now hinv weights agg k0 mv0
            hspec.1 hspec.2.1 _
    rcases hm : getMeta db dest with _ | mv
    · rw [overwriteDest_none db dest _ tick hm]
      simp only []
      have hfr : FreshV db dest tick := by
        simp only [freshOk, hm] at hfresh
        exact hfresh
      exact ins_batch_p1_meta_first db now hinv dest tick hfr _ hndF _ rfl rfl
    · rw [overwriteDest_some db dest _ tick mv hm]
      simp only []
      have hfr : FreshV db dest (max tick (mv.version + 1)) := by
        simp only [freshOk, hm] at hfresh
        exact hfresh
      exact ins_batch_p1_meta_first db now hinv dest (max tick (mv.version + 1))
        hfr _ hndF _ rfl rfl

/-- A concrete reachable state: one live set `[1]` with the single member
`[5]` at score 1. -/
def invWDB : DB :=
  ⟨[([1], ⟨1, 1, 0⟩)],
   [⟨[1], 1, [5], ⟨1, false⟩⟩],
   [⟨[1], 1, ⟨1, false⟩, [5]⟩]⟩

theorem invWDB_bij : Bij invWDB [1] 1 := by
  intro s m
  constructor
  · intro h
    simp only [invWDB, List.mem_cons, List.not_mem_nil, or_false,
      SRow.mk.injEq, true_and] at h
    rcases h with ⟨hs, hmem⟩
    subst hs
    subst hmem
    decide
  · intro h
    by_cases h5 : m = [5]
    · subst h5
      have hgd : getData invWDB [1] 1 [5] = some ⟨1, false⟩ := by decide
      rw [hgd] at h
      have hs := Option.some.inj h
      rw [← hs]
      decide
    · have hgd : getData invWDB [1] 1 m = none := by
        unfold getData invWDB
        rw [List.find?_cons_of_neg _ (by
          simp only [decide_eq_true_eq]
          rintro ⟨-, -, hc⟩
          exact h5 hc.symm)]
        rfl
      rw [hgd] at h
      exact Option.noConfusion h

theorem invWDB_inv : INV invWDB 0 := by
  constructor
  · exact ⟨by decide, by decide, by decide⟩
  · intro k mv hm hlive
    by_cases hk : ([1] : Key) = k
    · rw [← hk] at hm ⊢
      have hm1 : getMeta invWDB [1] = some ⟨1, 1, 0⟩ := by decide
      rw [hm1] at hm
      have hmv : mv = ⟨1, 1, 0⟩ := (Option.some.inj hm).symm
      subst hmv
      exact ⟨invWDB_bij, by decide, by decide⟩
    · have hnone : getMeta invWDB k = none := by
        unfold getMeta invWDB
        rw [List.find?_cons_of_neg _ (by simpa using hk)]
        rfl
      rw [hnone] at hm
      exact Option.noConfusion hm

/-- C1: after each of the eight mutations commits — ZAdd, ZIncrby, ZRem,
ZRemrangebyrank, ZRemrangebyscore, ZRemrangebylex, ZUnionstore,
ZInterstore — invariant P1 holds in the resulting state: for every key
whose meta row is live with version `v` and count `c`, the number of
Data-CF rows with prefix `(key, v)` and the number of Score-CF rows with
prefix `(key, v)` both equal `c`.  The pre-state satisfies the
reachable-state invariant `INV` (P1 together with the data/score
correspondence P2), and the version clock allocates fresh versions
(`freshOk`), as `InitialMetaValue`'s monotone version bump guarantees. -/
theorem mutations_preserve_p1 (db : DB) (now : Int) (tick : Nat)
    (hinv : INV db now) :
    (∀ k sms, freshOk db k tick → P1 (zadd db k sms now tick).2.2 now) ∧
    (∀ k m inc, freshOk db k tick → P1 (zincrby db k m inc now tick).2.2 now) ∧
    (∀ k ms, P1 (zrem db k ms now).2.2 now) ∧
    (∀ k a b, P1 (zremrangebyrank db k a b now).2.2 now) ∧
    (∀ k mn mx lc rc, P1 (zremrangebyscore db k mn mx lc rc now).2.2 now) ∧
    (∀ k mn mx lc rc, P1 (zremrangebylex db k mn mx lc rc now).2.2 now) ∧
    (∀ dest keys ws agg, freshOk db dest tick →
      P1 (zunionstore db dest keys ws agg now tick).2.2 now) ∧
    (∀ dest keys ws agg r0, freshOk db dest tick →
      P1 (zinterstore db dest keys ws agg now tick r0).2.2 now) :=
  ⟨fun k sms hf => zadd_p1 db now tick hinv k sms hf,
   fun k m inc hf => zincrby_p1 db now tick hinv k m inc hf,
   fun k ms => zrem_p1 db now hinv k ms,
   fun k a b => zremrangebyrank_p1 db now hinv k a b,
   fun k mn mx lc rc => zremrangebyscore_p1 db now hinv k mn mx lc rc,
   fun k mn mx lc rc => zremrangebylex_p1 db now hinv k mn mx lc rc,
   fun dest keys ws agg hf => zunionstore_p1 db now tick hinv dest keys ws agg hf,
   fun dest keys ws agg r0 hf =>
     zinterstore_p1 db now tick hinv dest keys ws agg r0 hf⟩

/-- C1 witness: the preservation theorem applied to the concrete state
`invWDB` at clock 0 with version tick 5, the `INV` hypothesis discharged
by an explicit proof. -/
theorem mutations_preserve_p1_witness :
    (∀ k sms, freshOk invWDB k 5 → P1 (zadd invWDB k sms 0 5).2.2 0) ∧
    (∀ k m inc, freshOk invWDB k 5 → P1 (zincrby invWDB k m inc 0 5).2.2 0) ∧
    (∀ k ms, P1 (zrem invWDB k ms 0).2.2 0) ∧
    (∀ k a b, P1 (zremrangebyrank invWDB k a b 0).2.2 0) ∧
    (∀ k mn mx lc rc, P1 (zremrangebyscore invWDB k mn mx lc rc 0).2.2 0) ∧
    (∀ k mn mx lc rc, P1 (zremrangebylex invWDB k mn mx lc rc 0).2.2 0) ∧
    (∀ dest keys ws agg, freshOk invWDB dest 5 →
      P1 (zunionstore invWDB dest keys ws agg 0 5).2.2 0) ∧
    (∀ dest keys ws agg r0, freshOk invWDB dest 5 →
      P1 (zinterstore invWDB dest keys ws agg 0 5 r0).2.2 0) :=
  mutations_preserve_p1 invWDB 0 5 invWDB_inv

end Blackwidow
